import Mathlib

/-!
Verification development for the configuration-resolution core of the
`gin-config` library (`gin/config.py`, `gin/selector_map.py`,
`gin/config_parser.py`), as a shallow embedding in Lean 4.

Python dictionaries are modelled as association lists with Python's
`dict` semantics (`__setitem__` replaces in place or appends, `update`
applies `__setitem__` for every item of the argument, `pop` removes the
key).  Mutation of module-level state is modelled by explicit state
passing.  Python exceptions are modelled with `Except`.
-/

namespace Gin

/-! ## Python `dict` model -/

/-- A Python dictionary: an association list in insertion order, whose
keys are kept unique by the operations below (as in CPython). -/
abbrev PyDict (κ : Type) (α : Type) := List (κ × α)

variable {κ : Type} [DecidableEq κ] {α : Type}

/-- Dictionary lookup (`d.get(k)`), returning `none` when the key is
absent.  Scans in order; keys are unique in dictionaries built by `dset`. -/
def dget : PyDict κ α → κ → Option α
  | [], _ => none
  | kv :: d, k => if k = kv.1 then some kv.2 else dget d k

/-- Lookup of the most recent assignment to `k`: agrees with `dget`
whenever the keys are unique, and gives the last-writer-wins reading
otherwise. -/
def dgetLast (d : PyDict κ α) (k : κ) : Option α :=
  dget d.reverse k

/-- Replace the value of every item whose key is `k` (helper for `dset`). -/
def dreplace (d : PyDict κ α) (k : κ) (v : α) : PyDict κ α :=
  d.map (fun kv => if kv.1 = k then (k, v) else kv)

/-- Python `d[k] = v`: replace the value in place if `k` is present,
otherwise append the new item at the end (insertion order). -/
def dset (d : PyDict κ α) (k : κ) (v : α) : PyDict κ α :=
  if (dget d k).isSome then dreplace d k v else d ++ [(k, v)]

/-- Python `d.update(e)`: perform `d[k] = v` for every item of `e`, in order. -/
def dupdate (d e : PyDict κ α) : PyDict κ α :=
  e.foldl (fun acc kv => dset acc kv.1 kv.2) d

/-- Python `d.pop(k, None)`: remove key `k` (no-op when absent). -/
def dpop (d : PyDict κ α) (k : κ) : PyDict κ α :=
  d.filter (fun kv => kv.1 != k)

/-- Python `k in d`. -/
def dmem (d : PyDict κ α) (k : κ) : Bool :=
  (dget d k).isSome

theorem dget_append (d e : PyDict κ α) (k : κ) :
    dget (d ++ e) k = (dget d k).or (dget e k) := by
  induction d with
  | nil => simp [dget]
  | cons kv d ih =>
      by_cases h : k = kv.1
      · simp [dget, h]
      · simp [dget, h, ih]

theorem dget_dreplace (d : PyDict κ α) (k : κ) (v : α) (k' : κ) :
    dget (dreplace d k v) k' =
      if k' = k then (dget d k).map (fun _ => v) else dget d k' := by
  induction d with
  | nil => simp [dreplace, dget]
  | cons kv d ih =>
      simp only [dreplace, List.map_cons] at *
      by_cases h1 : kv.1 = k
      · subst h1
        by_cases h2 : k' = kv.1 <;> simp [dget, h2, ih]
      · rw [if_neg h1]
        by_cases h2 : k' = kv.1
        · subst h2
          simp [dget, h1]
        · have h3 : ¬k = kv.1 := fun h => h1 h.symm
          simp [dget, h2, h3, ih]

theorem dget_dset (d : PyDict κ α) (k : κ) (v : α) (k' : κ) :
    dget (dset d k v) k' = if k' = k then some v else dget d k' := by
  unfold dset
  by_cases hmem : (dget d k).isSome
  · rw [if_pos hmem, dget_dreplace]
    by_cases h' : k' = k
    · obtain ⟨w, hw⟩ := Option.isSome_iff_exists.mp hmem
      simp [h', hw]
    · simp [h']
  · rw [if_neg hmem, dget_append]
    have hnone : dget d k = none := by
      cases h : dget d k with
      | none => rfl
      | some _ => simp [h] at hmem
    by_cases h' : k' = k
    · simp [h', hnone, dget]
    · cases h : dget d k' with
      | none => simp [h, dget, h']
      | some w => simp [h, h']

theorem dget_dupdate (d e : PyDict κ α) (k : κ) :
    dget (dupdate d e) k = (dgetLast e k).or (dget d k) := by
  induction e generalizing d with
  | nil => simp [dupdate, dgetLast, dget]
  | cons kv e ih =>
      show dget (dupdate (dset d kv.1 kv.2) e) k = _
      rw [ih]
      have : dgetLast (kv :: e) k = (dgetLast e k).or (dget [kv] k) := by
        simp only [dgetLast, List.reverse_cons]
        exact dget_append _ _ _
      rw [this, dget_dset]
      cases h : dgetLast e k with
      | some w => simp
      | none =>
          by_cases hk : k = kv.1
          · simp [dget, hk]
          · simp [dget, hk]

theorem dget_dpop (d : PyDict κ α) (k k' : κ) :
    dget (dpop d k) k' = if k' = k then none else dget d k' := by
  induction d with
  | nil => simp [dpop, dget]
  | cons kv d ih =>
      simp only [dpop] at ih ⊢
      rw [List.filter_cons]
      by_cases h : kv.1 = k
      · have hf : (kv.1 != k) = false := by simp [h]
        rw [hf]
        simp only [Bool.false_eq_true, if_false, ih]
        by_cases h' : k' = k
        · simp [h']
        · have h2 : ¬k' = kv.1 := by rw [h]; exact h'
          simp [h', dget, h2]
      · have ht : (kv.1 != k) = true := by simp [h]
        rw [ht]
        simp only [if_true]
        simp only [dget]
        by_cases h' : k' = kv.1
        · have hnk : ¬k' = k := fun hh => h (h'.symm.trans hh)
          simp [h', hnk, h]
        · simp [h', ih]

theorem dmem_iff (d : PyDict κ α) (k : κ) :
    dmem d k = true ↔ (dget d k).isSome := by
  simp [dmem]

end Gin

namespace Gin

/-! ## Scope-aware binding store and prefix merge (`_get_bindings`) -/

/-- The global `_CONFIG`: maps `(scope_str, selector)` to a dictionary
of parameter bindings (values of an arbitrary type `α`). -/
abbrev Store (α : Type) := PyDict (String × String) (PyDict String α)

/-- Python `'/'.join(components)`. -/
def joinScope (components : List String) : String :=
  String.intercalate "/" components

/-- Shallow embedding of `_get_bindings` (`config.py`): merge, over every
scope-path level `scope_components[:i]` for `i = 0..n` (or only the exact
scope in strict mode), the bindings stored for `selector`, with later
(deeper) levels overwriting earlier (shallower) ones per parameter. -/
def getBindings {α : Type} (cfg : Store α) (selector : String)
    (scopeComponents : List String) (inheritScopes : Bool := true) :
    PyDict String α :=
  let scopeLevels :=
    if !inheritScopes then [scopeComponents]
    else (List.range (scopeComponents.length + 1)).map
      (fun i => scopeComponents.take i)
  scopeLevels.foldl
    (fun newKwargs level =>
      dupdate newKwargs ((dget cfg (joinScope level, selector)).getD []))
    []

/-- Wellformedness of a binding store: every per-`(scope, selector)`
parameter dictionary has unique keys (true of every CPython dict). -/
def StoreWF {α : Type} (cfg : Store α) : Prop :=
  ∀ kv ∈ cfg, (kv.2.map Prod.fst).Nodup

instance {α : Type} (cfg : Store α) : Decidable (StoreWF cfg) :=
  inferInstanceAs (Decidable (∀ kv ∈ cfg, (kv.2.map Prod.fst).Nodup))

theorem mem_of_dget_eq_some {κ α : Type} [DecidableEq κ]
    {d : PyDict κ α} {k : κ} {v : α} (h : dget d k = some v) : (k, v) ∈ d := by
  induction d with
  | nil => simp [dget] at h
  | cons kv d ih =>
      by_cases hk : k = kv.1
      · simp only [dget, if_pos hk] at h
        cases h
        subst hk
        simp
      · simp only [dget, if_neg hk] at h
        exact List.mem_cons_of_mem _ (ih h)

theorem dget_eq_none_of_not_mem {κ α : Type} [DecidableEq κ]
    (d : PyDict κ α) (k : κ) (h : k ∉ d.map Prod.fst) : dget d k = none := by
  induction d with
  | nil => rfl
  | cons kv d ih =>
      simp only [List.map_cons, List.mem_cons, not_or] at h
      simp [dget, h.1, ih h.2]

theorem dgetLast_eq_dget_of_nodup {κ α : Type} [DecidableEq κ]
    (d : PyDict κ α) (h : (d.map Prod.fst).Nodup) (k : κ) :
    dgetLast d k = dget d k := by
  unfold dgetLast
  induction d with
  | nil => rfl
  | cons kv d ih =>
      simp only [List.map_cons, List.nodup_cons] at h
      rw [List.reverse_cons, dget_append, ih h.2]
      by_cases hk : k = kv.1
      · rw [hk, dget_eq_none_of_not_mem d kv.1 h.1]
        simp [dget]
      · simp [dget, hk]

theorem dget_foldl_dupdate {κ α : Type} [DecidableEq κ]
    (ls : List (PyDict κ α)) (init : PyDict κ α) (p : κ) :
    dget (ls.foldl dupdate init) p =
      (ls.foldr (fun lvl acc => acc.or (dgetLast lvl p)) none).or (dget init p) := by
  induction ls generalizing init with
  | nil => simp
  | cons l ls ih =>
      simp only [List.foldl_cons, List.foldr_cons]
      rw [ih, dget_dupdate, Option.or_assoc]

/-- The value that the claim predicts for parameter `p`: scanning the scope
levels from the deepest prefix `S[:n]` down to the root `S[:0]`, the first
level that binds `p` for `selector` wins. -/
def deepestPrefixValue {α : Type} (cfg : Store α) (selector : String)
    (scopeComponents : List String) (p : String) : Option α :=
  ((List.range (scopeComponents.length + 1)).reverse).findSome?
    (fun i =>
      dget ((dget cfg (joinScope (scopeComponents.take i), selector)).getD []) p)

theorem getBindings_eq_deepestPrefixValue {α : Type}
    (cfg : Store α) (selector : String) (scopeComponents : List String)
    (p : String) (hwf : StoreWF cfg) :
    dget (getBindings cfg selector scopeComponents true) p =
      deepestPrefixValue cfg selector scopeComponents p := by
  unfold getBindings deepestPrefixValue
  simp only [Bool.not_true, Bool.false_eq_true, if_false]
  rw [← List.foldl_map, dget_foldl_dupdate]
  have hlast : ∀ i,
      dgetLast ((dget cfg (joinScope (scopeComponents.take i), selector)).getD []) p
        = dget ((dget cfg (joinScope (scopeComponents.take i), selector)).getD []) p := by
    intro i
    cases hv : dget cfg (joinScope (scopeComponents.take i), selector) with
    | none => simp [dgetLast, dget]
    | some d =>
        exact dgetLast_eq_dget_of_nodup d (hwf _ (mem_of_dget_eq_some hv)) p
  generalize hn : scopeComponents.length + 1 = n
  have main : ∀ (m : List Nat),
      (((m.map (fun i =>
            (dget cfg (joinScope (scopeComponents.take i), selector)).getD [])).foldr
          (fun lvl acc => acc.or (dgetLast lvl p)) none)).or (dget ([] : PyDict String α) p)
        = m.reverse.findSome? (fun i =>
            dget ((dget cfg (joinScope (scopeComponents.take i), selector)).getD []) p) := by
    intro m
    induction m with
    | nil => simp [dget]
    | cons i m ih =>
        simp only [List.map_cons, List.foldr_cons, List.reverse_cons,
          List.findSome?_append]
        have hnil : dget ([] : PyDict String α) p = none := rfl
        rw [hnil, Option.or_none] at ih ⊢
        rw [ih, hlast i]
        have hsingle : List.findSome? (fun j =>
            dget ((dget cfg (joinScope (scopeComponents.take j), selector)).getD []) p) [i]
            = dget ((dget cfg (joinScope (scopeComponents.take i), selector)).getD []) p := by
          cases h : dget ((dget cfg (joinScope (scopeComponents.take i), selector)).getD []) p
            <;> simp [List.findSome?, h]
        rw [hsingle]
  rw [List.map_map]
  exact main (List.range n)

end Gin

namespace Gin

/-! ## Claim C1 -/

/-- C1: for every selector and active scope path `S = [s1..sn]`, the override
map assembled by `_get_bindings` is the union of the bindings stored at each
scope level `S[:0] .. S[:n]` applied in that order, so that a parameter bound
at a deeper level overwrites the same parameter bound at a shallower one
(equivalently: each parameter resolves to its value at the deepest level
binding it); in particular, with `x` bound to `1` at the root scope, `2` at
scope `a`, and nothing at `a/b`, resolution yields `x=2` under scope `a/b`,
`x=2` under scope `a`, and `x=1` under no scope. -/
theorem claim_C1_scope_override_merge :
    (∀ (α : Type) (cfg : Store α) (selector : String)
        (scope : List String) (p : String), StoreWF cfg →
        dget (getBindings cfg selector scope true) p =
          deepestPrefixValue cfg selector scope p)
    ∧ (dget (getBindings
          [(("", "f"), [("x", 1)]), (("a", "f"), [("x", 2)]), (("a/b", "f"), [])]
          "f" ["a", "b"] true) "x" = some 2
      ∧ dget (getBindings
          [(("", "f"), [("x", 1)]), (("a", "f"), [("x", 2)]), (("a/b", "f"), [])]
          "f" ["a"] true) "x" = some 2
      ∧ dget (getBindings
          [(("", "f"), [("x", 1)]), (("a", "f"), [("x", 2)]), (("a/b", "f"), [])]
          "f" [] true) "x" = some 1) := by
  refine ⟨fun α cfg selector scope p hwf =>
    getBindings_eq_deepestPrefixValue cfg selector scope p hwf, ?_, ?_, ?_⟩
  · rfl
  · rfl
  · rfl

/-- Witness for C1: the general override-merge law applied to the concrete
three-level example store. -/
theorem claim_C1_witness :
    StoreWF ([(("", "f"), [("x", 1)]), (("a", "f"), [("x", 2)]),
        (("a/b", "f"), ([] : PyDict String Nat))])
    ∧ dget (getBindings
          [(("", "f"), [("x", 1)]), (("a", "f"), [("x", 2)]), (("a/b", "f"), [])]
          "f" ["a", "b"] true) "x" =
        deepestPrefixValue
          [(("", "f"), [("x", 1)]), (("a", "f"), [("x", 2)]), (("a/b", "f"), [])]
          "f" ["a", "b"] "x" :=
  ⟨by decide, claim_C1_scope_override_merge.1 Nat
    [(("", "f"), [("x", 1)]), (("a", "f"), [("x", 2)]), (("a/b", "f"), [])]
    "f" ["a", "b"] "x" (by decide)⟩

end Gin

namespace Gin

/-! ## Python string splitting, modelled on character lists -/

/-- Model of Python `str.split(sep)` (single-character separator): always
returns at least one (possibly empty) part. -/
def splitOnSep (sep : Char) : List Char → List (List Char)
  | [] => [[]]
  | c :: rest =>
      match splitOnSep sep rest with
      | [] => [[]]
      | h :: t => if c = sep then [] :: h :: t else (c :: h) :: t

/-- Model of Python `sep.join(parts)`. -/
def joinWithSep (sep : Char) : List (List Char) → List Char
  | [] => []
  | [h] => h
  | h :: h' :: t => h ++ sep :: joinWithSep sep (h' :: t)

theorem splitOnSep_ne_nil (sep : Char) (cs : List Char) :
    splitOnSep sep cs ≠ [] := by
  cases cs with
  | nil => simp [splitOnSep]
  | cons c rest =>
      simp only [splitOnSep]
      cases splitOnSep sep rest with
      | nil => simp
      | cons h t =>
          by_cases hc : c = sep <;> simp [hc]

theorem joinWithSep_splitOnSep (sep : Char) (cs : List Char) :
    joinWithSep sep (splitOnSep sep cs) = cs := by
  induction cs with
  | nil => rfl
  | cons c rest ih =>
      simp only [splitOnSep]
      cases hs : splitOnSep sep rest with
      | nil => exact absurd hs (splitOnSep_ne_nil sep rest)
      | cons h t =>
          rw [hs] at ih
          by_cases hc : c = sep
          · subst hc
            simp only [if_pos rfl, joinWithSep]
            rw [ih]
            rfl
          · simp only [if_neg hc]
            cases t with
            | nil => simp only [joinWithSep] at ih ⊢; rw [ih]
            | cons h' t' => simp only [joinWithSep] at ih ⊢; rw [← ih]; rfl

/-- Python `s.split(sep)` producing `String` parts. -/
def strSplit (s : String) (sep : Char) : List String :=
  (splitOnSep sep s.data).map String.mk

/-- Python `sep.join(parts)` producing a `String`. -/
def strJoin (sep : Char) (parts : List String) : String :=
  String.mk (joinWithSep sep (parts.map String.data))

theorem strJoin_strSplit (sep : Char) (s : String) :
    strJoin sep (strSplit s sep) = s := by
  apply String.ext
  show (joinWithSep sep (((splitOnSep sep s.data).map String.mk).map String.data)) = _
  rw [List.map_map]
  have : (String.data ∘ String.mk) = id := by
    funext l; rfl
  rw [this, List.map_id]
  exact joinWithSep_splitOnSep sep s.data

theorem strSplit_injective (sep : Char) {s s' : String}
    (h : strSplit s sep = strSplit s' sep) : s = s' := by
  have := congrArg (strJoin sep) h
  rwa [strJoin_strSplit, strJoin_strSplit] at this

end Gin

namespace Gin

/-! ## `SelectorMap` (`selector_map.py`) -/

/-- A node of the suffix tree `_selector_tree`.  A Python node is a dict
whose keys are selector components plus the reserved terminal key `'$'`;
it is modelled as the optional terminal value (`'$'` entry) together with
the children association list in insertion order. -/
inductive SelTree where
  | node (termVal : Option String) (children : List (String × SelTree))

def SelTree.termVal : SelTree → Option String
  | .node t _ => t

def SelTree.children : SelTree → List (String × SelTree)
  | .node _ cs => cs

/-- Python `len(node)`: the number of dict keys, counting the `'$'` key. -/
def SelTree.pyLen (t : SelTree) : Nat :=
  t.children.length + (if t.termVal.isSome then 1 else 0)

/-- The empty tree `{}`. -/
def SelTree.empty : SelTree := .node none []

/-- Character class of Python's `\w` (ASCII reading). -/
def isWordChar (c : Char) : Bool :=
  c.isAlphanum || c = '_'

/-- Python `IDENTIFIER_RE`: `^[a-zA-Z_]\w*$` (ASCII reading). -/
def isIdentifier (s : String) : Bool :=
  match s.data with
  | [] => false
  | c :: rest => (c.isAlpha || c = '_') && rest.all isWordChar

/-- Python `SELECTOR_RE` (= `MODULE_RE`): `^([a-zA-Z_]\w*\.)*[a-zA-Z_]\w*$`:
one or more identifiers separated by periods. -/
def isValidSelector (s : String) : Bool :=
  (strSplit s '.').all isIdentifier

/-- Insertion into the suffix tree along reversed selector components:
`node = node.setdefault(component, {})` for each component (the existing
child is reused in place, a missing child starts as `{}` and is appended),
then `node['$'] = complete_selector` at the final node. -/
def insertTree : SelTree → List String → String → SelTree
  | .node _ cs, [], full => .node (some full) cs
  | .node tv cs, c :: rest, full =>
      .node tv (dset cs c (insertTree ((dget cs c).getD SelTree.empty) rest full))

/-- Walk the tree along a component path (the lookup loop of
`matching_selectors`), `none` when some component is missing. -/
def walkTree : SelTree → List String → Option SelTree
  | t, [] => some t
  | t, c :: rest =>
      match dget t.children c with
      | none => none
      | some child => walkTree child rest

mutual

/-- All complete selectors stored in the subtree (the DFS of
`matching_selectors`; the claims about it are order-insensitive, so the
stack-based DFS is modelled as a recursive traversal). -/
def collectTree : SelTree → List String
  | .node t cs => t.toList ++ collectChildren cs

/-- Traversal of a children list (helper for `collectTree`). -/
def collectChildren : List (String × SelTree) → List String
  | [] => []
  | kv :: cs => collectTree kv.2 ++ collectChildren cs

end

/-- The terminal value found by walking `path`. -/
def terminalAt (t : SelTree) (path : List String) : Option String :=
  (walkTree t path).bind SelTree.termVal

/-- The `SelectorMap` object: the suffix tree together with the flat
`_selector_map` dictionary from complete selectors to values. -/
structure SelectorMap (α : Type) where
  tree : SelTree
  map : PyDict String α

/-- `SelectorMap()`: the empty map. -/
def SelectorMap.empty {α : Type} : SelectorMap α :=
  ⟨SelTree.empty, []⟩

/-- `__setitem__`: validate the selector, insert into the suffix tree along
reversed components, and record the value in the flat map. -/
def SelectorMap.setItem {α : Type} (m : SelectorMap α) (sel : String) (v : α) :
    Except String (SelectorMap α) :=
  if isValidSelector sel then
    .ok ⟨insertTree m.tree (strSplit sel '.').reverse sel, dset m.map sel v⟩
  else
    .error ("Invalid selector " ++ sel)

/-- `matching_selectors`: an exact hit returns only itself; otherwise walk
the reversed components of the partial selector and collect every complete
selector stored in the reached subtree. -/
def SelectorMap.matchingSelectors {α : Type} (m : SelectorMap α)
    (psel : String) : List String :=
  if dmem m.map psel then [psel]
  else
    match walkTree m.tree (strSplit psel '.').reverse with
    | none => []
    | some t => collectTree t

/-- Error raised by `get_match` (`KeyError` contents). -/
inductive KeyErr where
  | ambiguous (psel : String) (found : List String)
  | missing (key : String)
  deriving DecidableEq, Repr

/-- `get_match`: default when nothing matches, the unique match's value when
exactly one selector matches, `KeyError` when several do. -/
def SelectorMap.getMatch {α : Type} (m : SelectorMap α) (psel : String)
    (dflt : α) : Except KeyErr α :=
  match m.matchingSelectors psel with
  | [] => .ok dflt
  | s :: rest =>
      if rest.isEmpty then
        match dget m.map s with
        | some v => .ok v
        | none => .error (.missing s)
      else .error (.ambiguous psel (s :: rest))

/-- Python list slice `l[start:]` where `start` is `None` or a possibly
negative index (`l[-k:]` is the last `k` elements, `l[-0:]` is all of `l`). -/
def pySliceFrom (l : List String) : Option Int → List String
  | none => l
  | some (Int.ofNat n) => l.drop n
  | some (Int.negSucc k) => l.drop (l.length - (k + 1))

/-- The scanning loop of `minimal_selector`: walk the reversed components,
remembering (as a negative start index) the first position from which every
visited node has exactly one key.  `node[component]` on a missing component
is a `KeyError`. -/
def minimalLoop : SelTree → List String → Nat → Option Int →
    Except String (SelTree × Option Int)
  | t, [], _, start => .ok (t, start)
  | t, c :: rest, i, start =>
      let start' :=
        if t.pyLen = 1 then (if start = none then some (-(i : Int)) else start)
        else none
      match dget t.children c with
      | none => .error "KeyError"
      | some child => minimalLoop child rest (i + 1) start'

/-- `minimal_selector`: `KeyError` when the selector is not stored; the full
selector when the final node has more than one key; otherwise the slice
`components[start:]` joined with periods. -/
def SelectorMap.minimalSelector {α : Type} (m : SelectorMap α)
    (sel : String) : Except String String :=
  if !(dmem m.map sel) then .error ("No value with selector " ++ sel)
  else
    match minimalLoop m.tree (strSplit sel '.').reverse 0 none with
    | .error e => .error e
    | .ok (t, start) =>
        if t.pyLen > 1 then .ok sel
        else .ok (strJoin '.' (pySliceFrom (strSplit sel '.') start))

/-- Modelled from the spec: `remove(full_selector)` (§4.1: "deletes the
terminal marker and prunes now-empty chain nodes").  `selector_map.py` as
present under `src/` offers no deletion (its test suite exercises a `pop`
method that the file does not contain), so removal is modelled from the
spec's words: walk the reversed components, clear the terminal marker at the
final node, and prune every child entry that becomes empty on the way back
up. -/
def removeTree : SelTree → List String → SelTree
  | .node _ cs, [] => .node none cs
  | .node tv cs, c :: rest =>
      match dget cs c with
      | none => .node tv cs
      | some child =>
          let pruned := removeTree child rest
          .node tv (if pruned.pyLen = 0 then dpop cs c else dset cs c pruned)

/-- Modelled from the spec: removal drops the selector from the flat map and
deletes/prunes its suffix-tree path. -/
def SelectorMap.remove {α : Type} (m : SelectorMap α) (sel : String) :
    SelectorMap α :=
  ⟨removeTree m.tree (strSplit sel '.').reverse, dpop m.map sel⟩

end Gin

namespace Gin

/-! ## Suffix-tree lemmas -/

/-- Reversed component list of a selector (insertion/lookup path). -/
def RevComps (s : String) : List String :=
  (strSplit s '.').reverse

theorem terminalAt_empty (path : List String) :
    terminalAt SelTree.empty path = none := by
  cases path with
  | nil => rfl
  | cons c rest =>
      simp [terminalAt, walkTree, SelTree.empty, SelTree.children, dget]


theorem terminalAt_cons_some {cs : List (String × SelTree)} {c : String}
    {child : SelTree} (tv : Option String) (rest : List String)
    (hd : dget cs c = some child) :
    terminalAt (.node tv cs) (c :: rest) = terminalAt child rest := by
  simp [terminalAt, walkTree, SelTree.children, hd]

theorem terminalAt_cons_none {cs : List (String × SelTree)} {c : String}
    (tv : Option String) (rest : List String) (hd : dget cs c = none) :
    terminalAt (.node tv cs) (c :: rest) = none := by
  simp [terminalAt, walkTree, SelTree.children, hd]

theorem terminalAt_insertTree (t : SelTree) (rcs : List String) (full : String)
    (path : List String) :
    terminalAt (insertTree t rcs full) path =
      if path = rcs then some full else terminalAt t path := by
  induction rcs generalizing t path with
  | nil =>
      obtain ⟨tv, cs⟩ := t
      simp only [insertTree]
      cases path with
      | nil => simp [terminalAt, walkTree, SelTree.termVal]
      | cons c rest =>
          rw [if_neg (List.cons_ne_nil c rest)]
          cases hd : dget cs c with
          | none => rw [terminalAt_cons_none _ _ hd, terminalAt_cons_none _ _ hd]
          | some child =>
              rw [terminalAt_cons_some _ _ hd, terminalAt_cons_some _ _ hd]
  | cons c0 rest0 ih =>
      obtain ⟨tv, cs⟩ := t
      simp only [insertTree]
      cases path with
      | nil =>
          rw [if_neg (by simp : ¬([] : List String) = c0 :: rest0)]
          simp [terminalAt, walkTree, SelTree.termVal]
      | cons c rest =>
          by_cases hc : c = c0
          · subst hc
            have hload : dget (dset cs c
                  (insertTree ((dget cs c).getD SelTree.empty) rest0 full)) c =
                some (insertTree ((dget cs c).getD SelTree.empty) rest0 full) := by
              rw [dget_dset, if_pos rfl]
            rw [terminalAt_cons_some _ _ hload, ih]
            by_cases hr : rest = rest0
            · rw [if_pos hr, if_pos (by rw [hr])]
            · rw [if_neg hr, if_neg (by simp [hr])]
              cases hd : dget cs c with
              | none =>
                  rw [terminalAt_cons_none _ _ hd]
                  simp [hd, terminalAt_empty]
              | some child =>
                  rw [terminalAt_cons_some _ _ hd]
                  simp [hd]
          · have hskip : dget (dset cs c0
                  (insertTree ((dget cs c0).getD SelTree.empty) rest0 full)) c =
                dget cs c := by
              rw [dget_dset, if_neg hc]
            rw [if_neg (by simp [hc])]
            cases hd : dget cs c with
            | none =>
                rw [terminalAt_cons_none _ _ (hskip.trans hd),
                  terminalAt_cons_none _ _ hd]
            | some child =>
                rw [terminalAt_cons_some _ _ (hskip.trans hd),
                  terminalAt_cons_some _ _ hd]

mutual

/-- Wellformedness of a suffix tree: every children dict has unique keys
(true of every CPython dict). -/
def SelTree.keysWF : SelTree → Prop
  | .node _ cs => (cs.map Prod.fst).Nodup ∧ childrenWF cs

/-- Wellformedness of a children list (helper for `SelTree.keysWF`). -/
def childrenWF : List (String × SelTree) → Prop
  | [] => True
  | kv :: cs => kv.2.keysWF ∧ childrenWF cs

end

theorem childrenWF_iff (cs : List (String × SelTree)) :
    childrenWF cs ↔ ∀ kv ∈ cs, kv.2.keysWF := by
  induction cs with
  | nil => simp [childrenWF]
  | cons kv cs ih =>
      simp only [childrenWF, ih, List.mem_cons]
      constructor
      · rintro ⟨h1, h2⟩ kv' (h | h)
        · subst h; exact h1
        · exact h2 kv' h
      · intro h
        exact ⟨h kv (Or.inl rfl), fun kv' h' => h kv' (Or.inr h')⟩

theorem keysWF_node (tv : Option String) (cs : List (String × SelTree)) :
    (SelTree.node tv cs).keysWF ↔
      (cs.map Prod.fst).Nodup ∧ ∀ kv ∈ cs, kv.2.keysWF := by
  rw [SelTree.keysWF, childrenWF_iff]

theorem keysWF_empty : SelTree.empty.keysWF := by
  rw [SelTree.empty, keysWF_node]
  simp

theorem dget_eq_of_mem_nodup {κ α : Type} [DecidableEq κ]
    {d : PyDict κ α} (hnd : (d.map Prod.fst).Nodup) {kv : κ × α}
    (hmem : kv ∈ d) : dget d kv.1 = some kv.2 := by
  induction d with
  | nil => simp at hmem
  | cons hd d ih =>
      simp only [List.map_cons, List.nodup_cons] at hnd
      rcases List.mem_cons.mp hmem with h | h
      · subst h
        simp [dget]
      · have hne : ¬kv.1 = hd.1 := by
          intro hh
          exact hnd.1 (hh ▸ (List.mem_map_of_mem Prod.fst h))
        simp only [dget, if_neg hne]
        exact ih hnd.2 h

theorem keys_dreplace {κ α : Type} [DecidableEq κ]
    (d : PyDict κ α) (k : κ) (v : α) :
    (dreplace d k v).map Prod.fst = d.map Prod.fst := by
  induction d with
  | nil => rfl
  | cons kv d ih =>
      simp only [dreplace, List.map_cons] at ih ⊢
      by_cases h : kv.1 = k
      · rw [if_pos h, ih]
        simp [h]
      · rw [if_neg h, ih]

theorem dget_isSome_of_mem_keys {κ α : Type} [DecidableEq κ]
    {d : PyDict κ α} {k : κ} (h : k ∈ d.map Prod.fst) :
    (dget d k).isSome := by
  induction d with
  | nil => simp at h
  | cons kv d ih =>
      simp only [List.map_cons, List.mem_cons] at h
      by_cases hk : k = kv.1
      · simp [dget, hk]
      · rcases h with h | h
        · exact absurd h hk
        · simp [dget, hk, ih h]

theorem keys_dset {κ α : Type} [DecidableEq κ] (d : PyDict κ α) (k : κ)
    (v : α) :
    (dset d k v).map Prod.fst =
      if (dget d k).isSome then d.map Prod.fst
      else d.map Prod.fst ++ [k] := by
  unfold dset
  by_cases h : (dget d k).isSome
  · rw [if_pos h, if_pos h, keys_dreplace]
  · rw [if_neg h, if_neg h]
    simp

theorem mem_dset {κ α : Type} [DecidableEq κ] {d : PyDict κ α} {k : κ}
    {v : α} {kv' : κ × α} (h : kv' ∈ dset d k v) :
    kv' = (k, v) ∨ kv' ∈ d := by
  unfold dset at h
  by_cases hs : (dget d k).isSome
  · rw [if_pos hs] at h
    obtain ⟨kv, hkv, heq⟩ := List.mem_map.mp h
    by_cases hk : kv.1 = k
    · rw [if_pos hk] at heq
      exact Or.inl heq.symm
    · rw [if_neg hk] at heq
      exact Or.inr (heq ▸ hkv)
  · rw [if_neg hs] at h
    rcases List.mem_append.mp h with h | h
    · exact Or.inr h
    · exact Or.inl (List.mem_singleton.mp h)

theorem keysWF_insertTree (t : SelTree) (rcs : List String) (full : String)
    (hwf : t.keysWF) : (insertTree t rcs full).keysWF := by
  induction rcs generalizing t with
  | nil =>
      obtain ⟨tv, cs⟩ := t
      simp only [insertTree]
      rw [keysWF_node] at hwf ⊢
      exact hwf
  | cons c rest ih =>
      obtain ⟨tv, cs⟩ := t
      rw [keysWF_node] at hwf
      obtain ⟨hnd, hall⟩ := hwf
      simp only [insertTree]
      rw [keysWF_node]
      refine ⟨?_, ?_⟩
      · rw [keys_dset]
        cases h : (dget cs c).isSome
        · simp only [Bool.false_eq_true, if_false]
          refine List.Nodup.append hnd (List.nodup_singleton c) ?_
          intro a ha hb
          simp only [List.mem_singleton] at hb
          subst hb
          have := dget_isSome_of_mem_keys ha
          rw [this] at h
          cases h
        · simpa using hnd
      · intro kv hkv
        rcases mem_dset hkv with h | h
        · rw [h]
          show ((dget cs c).getD SelTree.empty |>
            fun t0 => insertTree t0 rest full).keysWF
          cases hd : dget cs c with
          | none => exact ih SelTree.empty keysWF_empty
          | some child =>
              exact ih child (hall _ (mem_of_dget_eq_some hd))
        · exact hall kv h


theorem walkTree_append (t : SelTree) (p q : List String) :
    walkTree t (p ++ q) = (walkTree t p).bind (fun t' => walkTree t' q) := by
  induction p generalizing t with
  | nil => simp [walkTree]
  | cons c rest ih =>
      simp only [List.cons_append, walkTree]
      cases dget t.children c with
      | none => rfl
      | some child => exact ih child

theorem keysWF_walkTree {t t' : SelTree} (p : List String)
    (hwf : t.keysWF) (hwalk : walkTree t p = some t') : t'.keysWF := by
  induction p generalizing t with
  | nil =>
      simp only [walkTree] at hwalk
      cases hwalk
      exact hwf
  | cons c rest ih =>
      simp only [walkTree] at hwalk
      cases hd : dget t.children c with
      | none => rw [hd] at hwalk; cases hwalk
      | some child =>
          rw [hd] at hwalk
          obtain ⟨tv, cs⟩ := t
          rw [keysWF_node] at hwf
          exact ih (hwf.2 _ (mem_of_dget_eq_some hd)) hwalk


theorem mem_collectChildren (cs : List (String × SelTree)) (x : String) :
    x ∈ collectChildren cs ↔ ∃ kv ∈ cs, x ∈ collectTree kv.2 := by
  induction cs with
  | nil => simp [collectChildren]
  | cons kv cs ih =>
      simp only [collectChildren, List.mem_append, ih]
      constructor
      · rintro (h | ⟨kv', hkv', hx⟩)
        · exact ⟨kv, List.mem_cons_self _ _, h⟩
        · exact ⟨kv', List.mem_cons_of_mem _ hkv', hx⟩
      · rintro ⟨kv', hkv', hx⟩
        rcases List.mem_cons.mp hkv' with h | h
        · left; rw [← h]; exact hx
        · right; exact ⟨kv', h, hx⟩

mutual

theorem mem_collectTree (t : SelTree) (hwf : t.keysWF) (x : String) :
    x ∈ collectTree t ↔ ∃ q, terminalAt t q = some x := by
  obtain ⟨tv, cs⟩ := t
  have hwf' : (cs.map Prod.fst).Nodup ∧ childrenWF cs := by
    rw [SelTree.keysWF] at hwf
    exact hwf
  have hcc := mem_collectChildrenT cs hwf'.1 hwf'.2 x
  constructor
  · intro hx
    simp only [collectTree, List.mem_append] at hx
    rcases hx with hx | hx
    · refine ⟨[], ?_⟩
      cases tv with
      | none => simp [Option.toList] at hx
      | some y =>
          simp only [Option.toList, List.mem_singleton] at hx
          subst hx
          rfl
    · obtain ⟨c, child, hd, q, hq⟩ := hcc.mp hx
      exact ⟨c :: q, by rw [terminalAt_cons_some tv q hd]; exact hq⟩
  · rintro ⟨q, hq⟩
    simp only [collectTree, List.mem_append]
    cases q with
    | nil =>
        left
        simp only [terminalAt, walkTree, Option.bind, SelTree.termVal] at hq
        rw [hq]
        simp
    | cons c rest =>
        cases hd : dget cs c with
        | none =>
            rw [terminalAt_cons_none tv rest hd] at hq
            cases hq
        | some child =>
            rw [terminalAt_cons_some tv rest hd] at hq
            right
            exact hcc.mpr ⟨c, child, hd, rest, hq⟩

theorem mem_collectChildrenT (cs : List (String × SelTree))
    (hnd : (cs.map Prod.fst).Nodup) (hwfl : childrenWF cs) (x : String) :
    x ∈ collectChildren cs ↔
      ∃ c child, dget cs c = some child ∧ ∃ q, terminalAt child q = some x := by
  cases cs with
  | nil => simp [collectChildren, dget]
  | cons kv cs =>
      simp only [List.map_cons, List.nodup_cons] at hnd
      rw [childrenWF] at hwfl
      have hm := mem_collectTree kv.2 hwfl.1 x
      have hrest := mem_collectChildrenT cs hnd.2 hwfl.2 x
      simp only [collectChildren, List.mem_append, hm, hrest]
      constructor
      · rintro (⟨q, hq⟩ | ⟨c, child, hd, q, hq⟩)
        · exact ⟨kv.1, kv.2, by simp [dget], q, hq⟩
        · refine ⟨c, child, ?_, q, hq⟩
          have hck : ¬c = kv.1 := by
            intro hh
            rw [hh] at hd
            have hmm : (kv.1, child) ∈ cs := mem_of_dget_eq_some hd
            exact hnd.1 (List.mem_map.mpr ⟨(kv.1, child), hmm, rfl⟩)
          simp [dget, hck, hd]
      · rintro ⟨c, child, hd, q, hq⟩
        by_cases hck : c = kv.1
        · subst hck
          simp only [dget, if_pos rfl] at hd
          cases hd
          exact Or.inl ⟨q, hq⟩
        · simp only [dget, if_neg hck] at hd
          exact Or.inr ⟨c, child, hd, q, hq⟩

end

end Gin

namespace Gin

/-! ## Reachable `SelectorMap` states and their invariants -/

/-- The `SelectorMap` states reachable in the source: the empty map and
successful `__setitem__` updates (`clear` returns to empty, `copy` is the
identity on the model). -/
inductive Built {α : Type} : SelectorMap α → Prop where
  | empty : Built SelectorMap.empty
  | insert {m m' : SelectorMap α} {sel : String} {v : α} :
      Built m → m.setItem sel v = .ok m' → Built m'

theorem dmem_dset {κ α : Type} [DecidableEq κ] (d : PyDict κ α) (k : κ)
    (v : α) (x : κ) :
    dmem (dset d k v) x = if x = k then true else dmem d x := by
  by_cases h : x = k <;> simp [dmem, dget_dset, h]

theorem built_keysWF {α : Type} {m : SelectorMap α} (hb : Built m) :
    m.tree.keysWF := by
  induction hb with
  | empty => exact keysWF_empty
  | insert hb hok ih =>
      rename_i m m' sel v
      unfold SelectorMap.setItem at hok
      by_cases hv : isValidSelector sel
      · rw [if_pos hv] at hok
        cases hok
        exact keysWF_insertTree _ _ _ ih
      · rw [if_neg hv] at hok
        cases hok

theorem revComps_injective {x y : String} (h : RevComps x = RevComps y) :
    x = y := by
  unfold RevComps at h
  exact strSplit_injective '.' (List.reverse_injective h)

/-- The structural invariant of every reachable map: the terminal found at
`path` is exactly the stored selector whose reversed components equal
`path`. -/
theorem built_terminal {α : Type} {m : SelectorMap α} (hb : Built m)
    (path : List String) (x : String) :
    terminalAt m.tree path = some x ↔
      (dmem m.map x = true ∧ RevComps x = path) := by
  induction hb generalizing path x with
  | empty =>
      simp [SelectorMap.empty, terminalAt_empty, dmem, dget]
  | insert hb hok ih =>
      rename_i m m' sel v
      unfold SelectorMap.setItem at hok
      by_cases hv : isValidSelector sel
      · rw [if_pos hv] at hok
        cases hok
        show terminalAt (insertTree m.tree (strSplit sel '.').reverse sel)
            path = some x ↔ (dmem (dset m.map sel v) x = true ∧ _)
        rw [terminalAt_insertTree]
        by_cases hp : path = (strSplit sel '.').reverse
        · rw [if_pos hp]
          constructor
          · intro h
            have hx : x = sel := (Option.some.injEq _ _).mp h.symm
            subst hx
            refine ⟨by simp [dmem_dset], hp.symm⟩
          · rintro ⟨hmem, hrc⟩
            have hxs : x = sel := by
              apply revComps_injective
              show RevComps x = RevComps sel
              rw [hrc, hp]
              rfl
            rw [hxs]
        · rw [if_neg hp, ih path x]
          constructor
          · rintro ⟨hmem, hrc⟩
            refine ⟨?_, hrc⟩
            rw [dmem_dset]
            have hxs : ¬x = sel := by
              intro hh
              rw [hh] at hrc
              exact hp (hrc ▸ rfl)
            rw [if_neg hxs]
            exact hmem
          · rintro ⟨hmem, hrc⟩
            refine ⟨?_, hrc⟩
            have hxs : ¬x = sel := by
              intro hh
              rw [hh] at hrc
              exact hp (hrc ▸ rfl)
            rw [dmem_dset, if_neg hxs] at hmem
            exact hmem
      · rw [if_neg hv] at hok
        cases hok

/-- Distinct walks never find the same terminal value. -/
def TermUniq (t : SelTree) : Prop :=
  ∀ q q' x, terminalAt t q = some x → terminalAt t q' = some x → q = q'

theorem termUniq_of_built {α : Type} {m : SelectorMap α} (hb : Built m) :
    TermUniq m.tree := by
  intro q q' x h h'
  rw [built_terminal hb] at h h'
  exact h.2.symm.trans h'.2

theorem terminalAt_walk_some {t t' : SelTree} {p : List String}
    (hw : walkTree t p = some t') (q : List String) :
    terminalAt t (p ++ q) = terminalAt t' q := by
  unfold terminalAt
  rw [walkTree_append, hw]
  rfl

theorem terminalAt_walk_none {t : SelTree} {p : List String}
    (hw : walkTree t p = none) (q : List String) :
    terminalAt t (p ++ q) = none := by
  unfold terminalAt
  rw [walkTree_append, hw]
  rfl

theorem termUniq_walk {t t' : SelTree} {p : List String} (hu : TermUniq t)
    (hw : walkTree t p = some t') : TermUniq t' := by
  intro q q' x h h'
  have h1 := (terminalAt_walk_some hw q).trans h
  have h2 := (terminalAt_walk_some hw q').trans h'
  exact List.append_cancel_left (hu (p ++ q) (p ++ q') x h1 h2)

theorem termUniq_child {tv : Option String} {cs : List (String × SelTree)}
    {c : String} {child : SelTree} (hu : TermUniq (.node tv cs))
    (hd : dget cs c = some child) : TermUniq child := by
  intro q q' x h h'
  have h1 : terminalAt (.node tv cs) (c :: q) = some x := by
    rw [terminalAt_cons_some tv q hd]
    exact h
  have h2 : terminalAt (.node tv cs) (c :: q') = some x := by
    rw [terminalAt_cons_some tv q' hd]
    exact h'
  have := hu _ _ _ h1 h2
  exact ((List.cons.injEq _ _ _ _).mp this).2

theorem eq_of_mem_nodup_keys {κ α : Type} [DecidableEq κ]
    {d : PyDict κ α} (hnd : (d.map Prod.fst).Nodup) {kv kv' : κ × α}
    (h : kv ∈ d) (h' : kv' ∈ d) (hk : kv.1 = kv'.1) : kv = kv' := by
  have e1 := dget_eq_of_mem_nodup hnd h
  have e2 := dget_eq_of_mem_nodup hnd h'
  rw [hk] at e1
  rw [e1] at e2
  injection e2 with h2
  exact Prod.ext hk h2

mutual

theorem nodup_collectTree (t : SelTree) (hwf : t.keysWF) (hu : TermUniq t) :
    (collectTree t).Nodup := by
  obtain ⟨tv, cs⟩ := t
  have hwf' : (cs.map Prod.fst).Nodup ∧ childrenWF cs := by
    rw [SelTree.keysWF] at hwf
    exact hwf
  have hkwf : ∀ kv ∈ cs, SelTree.keysWF kv.2 := (childrenWF_iff cs).mp hwf'.2
  refine List.Nodup.append ?_ ?_ ?_
  · cases tv <;> simp [Option.toList]
  · refine nodup_collectChildrenT cs hwf'.1 hwf'.2 ?_ ?_
    · intro kv hkv
      exact termUniq_child hu (dget_eq_of_mem_nodup hwf'.1 hkv)
    · intro kv kv' hkv hkv' hne x hx hx'
      obtain ⟨q, hq⟩ := (mem_collectTree kv.2 (hkwf kv hkv) x).mp hx
      obtain ⟨q', hq'⟩ := (mem_collectTree kv'.2 (hkwf kv' hkv') x).mp hx'
      have h1 : terminalAt (.node tv cs) (kv.1 :: q) = some x := by
        rw [terminalAt_cons_some tv q (dget_eq_of_mem_nodup hwf'.1 hkv)]
        exact hq
      have h2 : terminalAt (.node tv cs) (kv'.1 :: q') = some x := by
        rw [terminalAt_cons_some tv q' (dget_eq_of_mem_nodup hwf'.1 hkv')]
        exact hq'
      have := hu _ _ _ h1 h2
      have hkeq : kv.1 = kv'.1 := (List.cons.injEq _ _ _ _).mp this |>.1
      exact hne (eq_of_mem_nodup_keys hwf'.1 hkv hkv' hkeq)
  · intro x hx hx2
    cases tv with
    | none => simp [Option.toList] at hx
    | some y =>
        simp only [Option.toList, List.mem_singleton] at hx
        subst hx
        obtain ⟨kv, hkv, hmem⟩ := (mem_collectChildren cs x).mp hx2
        obtain ⟨q, hq⟩ := (mem_collectTree kv.2 (hkwf kv hkv) x).mp hmem
        have h1 : terminalAt (.node (some x) cs) [] = some x := rfl
        have h2 : terminalAt (.node (some x) cs) (kv.1 :: q) = some x := by
          rw [terminalAt_cons_some (some x) q (dget_eq_of_mem_nodup hwf'.1 hkv)]
          exact hq
        cases hu _ _ _ h1 h2

theorem nodup_collectChildrenT (cs : List (String × SelTree))
    (hnd : (cs.map Prod.fst).Nodup)
    (hwfl : childrenWF cs)
    (huc : ∀ kv ∈ cs, TermUniq kv.2)
    (hdisj : ∀ kv kv', kv ∈ cs → kv' ∈ cs → kv ≠ kv' →
      ∀ x, x ∈ collectTree kv.2 → x ∉ collectTree kv'.2) :
    (collectChildren cs).Nodup := by
  cases cs with
  | nil => simp [collectChildren]
  | cons kv cs =>
      rw [childrenWF] at hwfl
      simp only [List.map_cons, List.nodup_cons] at hnd
      refine List.Nodup.append ?_ ?_ ?_
      · exact nodup_collectTree kv.2 hwfl.1 (huc kv (List.mem_cons_self _ _))
      · refine nodup_collectChildrenT cs hnd.2 hwfl.2 ?_ ?_
        · intro kv' h
          exact huc kv' (List.mem_cons_of_mem _ h)
        · intro a b ha hb hne
          exact hdisj a b (List.mem_cons_of_mem _ ha)
            (List.mem_cons_of_mem _ hb) hne
      · intro x hx hx2
        obtain ⟨kv', hkv', hmem⟩ := (mem_collectChildren cs x).mp hx2
        have hne : kv ≠ kv' := by
          intro hh
          apply hnd.1
          rw [hh]
          exact List.mem_map.mpr ⟨kv', hkv', rfl⟩
        exact hdisj kv kv' (List.mem_cons_self _ _)
          (List.mem_cons_of_mem _ hkv') hne x hx hmem

end

end Gin

namespace Gin

/-! ## Characterization of `matching_selectors` and `get_match` -/

theorem built_matching {α : Type} {m : SelectorMap α} (hb : Built m)
    (psel : String) (s : String) :
    s ∈ m.matchingSelectors psel ↔
      ((dmem m.map psel = true ∧ s = psel) ∨
       (dmem m.map psel = false ∧ dmem m.map s = true ∧
        strSplit psel '.' <:+ strSplit s '.')) := by
  unfold SelectorMap.matchingSelectors
  cases hmem : dmem m.map psel with
  | true =>
      rw [if_pos rfl]
      constructor
      · intro h
        exact Or.inl ⟨rfl, List.mem_singleton.mp h⟩
      · rintro (⟨_, h⟩ | ⟨hf, _⟩)
        · exact List.mem_singleton.mpr h
        · cases hf
  | false =>
      rw [if_neg Bool.false_ne_true]
      have hsuffix : strSplit psel '.' <:+ strSplit s '.' ↔
          (strSplit psel '.').reverse <+: (strSplit s '.').reverse :=
        List.reverse_prefix.symm
      cases hw : walkTree m.tree (strSplit psel '.').reverse with
      | none =>
          show s ∈ ([] : List String) ↔ _
          constructor
          · intro h
            exact absurd h (List.not_mem_nil s)
          · rintro (⟨hf, _⟩ | ⟨_, hs, hsuf⟩)
            · cases hf
            · obtain ⟨q, hq⟩ := hsuffix.mp hsuf
              have hrc : RevComps s = (strSplit psel '.').reverse ++ q := by
                unfold RevComps
                exact hq.symm
              have hterm : terminalAt m.tree (RevComps s) = some s :=
                (built_terminal hb _ s).mpr ⟨hs, rfl⟩
              rw [hrc, terminalAt_walk_none hw q] at hterm
              cases hterm
      | some t' =>
          show s ∈ collectTree t' ↔ _
          have hwf' := keysWF_walkTree _ (built_keysWF hb) hw
          rw [mem_collectTree t' hwf' s]
          constructor
          · rintro ⟨q, hq⟩
            have hterm := (terminalAt_walk_some hw q).trans hq
            rw [built_terminal hb] at hterm
            refine Or.inr ⟨rfl, hterm.1, hsuffix.mpr ?_⟩
            refine ⟨q, ?_⟩
            have := hterm.2
            unfold RevComps at this
            exact this.symm
          · rintro (⟨hf, _⟩ | ⟨_, hs, hsuf⟩)
            · cases hf
            · obtain ⟨q, hq⟩ := hsuffix.mp hsuf
              refine ⟨q, ?_⟩
              rw [← terminalAt_walk_some hw q]
              refine (built_terminal hb _ s).mpr ⟨hs, ?_⟩
              unfold RevComps
              exact hq.symm

theorem built_matching_nodup {α : Type} {m : SelectorMap α} (hb : Built m)
    (psel : String) : (m.matchingSelectors psel).Nodup := by
  unfold SelectorMap.matchingSelectors
  cases hmem : dmem m.map psel with
  | true => simp
  | false =>
      simp only [Bool.false_eq_true, if_false]
      cases hw : walkTree m.tree (strSplit psel '.').reverse with
      | none => simp
      | some t' =>
          exact nodup_collectTree t' (keysWF_walkTree _ (built_keysWF hb) hw)
            (termUniq_walk (termUniq_of_built hb) hw)

theorem built_matching_mem_map {α : Type} {m : SelectorMap α} (hb : Built m)
    {psel s : String} (h : s ∈ m.matchingSelectors psel) :
    dmem m.map s = true := by
  rcases (built_matching hb psel s).mp h with ⟨hm, hs⟩ | ⟨_, hs, _⟩
  · rw [hs]; exact hm
  · exact hs

end Gin

namespace Gin

/-! ## Claim C2 -/

/-- C2: for every reachable registry state and partial selector `psel`:
if `psel` is itself stored, `matching_selectors` returns only `[psel]`
(exact beats suffix); otherwise it returns exactly (and without
duplicates) the stored complete selectors whose trailing dotted
components equal `psel`'s components in order; and `get_match` returns
the unique match's value when exactly one selector matches, returns the
supplied default without raising when none matches, and raises a
`KeyError` naming `psel` and all matching selectors when two or more
match. -/
theorem claim_C2_selector_matching :
    ∀ (α : Type) (m : SelectorMap α), Built m → ∀ (psel : String) (dflt : α),
      (dmem m.map psel = true → m.matchingSelectors psel = [psel])
      ∧ (∀ s, s ∈ m.matchingSelectors psel ↔
            ((dmem m.map psel = true ∧ s = psel) ∨
             (dmem m.map psel = false ∧ dmem m.map s = true ∧
              strSplit psel '.' <:+ strSplit s '.')))
      ∧ (m.matchingSelectors psel).Nodup
      ∧ (m.matchingSelectors psel = [] → m.getMatch psel dflt = .ok dflt)
      ∧ (∀ s, m.matchingSelectors psel = [s] →
            ∃ v, dget m.map s = some v ∧ m.getMatch psel dflt = .ok v)
      ∧ (2 ≤ (m.matchingSelectors psel).length →
            m.getMatch psel dflt =
              .error (.ambiguous psel (m.matchingSelectors psel))) := by
  intro α m hb psel dflt
  refine ⟨?_, fun s => built_matching hb psel s, built_matching_nodup hb psel,
    ?_, ?_, ?_⟩
  · intro h
    unfold SelectorMap.matchingSelectors
    rw [if_pos h]
  · intro h
    unfold SelectorMap.getMatch
    rw [h]
  · intro s h
    have hs : s ∈ m.matchingSelectors psel := by
      rw [h]
      exact List.mem_singleton.mpr rfl
    have hmem := built_matching_mem_map hb hs
    obtain ⟨v, hv⟩ := Option.isSome_iff_exists.mp ((dmem_iff _ _).mp hmem)
    refine ⟨v, hv, ?_⟩
    unfold SelectorMap.getMatch
    rw [h]
    simp [hv]
  · intro h
    unfold SelectorMap.getMatch
    cases hm : m.matchingSelectors psel with
    | nil => rw [hm] at h; simp at h
    | cons s rest =>
        cases rest with
        | nil => rw [hm] at h; simp at h
        | cons s' rest' => simp

/-- Witness for C2: the matching/get-match law applied to the registry
holding only the selector `a.b`, queried with the partial selector `b`. -/
theorem claim_C2_witness :
    Built (⟨SelTree.node none
        [("b", SelTree.node none [("a", SelTree.node (some "a.b") [])])],
      [("a.b", (1 : Nat))]⟩ : SelectorMap Nat)
    ∧ ((⟨SelTree.node none
        [("b", SelTree.node none [("a", SelTree.node (some "a.b") [])])],
      [("a.b", (1 : Nat))]⟩ : SelectorMap Nat).matchingSelectors "b").Nodup :=
  have hb : Built (⟨SelTree.node none
      [("b", SelTree.node none [("a", SelTree.node (some "a.b") [])])],
    [("a.b", (1 : Nat))]⟩ : SelectorMap Nat) :=
    @Built.insert Nat SelectorMap.empty _ "a.b" 1 Built.empty (by rfl)
  ⟨hb, (claim_C2_selector_matching Nat _ hb "b" 0).2.2.1⟩

end Gin

namespace Gin

/-! ## Claim C8 -/

/-- The registry state after registering only `foo.Bar` (value 1). -/
def c8RegistryOne : SelectorMap Nat :=
  ⟨SelTree.node none
      [("Bar", SelTree.node none [("foo", SelTree.node (some "foo.Bar") [])])],
    [("foo.Bar", 1)]⟩

/-- The registry state after registering `foo.Bar` (1) and `baz.Bar` (2). -/
def c8RegistryBoth : SelectorMap Nat :=
  ⟨SelTree.node none
      [("Bar", SelTree.node none
        [("foo", SelTree.node (some "foo.Bar") []),
         ("baz", SelTree.node (some "baz.Bar") [])])],
    [("foo.Bar", 1), ("baz.Bar", 2)]⟩

/-- C8: in the registry holding exactly `foo.Bar` and `baz.Bar`,
`get_match("Bar")` raises the ambiguity error listing both,
`get_match("foo.Bar")` returns `foo.Bar`'s value, and
`minimal_selector("foo.Bar")` returns `"foo.Bar"`; however, after
`remove("baz.Bar")` (modelled from the spec) deletes `baz.Bar`'s terminal
marker and prunes its chain, `minimal_selector("foo.Bar")` still returns
`"foo.Bar"` — not `"Bar"` as the claim (and the function's own "minimal"
contract) state: with the start index `-0`, the slice
`selector_components[-0:]` is the whole component list. -/
theorem claim_C8_minimal_selector_scenario :
    SelectorMap.empty.setItem "foo.Bar" (1 : Nat) = .ok c8RegistryOne
    ∧ c8RegistryOne.setItem "baz.Bar" 2 = .ok c8RegistryBoth
    ∧ c8RegistryBoth.getMatch "Bar" 0 =
        .error (.ambiguous "Bar" ["foo.Bar", "baz.Bar"])
    ∧ c8RegistryBoth.getMatch "foo.Bar" 0 = .ok 1
    ∧ c8RegistryBoth.minimalSelector "foo.Bar" = .ok "foo.Bar"
    ∧ c8RegistryBoth.remove "baz.Bar" = c8RegistryOne
    ∧ (c8RegistryBoth.remove "baz.Bar").minimalSelector "foo.Bar" =
        .ok "foo.Bar"
    ∧ ("foo.Bar" : String) ≠ "Bar" :=
  ⟨rfl, rfl, rfl, rfl, rfl, rfl, rfl, by decide⟩

end Gin

namespace Gin

/-! ## `unlock_config` (`config.py`) -/

/-- Shallow embedding of the `unlock_config` context manager.  The generator
body is: save `config_was_locked`, set the flag to `False`, `yield`, set the
flag back to `config_was_locked`.  There is no `try`/`finally`: when the
`with` body raises, the exception is thrown into the generator at the
`yield` and the trailing restore never runs.  `body` maps the flag state at
entry of the `with` body to the flag state when the body finishes plus an
optional exception. -/
def unlockConfigRun {ε : Type} (locked : Bool) (body : Bool → Bool × Option ε) :
    Bool × Option ε :=
  let configWasLocked := locked
  let afterBody := body false
  match afterBody.2 with
  | none => (configWasLocked, none)
  | some e => (afterBody.1, some e)

/-! ## `config_scope` (`config.py`) -/

/-- The argument accepted by `config_scope`: a list of scope names, a
string, `None` (or the empty string, handled by the same branch), or any
other value (which fails the `valid_value` check). -/
inductive ScopeArg where
  | listArg (l : List String)
  | strArg (s : String)
  | noneArg
  | otherArg

/-- Error leaving a `config_scope`: the `ValueError` raised for an invalid
`name_or_scope`, or an exception propagating out of the `with` body. -/
inductive ScopeErr (ε : Type) where
  | invalidScope
  | body (e : ε)

/-- `current_scope()`: a copy of the top of the thread's scope stack
(`_maybe_init` makes the empty stack behave as `[[]]`). -/
def currentScope (stack : List (List String)) : List String :=
  (stack.getLast?).getD []

/-- The `new_scope` and `valid_value` computed at the top of
`config_scope`. -/
def newScopeOf (stack : List (List String)) (arg : ScopeArg) :
    Bool × List String :=
  match arg with
  | .listArg l => (true, l)
  | .strArg s =>
      if s ≠ "" then (true, currentScope stack ++ strSplit s '/')
      else (true, [])
  | .noneArg => (true, [])
  | .otherArg => (false, [])

/-- Shallow embedding of the `config_scope` context manager: compute
`new_scope`, push it (`enter_scope` appends to the thread-local stack),
validate (`valid_value` and `MODULE_RE` on every component) — raising
`ValueError` after the push — then run the body (which observes the pushed
stack), and pop in the `finally` block on every path. -/
def configScopeRun {σ ε : Type} (stack : List (List String)) (arg : ScopeArg)
    (body : List (List String) → σ → σ × Option ε) (st : σ) :
    List (List String) × σ × Option (ScopeErr ε) :=
  let vn := newScopeOf stack arg
  let stack1 := stack ++ [vn.2]
  if vn.1 = false ∨ ¬(vn.2.all isValidSelector) then
    (stack1.dropLast, st, some ScopeErr.invalidScope)
  else
    let r := body stack1 st
    (stack1.dropLast, r.1, r.2.map ScopeErr.body)

/-- Thread-local scope stacks (`_ScopeManager` subclasses
`threading.local`): one stack per thread id, initialised to `[[]]` on first
touch. -/
def threadScopeRun {σ ε : Type} (threads : PyDict Nat (List (List String)))
    (tid : Nat) (arg : ScopeArg)
    (body : List (List String) → σ → σ × Option ε) (st : σ) :
    PyDict Nat (List (List String)) × σ × Option (ScopeErr ε) :=
  let stack := (dget threads tid).getD [[]]
  let r := configScopeRun stack arg body st
  (dset threads tid r.1, r.2.1, r.2.2)

theorem configScopeRun_stack {σ ε : Type} (stack : List (List String))
    (arg : ScopeArg) (body : List (List String) → σ → σ × Option ε) (st : σ) :
    (configScopeRun stack arg body st).1 = stack := by
  unfold configScopeRun
  by_cases h : (newScopeOf stack arg).1 = false
      ∨ ¬((newScopeOf stack arg).2.all isValidSelector)
  · rw [if_pos h]
    exact List.dropLast_concat
  · rw [if_neg h]
    exact List.dropLast_concat

end Gin

namespace Gin

/-! ## Claims C6 and C10 -/

/-- C6 (counterexample): `unlock_config` does not restore the lock flag
when an exception propagates out of its body.  Starting from a locked
config, a body that raises leaves the flag cleared (`false`), not restored
to its prior value (`true`): the generator has no `try`/`finally` around
its `yield`. -/
theorem claim_C6_counterexample :
    unlockConfigRun true (fun f => (f, some 0)) = (false, some (0 : Nat)) :=
  rfl

/-- C6 (amended): within `unlock_config` the flag is cleared (the body
runs with the flag `false`), and when the body completes normally the flag
is restored to its prior value on exit; when an exception propagates out
of the body, however, the flag is left as the body left it (cleared),
because the restore after `yield` is skipped. -/
theorem claim_C6_unlock_restore :
    ∀ (ε : Type) (locked : Bool) (body : Bool → Bool × Option ε)
      (flagAfter : Bool),
      body false = (flagAfter, none) →
      unlockConfigRun locked body = (locked, none) := by
  intro ε locked body flagAfter h
  unfold unlockConfigRun
  rw [h]

/-- Witness for C6: the normal-completion restore law at a concrete locked
state and body. -/
theorem claim_C6_witness :
    (fun (_ : Bool) => (false, (none : Option Nat))) false = (false, none)
    ∧ unlockConfigRun true (fun (_ : Bool) => (false, (none : Option Nat)))
        = (true, none) :=
  ⟨rfl, claim_C6_unlock_restore Nat true _ false rfl⟩

/-- C10: for every thread and every use of `config_scope` — including an
invalid argument (which raises `ValueError` after the push) and a body
that raises — the thread-local scope stack after the context exits equals
the stack before entry; entering pushes exactly one scope-path entry
(the body observes `stack ++ [new_scope]`), an invalid argument yields
`ValueError` with the stack restored, and one thread's entries never
affect another thread's stack. -/
theorem claim_C10_config_scope_balance :
    (∀ (σ ε : Type) (stack : List (List String)) (arg : ScopeArg)
        (body : List (List String) → σ → σ × Option ε) (st : σ),
        (configScopeRun stack arg body st).1 = stack)
    ∧ (∀ (σ ε : Type) (stack : List (List String)) (arg : ScopeArg)
        (body : List (List String) → σ → σ × Option ε) (st : σ),
        (newScopeOf stack arg).1 = true →
        ((newScopeOf stack arg).2.all isValidSelector) = true →
        configScopeRun stack arg body st =
          (stack,
           (body (stack ++ [(newScopeOf stack arg).2]) st).1,
           (body (stack ++ [(newScopeOf stack arg).2]) st).2.map ScopeErr.body))
    ∧ (∀ (σ ε : Type) (stack : List (List String))
        (body : List (List String) → σ → σ × Option ε) (st : σ),
        configScopeRun stack ScopeArg.otherArg body st =
          (stack, st, some ScopeErr.invalidScope))
    ∧ (∀ (σ ε : Type) (threads : PyDict Nat (List (List String))) (tid : Nat)
        (arg : ScopeArg) (body : List (List String) → σ → σ × Option ε)
        (st : σ),
        dget (threadScopeRun threads tid arg body st).1 tid =
          some ((dget threads tid).getD [[]]))
    ∧ (∀ (σ ε : Type) (threads : PyDict Nat (List (List String))) (tid : Nat)
        (arg : ScopeArg) (body : List (List String) → σ → σ × Option ε)
        (st : σ) (tid' : Nat), tid' ≠ tid →
        dget (threadScopeRun threads tid arg body st).1 tid' =
          dget threads tid') := by
  refine ⟨fun σ ε stack arg body st => configScopeRun_stack stack arg body st,
    ?_, ?_, ?_, ?_⟩
  · intro σ ε stack arg body st hv hall
    unfold configScopeRun
    rw [if_neg]
    · rw [List.dropLast_concat]
    · rw [hv, hall]
      simp
  · intro σ ε stack body st
    unfold configScopeRun
    simp only [newScopeOf]
    simp [List.dropLast_concat]
  · intro σ ε threads tid arg body st
    unfold threadScopeRun
    rw [dget_dset, if_pos rfl, configScopeRun_stack]
  · intro σ ε threads tid arg body st tid' hne
    unfold threadScopeRun
    rw [dget_dset, if_neg hne]

/-- Witness for C10: the push/run/pop law and thread isolation at a
concrete stack, scope argument, body, and pair of threads. -/
theorem claim_C10_witness :
    (newScopeOf [["a"]] (ScopeArg.strArg "b")).1 = true
    ∧ ((newScopeOf [["a"]] (ScopeArg.strArg "b")).2.all isValidSelector) = true
    ∧ (1 : Nat) ≠ 0
    ∧ configScopeRun [["a"]] (ScopeArg.strArg "b")
        (fun _ (n : Nat) => (n + 1, (none : Option Unit))) 7 =
        ([["a"]],
         (((fun _ (n : Nat) => (n + 1, (none : Option Unit)))
            ([["a"]] ++ [(newScopeOf [["a"]] (ScopeArg.strArg "b")).2]) 7)).1,
         (((fun _ (n : Nat) => (n + 1, (none : Option Unit)))
            ([["a"]] ++ [(newScopeOf [["a"]] (ScopeArg.strArg "b")).2]) 7)).2.map
           ScopeErr.body)
    ∧ dget (threadScopeRun [(0, [["t0"]])] 0 (ScopeArg.strArg "b")
        (fun _ (n : Nat) => (n, (none : Option Unit))) 7).1 1 =
        dget [(0, [["t0"]])] 1 :=
  ⟨by decide, by decide, by decide,
   claim_C10_config_scope_balance.2.1 Nat Unit [["a"]] (ScopeArg.strArg "b")
     (fun _ n => (n + 1, none)) 7 (by decide) (by decide),
   claim_C10_config_scope_balance.2.2.2.2 Nat Unit [(0, [["t0"]])] 0
     (ScopeArg.strArg "b") (fun _ n => (n, none)) 7 1 (by decide)⟩

end Gin

namespace Gin

/-! ## Gin values

Python values flowing through the Binding Store, modelled as: the literal
types of the config grammar (`None`, booleans, integers, strings, lists,
tuples, dicts — floats are left out of the model), the `REQUIRED` sentinel
(`REQUIRED = object()`), and `foreign` for any other Python object (whose
`repr` is not parseable as a literal). -/
inductive GinVal where
  | vnone
  | vbool (b : Bool)
  | vint (n : Int)
  | vstr (s : String)
  | vlist (xs : List GinVal)
  | vtuple (xs : List GinVal)
  | vdict (kvs : List (GinVal × GinVal))
  | required
  | foreign (id : Nat)

mutual

/-- Structural equality of modelled Python values (Python `==` on the
literal fragment; `REQUIRED` and `foreign` values are only equal to
themselves, as identity comparison gives). -/
def geq : GinVal → GinVal → Bool
  | .vnone, .vnone => true
  | .vbool a, .vbool b => a == b
  | .vint a, .vint b => a == b
  | .vstr a, .vstr b => a == b
  | .vlist a, .vlist b => geqList a b
  | .vtuple a, .vtuple b => geqList a b
  | .vdict a, .vdict b => geqPairs a b
  | .required, .required => true
  | .foreign a, .foreign b => a == b
  | _, _ => false

/-- Elementwise equality of value lists (helper for `geq`). -/
def geqList : List GinVal → List GinVal → Bool
  | [], [] => true
  | a :: as0, b :: bs => geq a b && geqList as0 bs
  | _, _ => false

/-- Elementwise equality of key/value pair lists (helper for `geq`). -/
def geqPairs : List (GinVal × GinVal) → List (GinVal × GinVal) → Bool
  | [], [] => true
  | a :: as0, b :: bs => (geq a.1 b.1 && geq a.2 b.2) && geqPairs as0 bs
  | _, _ => false

end

mutual

theorem geq_iff_eq : ∀ a b : GinVal, geq a b = true ↔ a = b
  | a, b => by
    cases a <;> cases b <;>
      simp only [geq, beq_iff_eq, Bool.and_eq_true, reduceCtorEq, iff_false,
        GinVal.vbool.injEq, GinVal.vint.injEq, GinVal.vstr.injEq,
        GinVal.vlist.injEq, GinVal.vtuple.injEq, GinVal.vdict.injEq,
        GinVal.foreign.injEq] <;>
      first
        | rfl
        | exact fun h => Bool.noConfusion h
        | exact geqList_iff_eq _ _
        | exact geqPairs_iff_eq _ _

theorem geqList_iff_eq : ∀ xs ys : List GinVal, geqList xs ys = true ↔ xs = ys
  | [], [] => by simp [geqList]
  | [], _ :: _ => by simp [geqList]
  | _ :: _, [] => by simp [geqList]
  | x :: xs, y :: ys => by
      simp only [geqList, Bool.and_eq_true, List.cons.injEq]
      rw [geq_iff_eq x y, geqList_iff_eq xs ys]

theorem geqPairs_iff_eq : ∀ xs ys : List (GinVal × GinVal),
    geqPairs xs ys = true ↔ xs = ys
  | [], [] => by simp [geqPairs]
  | [], _ :: _ => by simp [geqPairs]
  | _ :: _, [] => by simp [geqPairs]
  | x :: xs, y :: ys => by
      simp only [geqPairs, Bool.and_eq_true, List.cons.injEq]
      rw [geq_iff_eq x.1 y.1, geq_iff_eq x.2 y.2, geqPairs_iff_eq xs ys]
      constructor
      · rintro ⟨⟨h1, h2⟩, h3⟩
        exact ⟨Prod.ext h1 h2, h3⟩
      · rintro ⟨h, h3⟩
        exact ⟨⟨congrArg Prod.fst h, congrArg Prod.snd h⟩, h3⟩

end

instance : DecidableEq GinVal := fun a b =>
  decidable_of_iff _ (geq_iff_eq a b)

end Gin

namespace Gin

/-! ## Registry entries and binding keys -/

/-- The signature-facing face of a registered configurable: its complete
selector, the parameter names of its signature (positional and
keyword-only), whether it accepts `**kwargs`, its allow/deny lists (an
empty list models `None`), and whether it is a registered method. -/
structure Configurable where
  selector : String
  params : List String
  varkw : Bool
  allowlist : List String
  denylist : List String
  isMethod : Bool

/-- `_might_have_parameter`: the target has the named parameter or accepts
`**kwargs`. -/
def mightHaveParameter (c : Configurable) (argName : String) : Bool :=
  c.varkw || argName ∈ c.params

/-- Python `s.rsplit(sep, 1)`: `none` when `sep` does not occur, otherwise
the parts before and after the last occurrence. -/
def rsplitOnce (sep : Char) (s : String) : Option (String × String) :=
  let r := s.data.reverse
  match r.dropWhile (fun c => c != sep) with
  | [] => none
  | _ :: restRev =>
      some (String.mk restRev.reverse,
        String.mk ((r.takeWhile (fun c => c != sep)).reverse))

/-- `parse_scoped_selector` (`config_parser.py`), for ordinary binding keys
(the `%`-macro rewriting branch is not modelled): split off the scope at
the last `/`. -/
def parseScopedSelector (s : String) : String × String :=
  match rsplitOnce '/' s with
  | none => ("", s)
  | some (before, after) => (before, after)

/-- `parse_binding_key` (`config_parser.py`): split the scope, then split
the parameter name at the last `.` (an absent `.` leaves the argument name
empty). -/
def parseBindingKey (s : String) : String × String × String :=
  let scopeSel := parseScopedSelector s
  match rsplitOnce '.' scopeSel.2 with
  | none => (scopeSel.1, scopeSel.2, "")
  | some (before, after) => (scopeSel.1, before, after)

/-- `get_match` with Python's `default=None`: used by
`ParseContext.get_configurable` (no dynamic registration). -/
def SelectorMap.getMatchD {α : Type} (m : SelectorMap α) (psel : String) :
    Except KeyErr (Option α) :=
  match m.matchingSelectors psel with
  | [] => .ok none
  | s :: rest =>
      if rest.isEmpty then
        match dget m.map s with
        | some v => .ok (some v)
        | none => .error (.missing s)
      else .error (.ambiguous psel (s :: rest))

/-- A parsed and validated binding key (`ParsedBindingKey`). -/
structure ParsedBindingKey where
  scope : String
  givenSelector : String
  completeSelector : String
  argName : String

/-- `ParsedBindingKey.parse` for a string binding key: parse the key,
resolve the selector through the registry, and validate the parameter
against the signature and allow/deny lists. -/
def parsedBindingKeyParse (reg : SelectorMap Configurable) (bk : String) :
    Except String ParsedBindingKey :=
  let p := parseBindingKey bk
  match reg.getMatchD p.2.1 with
  | .error _ => .error ("Ambiguous selector " ++ p.2.1)
  | .ok none => .error ("No configurable matching " ++ p.2.1)
  | .ok (some c) =>
      if c.isMethod && !(p.2.1.data.contains '.') then
        .error ("Method referenced without class name")
      else if !(mightHaveParameter c p.2.2) then
        .error ("Configurable '" ++ p.2.1 ++
          "' does not have a parameter named '" ++ p.2.2 ++ "'")
      else if !c.allowlist.isEmpty && !(c.allowlist.contains p.2.2) then
        .error ("Parameter not in allowlist")
      else if !c.denylist.isEmpty && c.denylist.contains p.2.2 then
        .error ("Parameter denylisted")
      else
        .ok ⟨p.1, p.2.1, c.selector, p.2.2⟩

/-! ## Global mutable state (`config.py` module globals) -/

/-- The module-level mutable state touched by the claims: the lock flag,
`_CONFIG`, `_SINGLETONS`, `_CONSTANTS`, `_IMPORTS` (only its clearability
matters here), and `_OPERATIVE_CONFIG`. -/
structure GinState where
  configIsLocked : Bool
  config : Store GinVal
  singletons : PyDict String GinVal
  constants : SelectorMap GinVal
  imports : List String
  operativeConfig : Store GinVal

/-- `constant(name, value)`: validate the name, reject colliding constants,
then store into the `_CONSTANTS` selector map. -/
def constantOp (st : GinState) (name : String) (v : GinVal) :
    Except String GinState :=
  if !(isValidSelector name) then
    .error ("Invalid constant selector '" ++ name ++ "'.")
  else if !(st.constants.matchingSelectors name).isEmpty then
    .error ("Constants matching selector '" ++ name ++ "' already exist.")
  else
    match st.constants.setItem name v with
    | .ok m => .ok { st with constants := m }
    | .error e => .error e

/-- `clear_config(clear_constants)`: unlock, clear `_CONFIG` and
`_SINGLETONS`, reset `_CONSTANTS` (either to just `gin.REQUIRED`, or by
re-adding the saved constants through `constant`), and clear `_IMPORTS`
and `_OPERATIVE_CONFIG`.  It never consults the lock flag. -/
def clearConfig (st : GinState) (clearConstants : Bool) :
    Except String GinState := do
  let st1 : GinState :=
    { st with configIsLocked := false, config := [], singletons := [] }
  let st2 ←
    if clearConstants then
      match (SelectorMap.empty : SelectorMap GinVal).setItem "gin.REQUIRED"
          GinVal.required with
      | .ok m => pure { st1 with constants := m }
      | .error e => throw e
    else
      st1.constants.map.foldlM (fun acc kv => constantOp acc kv.1 kv.2)
        { st1 with constants := SelectorMap.empty }
  pure { st2 with imports := [], operativeConfig := [] }

/-- `_CONFIG.setdefault(config_key, {})[arg_name] = value`. -/
def storeSetParam (cfg : Store GinVal) (key : String × String)
    (argName : String) (v : GinVal) : Store GinVal :=
  dset cfg key (dset ((dget cfg key).getD []) argName v)

/-- `bind_parameter(binding_key, value)`: fatal `RuntimeError` when the
config is locked (before anything is parsed or mutated); otherwise parse
and validate the key and store the value. -/
def bindParameter (reg : SelectorMap Configurable) (st : GinState)
    (bindingKey : String) (v : GinVal) : Except String GinState :=
  if st.configIsLocked then
    .error "Attempted to modify locked Gin config."
  else
    match parsedBindingKeyParse reg bindingKey with
    | .error e => .error e
    | .ok pbk =>
        .ok { st with
          config := storeSetParam st.config
            (pbk.scope, pbk.completeSelector) pbk.argName v }

/-- `singleton_value(key, constructor)`: construct-and-memoize on first
access, return the stored value afterwards.  The returned flag records
whether the constructor was invoked during this call. -/
def singletonValue (st : GinState) (key : String)
    (ctor : Option (Unit → GinVal)) :
    Except String (GinVal × GinState × Bool) :=
  if !(dmem st.singletons key) then
    match ctor with
    | none =>
        .error ("No singleton found for key '" ++ key ++
          "', and no constructor was given.")
    | some c =>
        let st' := { st with singletons := dset st.singletons key (c ()) }
        match dget st'.singletons key with
        | some v => .ok (v, st', true)
        | none => .error "unreachable: just stored"
  else
    match dget st.singletons key with
    | some v => .ok (v, st, false)
    | none => .error "unreachable: membership checked"

end Gin

namespace Gin

/-! ## Claims C7 and C9 -/

/-- C7 (amended): when the config lock flag is set, `bind_parameter` fails
with the fatal `RuntimeError` before parsing or touching the store (the
check precedes every mutation, so no state change is produced); wholesale
clearing (`clear_config`), however, does not respect the lock — it
unlocks and clears (see the counterexample). -/
theorem claim_C7_locked_bind_fatal :
    ∀ (reg : SelectorMap Configurable) (st : GinState) (bk : String)
      (v : GinVal), st.configIsLocked = true →
      bindParameter reg st bk v =
        .error "Attempted to modify locked Gin config." := by
  intro reg st bk v h
  unfold bindParameter
  rw [if_pos h]

/-- Witness for C7: the locked-bind law at a concrete locked state. -/
theorem claim_C7_witness :
    (GinState.configIsLocked
        ⟨true, [(("", "f"), [("x", GinVal.vint 1)])], [], SelectorMap.empty,
          [], []⟩ = true)
    ∧ bindParameter SelectorMap.empty
        ⟨true, [(("", "f"), [("x", GinVal.vint 1)])], [], SelectorMap.empty,
          [], []⟩ "f.x" (GinVal.vint 2) =
        .error "Attempted to modify locked Gin config." :=
  ⟨rfl, claim_C7_locked_bind_fatal SelectorMap.empty
    ⟨true, [(("", "f"), [("x", GinVal.vint 1)])], [], SelectorMap.empty,
      [], []⟩ "f.x" (GinVal.vint 2) rfl⟩

/-- C7 (counterexample): `clear_config` on a locked, non-empty store does
not fail — it resets the lock flag and empties the store, refuting "the
same fatality applies to every other store-mutating operation, including
wholesale clearing". -/
theorem claim_C7_counterexample :
    clearConfig
      ⟨true, [(("", "f"), [("x", GinVal.vint 1)])], [], SelectorMap.empty,
        [], []⟩ false =
      .ok ⟨false, [], [], SelectorMap.empty, [], []⟩ :=
  rfl

/-- C9 (amended): `singleton_value` memoizes per scoped key — the first
access invokes the constructor exactly once and stores its result, every
later access under the same key returns the stored value without invoking
the constructor, and binding operations never evict stored singletons; but
`clear_config` empties the whole singleton table (see the counterexample),
so eviction before process end is possible. -/
theorem claim_C9_singleton_memoization :
    (∀ (st : GinState) (key : String) (c : Unit → GinVal),
      dmem st.singletons key = false →
      singletonValue st key (some c) =
        .ok (c (), { st with singletons := dset st.singletons key (c ()) },
          true))
    ∧ (∀ (st : GinState) (key : String) (ctor : Option (Unit → GinVal))
        (v : GinVal),
        dget st.singletons key = some v →
        singletonValue st key ctor = .ok (v, st, false))
    ∧ (∀ (reg : SelectorMap Configurable) (st : GinState) (bk : String)
        (v : GinVal) (st' : GinState),
        bindParameter reg st bk v = .ok st' →
        st'.singletons = st.singletons) := by
  refine ⟨?_, ?_, ?_⟩
  · intro st key c h
    unfold singletonValue
    rw [h]
    simp only [Bool.not_false, if_true]
    have hset : dget (dset st.singletons key (c ())) key = some (c ()) := by
      rw [dget_dset, if_pos rfl]
    simp only [hset]
  · intro st key ctor v h
    have hmem : dmem st.singletons key = true := by
      rw [dmem, h]
      rfl
    unfold singletonValue
    rw [hmem]
    simp only [Bool.not_true, Bool.false_eq_true, if_false, h]
  · intro reg st bk v st' h
    unfold bindParameter at h
    by_cases hl : st.configIsLocked = true
    · rw [if_pos hl] at h
      cases h
    · rw [if_neg hl] at h
      cases hp : parsedBindingKeyParse reg bk with
      | error e => rw [hp] at h; cases h
      | ok pbk =>
          rw [hp] at h
          cases h
          rfl

/-- Witness for C9: first and second access at a concrete key and
constructor, plus singleton preservation across a concrete bind. -/
theorem claim_C9_witness :
    (dmem (GinState.singletons ⟨false, [], [], SelectorMap.empty, [], []⟩)
        "k" = false)
    ∧ singletonValue ⟨false, [], [], SelectorMap.empty, [], []⟩ "k"
        (some (fun _ => GinVal.vint 5)) =
        .ok (GinVal.vint 5,
          ⟨false, [], [("k", GinVal.vint 5)], SelectorMap.empty, [], []⟩,
          true) :=
  ⟨rfl, claim_C9_singleton_memoization.1
    ⟨false, [], [], SelectorMap.empty, [], []⟩ "k"
    (fun _ => GinVal.vint 5) rfl⟩

/-- C9 (counterexample): a stored singleton is evicted by `clear_config`:
before the clear the stored value is returned without construction; after
the clear the same lookup fails (the table is empty), so singleton entries
do not always survive to process end. -/
theorem claim_C9_counterexample :
    singletonValue
        ⟨false, [], [("k", GinVal.vint 5)], SelectorMap.empty, [], []⟩ "k"
        none =
      .ok (GinVal.vint 5,
        ⟨false, [], [("k", GinVal.vint 5)], SelectorMap.empty, [], []⟩, false)
    ∧ clearConfig
        ⟨false, [], [("k", GinVal.vint 5)], SelectorMap.empty, [], []⟩ false =
        .ok ⟨false, [], [], SelectorMap.empty, [], []⟩
    ∧ singletonValue ⟨false, [], [], SelectorMap.empty, [], []⟩ "k" none =
        .error "No singleton found for key 'k', and no constructor was given." :=
  ⟨rfl, rfl, rfl⟩

end Gin

namespace Gin

/-! ## The Gin wrapper call pipeline (`_make_gin_wrapper` / `gin_wrapper`) -/

/-- The part of `inspect.getfullargspec` that `config.py` consults: the
named positional-or-keyword parameters in order, the default values of the
trailing ones, the keyword-only parameters and their defaults, and whether
a `**kwargs` catch-all is present. -/
structure ArgSpec where
  args : List String
  defaults : List GinVal
  kwonlyargs : List String
  kwonlydefaults : PyDict String GinVal
  varkw : Bool

/-- `_get_kwarg_defaults`: the trailing `len(defaults)` entries of `args`
zipped with `defaults`, updated with the keyword-only defaults. -/
def kwargDefaults (spec : ArgSpec) : PyDict String GinVal :=
  let argVals :=
    if spec.defaults.isEmpty then []
    else List.zip (spec.args.drop (spec.args.length - spec.defaults.length))
      spec.defaults
  dupdate argVals spec.kwonlydefaults

/-- `_get_validated_required_kwargs`: the names whose default is the
`REQUIRED` sentinel, in `kwargDefaults` order, failing with `ValueError`
when such a name is denylisted or (with a non-empty allowlist) not
allowlisted.  A `None` allow/denylist is modelled as `[]` (same Python
truthiness). -/
def validatedRequiredKwargs (spec : ArgSpec) (fnDescriptor : String)
    (allowlist denylist : List String) : Except String (List String) :=
  (kwargDefaults spec).foldlM
    (fun acc kv =>
      if kv.2 == GinVal.required then
        if denylist.contains kv.1 then
          .error ("Argument " ++ kv.1 ++ " of " ++ fnDescriptor ++
            " marked REQUIRED but denylisted.")
        else if !allowlist.isEmpty && !allowlist.contains kv.1 then
          .error ("Argument " ++ kv.1 ++ " of " ++ fnDescriptor ++
            " marked REQUIRED but not allowlisted.")
        else .ok (acc ++ [kv.1])
      else .ok acc)
    []

/-- `_order_by_signature`: keep of `argNames` first those occurring in the
signature (positional then keyword-only, in signature order), then any
leftovers (varkwargs) in the order given. -/
def orderBySignature (spec : ArgSpec) (argNames : List String) :
    List String :=
  let allArgs := spec.args ++ spec.kwonlyargs
  let ordered := allArgs.filter (fun a => argNames.contains a)
  ordered ++ argNames.filter (fun a => !ordered.contains a)

/-- The loop at lines 1496–1501: the `(index, name)` pairs of the
positional arguments supplied as the `REQUIRED` sentinel (`zip` of
`required_arg_indexes` and `required_arg_names`). -/
def requiredPairsOf (argNames : List String) (args : List GinVal) :
    List (Nat × String) :=
  ((args.take argNames.length).enum.filter
    (fun p => p.2 == GinVal.required)).map
    (fun p => (p.1, argNames.getD p.1 ""))

/-- The loop at lines 1512–1514 (and again 1524–1526): pop from `d` every
name of `names` that is not in `requiredArgNames`, in order. -/
def popNonRequired (requiredArgNames : List String)
    (d : PyDict String GinVal) (names : List String) : PyDict String GinVal :=
  names.foldl
    (fun d a => if requiredArgNames.contains a then d else dpop d a) d

/-- The loop at lines 1548–1554: for each `(index, name)` of the REQUIRED
positional uses, either record the name as missing (when `new_kwargs` has
no binding) or substitute the bound value into the positional arguments
and pop it from `new_kwargs`. -/
def substituteRequired (ps : List (Nat × String))
    (acc : List GinVal × PyDict String GinVal × List String) :
    List GinVal × PyDict String GinVal × List String :=
  ps.foldl
    (fun acc p =>
      match dget acc.2.1 p.2 with
      | none => (acc.1, acc.2.1, acc.2.2 ++ [p.2])
      | some v => (acc.1.set p.1 v, dpop acc.2.1 p.2, acc.2.2))
    acc

/-- The loop at lines 1562–1567: for each caller-supplied REQUIRED keyword,
either pop it from the caller's `kwargs` (its `new_kwargs` binding will be
used) or record it as missing. -/
def popCallerRequired (newKwargs2 : PyDict String GinVal) (ks : List String)
    (acc : PyDict String GinVal × List String) :
    PyDict String GinVal × List String :=
  ks.foldl
    (fun acc k =>
      if dmem newKwargs2 k then (dpop acc.1 k, acc.2)
      else (acc.1, acc.2 ++ [k]))
    acc

/-- The ways `gin_wrapper` fails before reaching the wrapped function:
the `ValueError` for a `REQUIRED` vararg, the `KeyError` propagated from
`minimal_selector`, and the `RuntimeError` naming the minimal selector
and the signature-ordered missing parameter names. -/
inductive CallErr where
  | varargRequired
  | keyErr (e : String)
  | missingRequired (minSel : String) (params : List String)
  deriving DecidableEq

/-- Line 1486 (`_get_supplied_positional_parameter_names`): the names of
the positionally supplied arguments, `arg_spec.args[:len(args)]`. -/
def wrapArgNames (spec : ArgSpec) (args : List GinVal) : List String :=
  spec.args.take args.length

/-- Lines 1503–1506: `caller_required_kwargs`, the keys that the caller
supplied with the `REQUIRED` sentinel as value. -/
def wrapCallerReq (kwargs : PyDict String GinVal) : List String :=
  (kwargs.filter (fun kv => kv.2 == GinVal.required)).map Prod.fst

/-- Lines 1482 and 1508–1514: `new_kwargs` after the config lookup
(`_get_bindings`) and the pops of the caller-supplied non-REQUIRED
positional names. -/
def wrapNewKwargs1 (spec : ArgSpec) (cfg : Store GinVal) (selector : String)
    (scope : List String) (args : List GinVal) : PyDict String GinVal :=
  popNonRequired ((requiredPairsOf (wrapArgNames spec args) args).map Prod.snd)
    (getBindings cfg selector scope) (wrapArgNames spec args)

/-- Lines 1516–1529: `operative_parameter_values` — the configurable
defaults updated with `new_kwargs`, minus every parameter the caller
overrode (positionally or by keyword, REQUIRED sentinels excepted). -/
def wrapOp2 (spec : ArgSpec) (initialDefaults : PyDict String GinVal)
    (cfg : Store GinVal) (selector : String) (scope : List String)
    (args : List GinVal) (kwargs : PyDict String GinVal) :
    PyDict String GinVal :=
  popNonRequired (wrapCallerReq kwargs)
    (popNonRequired ((requiredPairsOf (wrapArgNames spec args) args).map
        Prod.snd)
      (dupdate initialDefaults (wrapNewKwargs1 spec cfg selector scope args))
      (wrapArgNames spec args))
    (kwargs.map Prod.fst)

/-- Lines 1535–1537: `_OPERATIVE_CONFIG.setdefault((scope_str,
current_selector), {})` followed by an in-place `update` with the
operative parameter values. -/
def wrapNewOpCfg (spec : ArgSpec) (initialDefaults : PyDict String GinVal)
    (cfg : Store GinVal) (opCfg : Store GinVal) (selector : String)
    (scope : List String) (args : List GinVal)
    (kwargs : PyDict String GinVal) : Store GinVal :=
  dset opCfg (joinScope scope, selector)
    (dupdate ((dget opCfg (joinScope scope, selector)).getD [])
      (wrapOp2 spec initialDefaults cfg selector scope args kwargs))

/-- Lines 1548–1554: `(new_args, new_kwargs,
missing_required_params)` after substituting config values for the
REQUIRED positional uses. -/
def wrapSub (spec : ArgSpec) (cfg : Store GinVal) (selector : String)
    (scope : List String) (args : List GinVal) :
    List GinVal × PyDict String GinVal × List String :=
  substituteRequired (requiredPairsOf (wrapArgNames spec args) args)
    (args, wrapNewKwargs1 spec cfg selector scope args, [])

/-- Lines 1556–1567: `(kwargs, missing_required_params)` after checking
the signature-REQUIRED keywords and the caller-supplied REQUIRED
keywords. -/
def wrapFinal (spec : ArgSpec) (sigRequiredKwargs : List String)
    (cfg : Store GinVal) (selector : String) (scope : List String)
    (args : List GinVal) (kwargs : PyDict String GinVal) :
    PyDict String GinVal × List String :=
  popCallerRequired (wrapSub spec cfg selector scope args).2.1
    (wrapCallerReq kwargs)
    (kwargs,
      (wrapSub spec cfg selector scope args).2.2 ++ sigRequiredKwargs.filter
        (fun k => !(wrapArgNames spec args).contains k && !(dmem kwargs k)
          && !(dmem (wrapSub spec cfg selector scope args).2.1 k)))

/-- Shallow embedding of `gin_wrapper` (`config.py` lines 1478–1607) up to
the call `fn(*new_args, **new_kwargs)`; success returns the positional
arguments, the keyword arguments, and the updated operative config
(`_OPERATIVE_CONFIG`).  `sigRequiredKwargs` and `initialDefaults` are the
values captured by the closure at wrap time (`signature_required_kwargs`,
`initial_configurable_defaults`); `selector` is `current_selector` (no
renamed selectors); `copy.deepcopy` is the identity on the value model. -/
def ginWrapperCall (spec : ArgSpec) (sigRequiredKwargs : List String)
    (initialDefaults : PyDict String GinVal) (reg : SelectorMap Configurable)
    (selector : String) (cfg : Store GinVal) (opCfg : Store GinVal)
    (scope : List String) (args : List GinVal)
    (kwargs : PyDict String GinVal) :
    Except CallErr (List GinVal × PyDict String GinVal × Store GinVal) :=
  if (args.drop (wrapArgNames spec args).length).any
      (fun a => a == GinVal.required) then
    .error .varargRequired
  else if (wrapFinal spec sigRequiredKwargs cfg selector scope args
      kwargs).2.isEmpty then
    .ok ((wrapSub spec cfg selector scope args).1,
      dupdate (wrapSub spec cfg selector scope args).2.1
        (wrapFinal spec sigRequiredKwargs cfg selector scope args kwargs).1,
      wrapNewOpCfg spec initialDefaults cfg opCfg selector scope args kwargs)
  else
    match reg.minimalSelector selector with
    | .error e => .error (.keyErr e)
    | .ok minSel =>
        .error (.missingRequired minSel (orderBySignature spec
          (wrapFinal spec sigRequiredKwargs cfg selector scope args
            kwargs).2))

/-- The claim-side "still missing" list for C5: REQUIRED-marked positional
uses, signature-REQUIRED keywords not supplied positionally or by keyword,
and caller-supplied REQUIRED keywords — each kept only when the config
binds no value for the name. -/
def claimMissingRequired (spec : ArgSpec) (sigRequiredKwargs : List String)
    (cfg : Store GinVal) (selector : String) (scope : List String)
    (args : List GinVal) (kwargs : PyDict String GinVal) : List String :=
  let argNames := wrapArgNames spec args
  let bound := fun x => (dget (getBindings cfg selector scope) x).isSome
  ((requiredPairsOf argNames args).map Prod.snd).filter (fun x => !(bound x))
    ++ sigRequiredKwargs.filter
        (fun x => !argNames.contains x && !(dmem kwargs x) && !(bound x))
    ++ (wrapCallerReq kwargs).filter (fun x => !(bound x))

end Gin

namespace Gin

/-! ## Lemmas about the wrapper's pop/substitute folds -/

theorem dget_eq_none_iff {κ α : Type} [DecidableEq κ]
    (d : PyDict κ α) (k : κ) :
    dget d k = none ↔ k ∉ d.map Prod.fst := by
  induction d with
  | nil => simp [dget]
  | cons kv d ih =>
      by_cases h : k = kv.1
      · simp [dget, h]
      · simp [dget, h, ih]

theorem dgetLast_eq_none_iff {κ α : Type} [DecidableEq κ]
    (d : PyDict κ α) (k : κ) :
    dgetLast d k = none ↔ dget d k = none := by
  rw [dgetLast, dget_eq_none_iff, dget_eq_none_iff, List.map_reverse,
    List.mem_reverse]

theorem dget_popNonRequired_of_none (req : List String)
    (d : PyDict String GinVal) (names : List String) (x : String)
    (h : dget d x = none) : dget (popNonRequired req d names) x = none := by
  induction names generalizing d with
  | nil => exact h
  | cons a names ih =>
      show dget (popNonRequired req (if req.contains a then d else dpop d a)
        names) x = none
      by_cases hc : req.contains a = true
      · rw [if_pos hc]; exact ih d h
      · rw [if_neg hc]
        refine ih _ ?_
        rw [dget_dpop]
        by_cases hx : x = a
        · rw [if_pos hx]
        · rw [if_neg hx]; exact h

theorem dget_popNonRequired_of_skip (req : List String)
    (d : PyDict String GinVal) (names : List String) (x : String)
    (h : ∀ a ∈ names, a = x → req.contains a = true) :
    dget (popNonRequired req d names) x = dget d x := by
  induction names generalizing d with
  | nil => rfl
  | cons a names ih =>
      show dget (popNonRequired req (if req.contains a then d else dpop d a)
        names) x = dget d x
      by_cases hc : req.contains a = true
      · rw [if_pos hc]
        exact ih d (fun b hb => h b (List.mem_cons_of_mem a hb))
      · rw [if_neg hc]
        have hax : ¬a = x := fun hax => hc (h a (List.mem_cons_self a names) hax)
        rw [ih _ (fun b hb => h b (List.mem_cons_of_mem a hb)), dget_dpop,
          if_neg (fun hh : x = a => hax hh.symm)]

theorem dget_popNonRequired_of_mem (req : List String)
    (d : PyDict String GinVal) (names : List String) (x : String)
    (hm : x ∈ names) (hc : req.contains x = false) :
    dget (popNonRequired req d names) x = none := by
  induction names generalizing d with
  | nil => cases hm
  | cons a names ih =>
      show dget (popNonRequired req (if req.contains a then d else dpop d a)
        names) x = none
      rcases List.mem_cons.mp hm with hax | hrest
      · subst hax
        rw [if_neg (by rw [hc]; exact Bool.false_ne_true)]
        exact dget_popNonRequired_of_none req _ names x
          (by rw [dget_dpop, if_pos rfl])
      · by_cases hca : req.contains a = true
        · rw [if_pos hca]; exact ih d hrest
        · rw [if_neg hca]; exact ih _ hrest

theorem substituteRequired_kwargs_of_not (ps : List (Nat × String))
    (a : List GinVal) (d : PyDict String GinVal) (m : List String)
    (x : String) (h : ∀ p ∈ ps, p.2 ≠ x) :
    dget (substituteRequired ps (a, d, m)).2.1 x = dget d x := by
  induction ps generalizing a d m with
  | nil => rfl
  | cons p ps ih =>
      have hx : p.2 ≠ x := h p (List.mem_cons_self p ps)
      have hrest : ∀ q ∈ ps, q.2 ≠ x :=
        fun q hq => h q (List.mem_cons_of_mem p hq)
      show dget (substituteRequired ps
        (match dget d p.2 with
         | none => (a, d, m ++ [p.2])
         | some v => (a.set p.1 v, dpop d p.2, m))).2.1 x = dget d x
      cases hd : dget d p.2 with
      | none => exact ih a d (m ++ [p.2]) hrest
      | some v =>
          rw [ih _ _ _ hrest, dget_dpop,
            if_neg (fun hh : x = p.2 => hx hh.symm)]

theorem getD_set_ne {β : Type} (l : List β) (j : Nat) (v : β) (i : Nat)
    (dflt : β) (h : j ≠ i) : (l.set j v).getD i dflt = l.getD i dflt := by
  induction l generalizing i j with
  | nil => rfl
  | cons b l ih =>
      cases j with
      | zero =>
          cases i with
          | zero => exact absurd rfl h
          | succ i => simp [List.set]
      | succ j =>
          cases i with
          | zero => simp [List.set]
          | succ i =>
              show (b :: l.set j v).getD (i + 1) dflt = _
              rw [List.getD_cons_succ, List.getD_cons_succ]
              exact ih j i (fun hh => h (by rw [hh]))

theorem getD_set_self {β : Type} (l : List β) (i : Nat) (v dflt : β)
    (h : i < l.length) : (l.set i v).getD i dflt = v := by
  induction l generalizing i with
  | nil => cases h
  | cons b l ih =>
      cases i with
      | zero => rfl
      | succ i =>
          show (b :: l.set i v).getD (i + 1) dflt = v
          rw [List.getD_cons_succ]
          exact ih i (Nat.lt_of_succ_lt_succ h)

theorem substituteRequired_args_of_not (ps : List (Nat × String))
    (a : List GinVal) (d : PyDict String GinVal) (m : List String)
    (i : Nat) (dflt : GinVal) (h : ∀ p ∈ ps, p.1 ≠ i) :
    ((substituteRequired ps (a, d, m)).1).getD i dflt = a.getD i dflt := by
  induction ps generalizing a d m with
  | nil => rfl
  | cons p ps ih =>
      have hrest : ∀ q ∈ ps, q.1 ≠ i :=
        fun q hq => h q (List.mem_cons_of_mem p hq)
      show ((substituteRequired ps
        (match dget d p.2 with
         | none => (a, d, m ++ [p.2])
         | some v => (a.set p.1 v, dpop d p.2, m))).1).getD i dflt
        = a.getD i dflt
      cases hd : dget d p.2 with
      | none => exact ih a d (m ++ [p.2]) hrest
      | some v =>
          rw [ih _ _ _ hrest,
            getD_set_ne a p.1 v i dflt (h p (List.mem_cons_self p ps))]

theorem substituteRequired_missing (ps : List (Nat × String))
    (a : List GinVal) (d : PyDict String GinVal) (m : List String)
    (hno : (ps.map Prod.snd).Nodup) :
    (substituteRequired ps (a, d, m)).2.2 =
      m ++ (ps.filter (fun p => (dget d p.2).isNone)).map Prod.snd := by
  induction ps generalizing a d m with
  | nil => simp [substituteRequired]
  | cons p ps ih =>
      simp only [List.map_cons, List.nodup_cons] at hno
      show (substituteRequired ps
        (match dget d p.2 with
         | none => (a, d, m ++ [p.2])
         | some v => (a.set p.1 v, dpop d p.2, m))).2.2 = _
      cases hd : dget d p.2 with
      | none =>
          rw [ih a d (m ++ [p.2]) hno.2, List.filter_cons,
            if_pos (by rw [hd]; rfl)]
          simp
      | some v =>
          rw [ih _ _ _ hno.2, List.filter_cons,
            if_neg (by rw [hd]; simp)]
          congr 1
          congr 1
          refine List.filter_congr ?_
          intro q hq
          have hne : ¬q.2 = p.2 := by
            intro hqp
            exact hno.1 (hqp ▸ List.mem_map_of_mem Prod.snd hq)
          rw [dget_dpop, if_neg hne]

theorem substituteRequired_args_resolved (ps : List (Nat × String))
    (a : List GinVal) (d : PyDict String GinVal) (m : List String)
    (hno : (ps.map Prod.snd).Nodup) (hidx : (ps.map Prod.fst).Nodup)
    (hlen : ∀ p ∈ ps, p.1 < a.length) {i : Nat} {x : String}
    (hp : (i, x) ∈ ps) {v : GinVal} (hv : dget d x = some v)
    (dflt : GinVal) :
    ((substituteRequired ps (a, d, m)).1).getD i dflt = v := by
  induction ps generalizing a d m with
  | nil => cases hp
  | cons p ps ih =>
      simp only [List.map_cons, List.nodup_cons] at hno hidx
      show ((substituteRequired ps
        (match dget d p.2 with
         | none => (a, d, m ++ [p.2])
         | some w => (a.set p.1 w, dpop d p.2, m))).1).getD i dflt = v
      rcases List.mem_cons.mp hp with hpi | hrest
      · have h1 : p.1 = i := by rw [← hpi]
        have h2 : p.2 = x := by rw [← hpi]
        rw [h2, hv]
        have hni : ∀ q ∈ ps, q.1 ≠ i := by
          intro q hq hqi
          exact hidx.1 (h1 ▸ hqi ▸ List.mem_map_of_mem Prod.fst hq)
        rw [substituteRequired_args_of_not ps _ _ m i dflt hni, h1,
          getD_set_self a i v dflt (h1 ▸ hlen p (List.mem_cons_self p ps))]
      · have hx : p.2 ≠ x := by
          intro hpx
          exact hno.1 (hpx ▸ (List.mem_map_of_mem Prod.snd hrest :
            x ∈ ps.map Prod.snd))
        cases hd : dget d p.2 with
        | none =>
            exact ih a d (m ++ [p.2]) hno.2 hidx.2
              (fun q hq => hlen q (List.mem_cons_of_mem p hq)) hrest hv
        | some w =>
            refine ih _ _ m hno.2 hidx.2 ?_ hrest ?_
            · intro q hq
              rw [List.length_set]
              exact hlen q (List.mem_cons_of_mem p hq)
            · rw [dget_dpop, if_neg (fun hh : x = p.2 => hx hh.symm)]
              exact hv

theorem popCallerRequired_missing (nk2 : PyDict String GinVal)
    (ks : List String) (kw : PyDict String GinVal) (m : List String) :
    (popCallerRequired nk2 ks (kw, m)).2 =
      m ++ ks.filter (fun k => !(dmem nk2 k)) := by
  induction ks generalizing kw m with
  | nil => simp [popCallerRequired]
  | cons k ks ih =>
      show (popCallerRequired nk2 ks
        (if dmem nk2 k then (dpop kw k, m) else (kw, m ++ [k]))).2 = _
      by_cases hk : dmem nk2 k = true
      · rw [if_pos hk, ih, List.filter_cons, if_neg (by simp [hk])]
      · rw [if_neg hk, ih, List.filter_cons,
          if_pos (by simp [Bool.eq_false_iff.mpr hk])]
        simp

theorem dget_popCallerRequired_of_not (nk2 : PyDict String GinVal)
    (ks : List String) (kw : PyDict String GinVal) (m : List String)
    (x : String) (h : ∀ k ∈ ks, k ≠ x) :
    dget (popCallerRequired nk2 ks (kw, m)).1 x = dget kw x := by
  induction ks generalizing kw m with
  | nil => rfl
  | cons k ks ih =>
      have hk : k ≠ x := h k (List.mem_cons_self k ks)
      have hrest : ∀ b ∈ ks, b ≠ x := fun b hb => h b (List.mem_cons_of_mem k hb)
      show dget (popCallerRequired nk2 ks
        (if dmem nk2 k then (dpop kw k, m) else (kw, m ++ [k]))).1 x = _
      by_cases hm : dmem nk2 k = true
      · rw [if_pos hm, ih _ _ hrest, dget_dpop,
          if_neg (fun hh : x = k => hk hh.symm)]
      · rw [if_neg hm, ih _ _ hrest]

theorem dget_popCallerRequired_of_none (nk2 : PyDict String GinVal)
    (ks : List String) (kw : PyDict String GinVal) (m : List String)
    (x : String) (h : dget kw x = none) :
    dget (popCallerRequired nk2 ks (kw, m)).1 x = none := by
  induction ks generalizing kw m with
  | nil => exact h
  | cons k ks ih =>
      show dget (popCallerRequired nk2 ks
        (if dmem nk2 k then (dpop kw k, m) else (kw, m ++ [k]))).1 x = none
      by_cases hm : dmem nk2 k = true
      · rw [if_pos hm]
        refine ih _ m ?_
        rw [dget_dpop]
        by_cases hx : x = k
        · rw [if_pos hx]
        · rw [if_neg hx]; exact h
      · rw [if_neg hm]; exact ih _ _ h

theorem dget_popCallerRequired_of_mem (nk2 : PyDict String GinVal)
    (ks : List String) (kw : PyDict String GinVal) (m : List String)
    (x : String) (hm : x ∈ ks) (hnk : dmem nk2 x = true) :
    dget (popCallerRequired nk2 ks (kw, m)).1 x = none := by
  induction ks generalizing kw m with
  | nil => cases hm
  | cons k ks ih =>
      show dget (popCallerRequired nk2 ks
        (if dmem nk2 k then (dpop kw k, m) else (kw, m ++ [k]))).1 x = none
      rcases List.mem_cons.mp hm with hx | hrest
      · subst hx
        rw [if_pos hnk]
        exact dget_popCallerRequired_of_none nk2 ks _ m x
          (by rw [dget_dpop, if_pos rfl])
      · by_cases hk : dmem nk2 k = true
        · rw [if_pos hk]; exact ih _ m hrest
        · rw [if_neg hk]; exact ih _ _ hrest

theorem keys_popCallerRequired_sublist (nk2 : PyDict String GinVal)
    (ks : List String) (kw : PyDict String GinVal) (m : List String) :
    ((popCallerRequired nk2 ks (kw, m)).1.map Prod.fst).Sublist
      (kw.map Prod.fst) := by
  induction ks generalizing kw m with
  | nil => exact List.Sublist.refl _
  | cons k ks ih =>
      show ((popCallerRequired nk2 ks
        (if dmem nk2 k then (dpop kw k, m) else (kw, m ++ [k]))).1.map
          Prod.fst).Sublist _
      by_cases hk : dmem nk2 k = true
      · rw [if_pos hk]
        exact (ih _ m).trans ((List.filter_sublist kw).map Prod.fst)
      · rw [if_neg hk]; exact ih _ _

end Gin

namespace Gin

/-! ## Lemmas about the REQUIRED positional pairs -/

theorem mem_requiredPairsOf {argNames : List String} {args : List GinVal}
    {p : Nat × String} (h : p ∈ requiredPairsOf argNames args) :
    p.1 < argNames.length ∧ p.1 < args.length ∧
      args.getD p.1 GinVal.vnone = GinVal.required ∧
      p.2 = argNames.getD p.1 "" := by
  obtain ⟨q, hq, hqp⟩ := List.mem_map.mp h
  obtain ⟨hqe, hreq⟩ := List.mem_filter.mp hq
  have hget := List.mem_enum_iff_getElem?.mp hqe
  obtain ⟨hlt, hval⟩ := List.getElem?_eq_some.mp hget
  have hlen : (args.take argNames.length).length =
      min argNames.length args.length := List.length_take _ _
  have hlt1 : q.1 < argNames.length :=
    lt_of_lt_of_le (hlen ▸ hlt) (min_le_left _ _)
  have hlt2 : q.1 < args.length :=
    lt_of_lt_of_le (hlen ▸ hlt) (min_le_right _ _)
  have hq2 : q.2 = GinVal.required := by
    have := of_decide_eq_true hreq
    exact this
  subst hqp
  refine ⟨hlt1, hlt2, ?_, rfl⟩
  rw [List.getD_eq_getElem?_getD, List.getElem?_eq_getElem hlt2]
  have : (args.take argNames.length)[q.1] = args[q.1] :=
    List.getElem_take args
  rw [← this, hval, hq2]
  rfl

theorem requiredPairsOf_mem {argNames : List String} {args : List GinVal}
    {i : Nat} (hi : i < args.length) (hin : i < argNames.length)
    (hr : args.getD i GinVal.vnone = GinVal.required) :
    (i, argNames.getD i "") ∈ requiredPairsOf argNames args := by
  have hlt : i < (args.take argNames.length).length := by
    rw [List.length_take]
    exact lt_min hin hi
  have hval : (args.take argNames.length)[i] = GinVal.required := by
    rw [List.getElem_take args]
    rw [List.getD_eq_getElem?_getD, List.getElem?_eq_getElem hi] at hr
    exact hr
  refine List.mem_map.mpr ⟨(i, GinVal.required), List.mem_filter.mpr ⟨?_, ?_⟩, rfl⟩
  · exact List.mem_enum_iff_getElem?.mpr
      (by rw [List.getElem?_eq_getElem hlt, hval])
  · exact decide_eq_true rfl

theorem requiredPairsOf_fst_nodup (argNames : List String)
    (args : List GinVal) :
    ((requiredPairsOf argNames args).map Prod.fst).Nodup := by
  have heq : (requiredPairsOf argNames args).map Prod.fst =
      ((args.take argNames.length).enum.filter
        (fun p => p.2 == GinVal.required)).map Prod.fst := by
    unfold requiredPairsOf
    rw [List.map_map]
    rfl
  rw [heq]
  have hsub : (((args.take argNames.length).enum.filter
      (fun p => p.2 == GinVal.required)).map Prod.fst).Sublist
      ((args.take argNames.length).enum.map Prod.fst) :=
    (List.filter_sublist _).map Prod.fst
  rw [List.enum_map_fst] at hsub
  exact hsub.nodup (List.nodup_range _)

theorem nodup_getD_inj {l : List String} (hno : l.Nodup) {i j : Nat}
    (hi : i < l.length) (hj : j < l.length)
    (h : l.getD i "" = l.getD j "") : i = j := by
  rw [List.getD_eq_getElem?_getD, List.getD_eq_getElem?_getD,
    List.getElem?_eq_getElem hi, List.getElem?_eq_getElem hj] at h
  simp only [Option.getD_some] at h
  have := List.nodup_iff_injective_get.mp hno
    (show l.get ⟨i, hi⟩ = l.get ⟨j, hj⟩ by
      simp only [List.get_eq_getElem]
      exact h)
  exact congrArg Fin.val this

theorem requiredPairsOf_snd_nodup (argNames : List String)
    (args : List GinVal) (hno : argNames.Nodup) :
    ((requiredPairsOf argNames args).map Prod.snd).Nodup := by
  refine List.Nodup.map_on ?_ ?_
  · intro p hp q hq hpq
    obtain ⟨hp1, _, _, hp2⟩ := mem_requiredPairsOf hp
    obtain ⟨hq1, _, _, hq2⟩ := mem_requiredPairsOf hq
    have : p.1 = q.1 := by
      refine nodup_getD_inj hno hp1 hq1 ?_
      rw [← hp2, ← hq2]
      exact hpq
    have h2 : p.2 = q.2 := by rw [hp2, hq2, this]
    exact Prod.ext this h2
  · exact List.Nodup.of_map Prod.fst (requiredPairsOf_fst_nodup argNames args)

theorem requiredPairsOf_snd_mem {argNames : List String} {args : List GinVal}
    {p : Nat × String} (h : p ∈ requiredPairsOf argNames args) :
    p.2 ∈ argNames := by
  obtain ⟨hp1, _, _, hp2⟩ := mem_requiredPairsOf h
  rw [hp2, List.getD_eq_getElem?_getD, List.getElem?_eq_getElem hp1]
  exact List.getElem_mem _

end Gin

namespace Gin

/-! ## Stage-level lemmas for the wrapper pipeline -/

theorem contains_false_iff (l : List String) (a : String) :
    l.contains a = false ↔ a ∉ l := by
  rw [← Bool.not_eq_true]
  constructor
  · intro h hm
    exact h (List.elem_eq_true_of_mem hm)
  · intro h hc
    exact h (List.mem_of_elem_eq_true hc)

theorem dget_dupdate_popCaller_of_caller (S kwargs : PyDict String GinVal)
    (ks M : List String) (x : String) (v : GinVal)
    (hkw : (kwargs.map Prod.fst).Nodup) (hv : dget kwargs x = some v)
    (hxcr : ∀ k ∈ ks, k ≠ x) :
    dget (dupdate S (popCallerRequired S ks (kwargs, M)).1) x = some v := by
  rw [dget_dupdate]
  have h1 : dget (popCallerRequired S ks (kwargs, M)).1 x = dget kwargs x :=
    dget_popCallerRequired_of_not S ks kwargs M x hxcr
  have hnod := (keys_popCallerRequired_sublist S ks kwargs M).nodup hkw
  rw [dgetLast_eq_dget_of_nodup _ hnod, h1, hv]
  rfl

theorem dget_dupdate_popCaller_of_none (S kwargs : PyDict String GinVal)
    (ks M : List String) (x : String)
    (hS : dget S x = none) (hkw : dget kwargs x = none) :
    dget (dupdate S (popCallerRequired S ks (kwargs, M)).1) x = none := by
  rw [dget_dupdate, (dgetLast_eq_none_iff _ _).mpr
    (dget_popCallerRequired_of_none S ks kwargs M x hkw)]
  exact hS

theorem dget_dupdate_popCaller_of_required (S kwargs : PyDict String GinVal)
    (ks M : List String) (x : String) (v : GinVal)
    (hS : dget S x = some v) (hmem : x ∈ ks) :
    dget (dupdate S (popCallerRequired S ks (kwargs, M)).1) x = some v := by
  have h1 : dget (popCallerRequired S ks (kwargs, M)).1 x = none :=
    dget_popCallerRequired_of_mem S ks kwargs M x hmem (by simp [dmem, hS])
  rw [dget_dupdate, (dgetLast_eq_none_iff _ _).mpr h1]
  exact hS

theorem dget_wrapNewKwargs1_of_notArg (spec : ArgSpec) (cfg : Store GinVal)
    (selector : String) (scope : List String) (args : List GinVal)
    (x : String) (h : x ∉ wrapArgNames spec args) :
    dget (wrapNewKwargs1 spec cfg selector scope args) x =
      dget (getBindings cfg selector scope) x := by
  unfold wrapNewKwargs1
  exact dget_popNonRequired_of_skip _ _ _ _
    (fun a ha hax => False.elim (h (hax ▸ ha)))

theorem dget_wrapNewKwargs1_of_supplied (spec : ArgSpec) (cfg : Store GinVal)
    (selector : String) (scope : List String) (args : List GinVal)
    (x : String) (hmem : x ∈ wrapArgNames spec args)
    (hnr : x ∉ (requiredPairsOf (wrapArgNames spec args) args).map Prod.snd) :
    dget (wrapNewKwargs1 spec cfg selector scope args) x = none := by
  unfold wrapNewKwargs1
  exact dget_popNonRequired_of_mem _ _ _ _ hmem
    ((contains_false_iff _ _).mpr hnr)

theorem dget_wrapOp2_of_supplied_pos (spec : ArgSpec)
    (initD : PyDict String GinVal) (cfg : Store GinVal) (selector : String)
    (scope : List String) (args : List GinVal)
    (kwargs : PyDict String GinVal) (x : String)
    (hmem : x ∈ wrapArgNames spec args)
    (hnr : x ∉ (requiredPairsOf (wrapArgNames spec args) args).map Prod.snd) :
    dget (wrapOp2 spec initD cfg selector scope args kwargs) x = none := by
  unfold wrapOp2
  exact dget_popNonRequired_of_none _ _ _ _
    (dget_popNonRequired_of_mem _ _ _ _ hmem ((contains_false_iff _ _).mpr hnr))

theorem dget_wrapOp2_of_supplied_kw (spec : ArgSpec)
    (initD : PyDict String GinVal) (cfg : Store GinVal) (selector : String)
    (scope : List String) (args : List GinVal)
    (kwargs : PyDict String GinVal) (x : String)
    (hmem : x ∈ kwargs.map Prod.fst)
    (hcr : x ∉ wrapCallerReq kwargs) :
    dget (wrapOp2 spec initD cfg selector scope args kwargs) x = none := by
  unfold wrapOp2
  exact dget_popNonRequired_of_mem _ _ _ _ hmem
    ((contains_false_iff _ _).mpr hcr)

theorem dget_wrapNewOpCfg (spec : ArgSpec) (initD : PyDict String GinVal)
    (cfg : Store GinVal) (opCfg : Store GinVal) (selector : String)
    (scope : List String) (args : List GinVal)
    (kwargs : PyDict String GinVal) (x : String)
    (h : dget (wrapOp2 spec initD cfg selector scope args kwargs) x = none) :
    dget ((dget (wrapNewOpCfg spec initD cfg opCfg selector scope args kwargs)
        (joinScope scope, selector)).getD []) x =
      dget ((dget opCfg (joinScope scope, selector)).getD []) x := by
  unfold wrapNewOpCfg
  rw [dget_dset, if_pos rfl]
  simp only [Option.getD_some]
  rw [dget_dupdate, (dgetLast_eq_none_iff _ _).mpr h]
  rfl

end Gin

namespace Gin

/-- C4: in a call where the caller explicitly supplies a value for a
parameter `x` that the config may also bind, and the signature and the
caller's keywords are wellformed (unique names, no parameter supplied both
positionally and by keyword): a keyword-supplied non-REQUIRED value for
`x` reaches the target and `x` is excluded from the operative-config
update; a positionally supplied non-REQUIRED value for `x` stays in place
in the positional arguments, `x` is absent from the final keyword
arguments, and `x` is excluded from the operative-config update; and a
caller-supplied REQUIRED keyword instead defers to the config-bound
value. -/
theorem claim_C4_caller_wins (spec : ArgSpec) (sigReq : List String)
    (initD : PyDict String GinVal) (reg : SelectorMap Configurable)
    (selector : String) (cfg : Store GinVal) (opCfg : Store GinVal)
    (scope : List String) (args : List GinVal)
    (kwargs : PyDict String GinVal) (x : String) (newArgs : List GinVal)
    (newKw : PyDict String GinVal) (newOp : Store GinVal)
    (hargs : spec.args.Nodup) (hkw : (kwargs.map Prod.fst).Nodup)
    (hdisj : ∀ k ∈ kwargs.map Prod.fst,
      (wrapArgNames spec args).contains k = false)
    (hok : ginWrapperCall spec sigReq initD reg selector cfg opCfg scope args
      kwargs = .ok (newArgs, newKw, newOp)) :
    (∀ v, dget kwargs x = some v → v ≠ GinVal.required →
      dget newKw x = some v
      ∧ dget ((dget newOp (joinScope scope, selector)).getD []) x =
          dget ((dget opCfg (joinScope scope, selector)).getD []) x)
    ∧ (∀ i, i < args.length → i < spec.args.length →
        spec.args.getD i "" = x →
        args.getD i GinVal.vnone ≠ GinVal.required →
        newArgs.getD i GinVal.vnone = args.getD i GinVal.vnone
        ∧ dget newKw x = none
        ∧ dget ((dget newOp (joinScope scope, selector)).getD []) x =
            dget ((dget opCfg (joinScope scope, selector)).getD []) x)
    ∧ (∀ v, dget kwargs x = some GinVal.required →
        dget (getBindings cfg selector scope) x = some v →
        dget newKw x = some v) := by
  unfold ginWrapperCall at hok
  by_cases hvar : (args.drop (wrapArgNames spec args).length).any
      (fun a => a == GinVal.required) = true
  · rw [if_pos hvar] at hok
    exact Except.noConfusion hok
  rw [if_neg hvar] at hok
  by_cases hemp : (wrapFinal spec sigReq cfg selector scope args
      kwargs).2.isEmpty = true
  case neg =>
    rw [if_neg hemp] at hok
    cases hmin : reg.minimalSelector selector with
    | error e => rw [hmin] at hok; exact Except.noConfusion hok
    | ok m => rw [hmin] at hok; exact Except.noConfusion hok
  rw [if_pos hemp] at hok
  injection hok with h
  rw [Prod.mk.injEq, Prod.mk.injEq] at h
  obtain ⟨h1, h2, h3⟩ := h
  subst h1
  subst h2
  subst h3
  have hANno : (wrapArgNames spec args).Nodup :=
    (List.take_sublist _ _).nodup hargs
  refine ⟨?_, ?_, ?_⟩
  · intro v hv hvne
    have hxk : (x, v) ∈ kwargs := mem_of_dget_eq_some hv
    have hxmem : x ∈ kwargs.map Prod.fst :=
      List.mem_map_of_mem Prod.fst hxk
    have hxcr : ∀ k ∈ wrapCallerReq kwargs, k ≠ x := by
      intro k hk hkx
      subst hkx
      obtain ⟨kv, hkvf, hkv1⟩ := List.mem_map.mp hk
      obtain ⟨hkvmem, hkvreq⟩ := List.mem_filter.mp hkvf
      have hdg : dget kwargs kv.1 = some kv.2 :=
        dget_eq_of_mem_nodup hkw hkvmem
      rw [hkv1, hv] at hdg
      injection hdg with hveq
      exact hvne (hveq.trans (of_decide_eq_true hkvreq))
    constructor
    · unfold wrapFinal
      exact dget_dupdate_popCaller_of_caller _ _ _ _ _ _ hkw hv hxcr
    · exact dget_wrapNewOpCfg spec initD cfg opCfg selector scope args kwargs
        x (dget_wrapOp2_of_supplied_kw spec initD cfg selector scope args
          kwargs x hxmem (fun hm => hxcr x hm rfl))
  · intro i hi hi2 hx hreq
    have hiA : i < (wrapArgNames spec args).length := by
      unfold wrapArgNames
      rw [List.length_take]
      exact lt_min hi hi2
    have hxA : (wrapArgNames spec args).getD i "" = x := by
      have hiA2 : i < (List.take args.length spec.args).length := hiA
      show (List.take args.length spec.args).getD i "" = x
      rw [List.getD_eq_getElem?_getD, List.getElem?_eq_getElem hiA2]
      simp only [Option.getD_some]
      rw [List.getElem_take spec.args]
      rw [List.getD_eq_getElem?_getD, List.getElem?_eq_getElem hi2] at hx
      simpa using hx
    have hxmemA : x ∈ wrapArgNames spec args := by
      rw [← hxA, List.getD_eq_getElem?_getD, List.getElem?_eq_getElem hiA]
      simp only [Option.getD_some]
      exact List.getElem_mem _
    have hnotReq : ∀ p ∈ requiredPairsOf (wrapArgNames spec args) args,
        p.2 ≠ x := by
      intro p hp hpx
      obtain ⟨hp1, hp2, hp3, hp4⟩ := mem_requiredPairsOf hp
      have hpi : p.1 = i :=
        nodup_getD_inj hANno hp1 hiA ((hp4.symm.trans hpx).trans hxA.symm)
      rw [hpi] at hp3
      exact hreq hp3
    have hfstNe : ∀ p ∈ requiredPairsOf (wrapArgNames spec args) args,
        p.1 ≠ i := by
      intro p hp hpi
      obtain ⟨hp1, hp2, hp3, hp4⟩ := mem_requiredPairsOf hp
      exact hnotReq p hp (hp4.trans (hpi ▸ hxA))
    have hnrm : x ∉ (requiredPairsOf (wrapArgNames spec args) args).map
        Prod.snd := by
      intro hm
      obtain ⟨p, hp, hpx⟩ := List.mem_map.mp hm
      exact hnotReq p hp hpx
    have hkwnone : dget kwargs x = none := by
      refine dget_eq_none_of_not_mem kwargs x (fun hm => ?_)
      exact (contains_false_iff _ _).mp (hdisj x hm) hxmemA
    have hS : dget (wrapSub spec cfg selector scope args).2.1 x = none := by
      unfold wrapSub
      rw [substituteRequired_kwargs_of_not _ _ _ _ x hnotReq]
      exact dget_wrapNewKwargs1_of_supplied spec cfg selector scope args x
        hxmemA hnrm
    refine ⟨?_, ?_, ?_⟩
    · unfold wrapSub
      exact substituteRequired_args_of_not _ _ _ _ i _ hfstNe
    · unfold wrapFinal
      exact dget_dupdate_popCaller_of_none _ _ _ _ _ hS hkwnone
    · exact dget_wrapNewOpCfg spec initD cfg opCfg selector scope args kwargs
        x (dget_wrapOp2_of_supplied_pos spec initD cfg selector scope args
          kwargs x hxmemA hnrm)
  · intro v hreqkw hv
    have hxk : (x, GinVal.required) ∈ kwargs := mem_of_dget_eq_some hreqkw
    have hxmem : x ∈ kwargs.map Prod.fst :=
      List.mem_map_of_mem Prod.fst hxk
    have hxarg : x ∉ wrapArgNames spec args := fun hm =>
      (contains_false_iff _ _).mp (hdisj x hxmem) hm
    have hxcrmem : x ∈ wrapCallerReq kwargs := by
      refine List.mem_map.mpr ⟨(x, GinVal.required),
        List.mem_filter.mpr ⟨hxk, ?_⟩, rfl⟩
      exact decide_eq_true rfl
    have hnotReqP : ∀ p ∈ requiredPairsOf (wrapArgNames spec args) args,
        p.2 ≠ x := by
      intro p hp hpx
      exact hxarg (hpx ▸ requiredPairsOf_snd_mem hp)
    have hS : dget (wrapSub spec cfg selector scope args).2.1 x = some v := by
      unfold wrapSub
      rw [substituteRequired_kwargs_of_not _ _ _ _ x hnotReqP,
        dget_wrapNewKwargs1_of_notArg spec cfg selector scope args x hxarg]
      exact hv
    unfold wrapFinal
    exact dget_dupdate_popCaller_of_required _ _ _ _ _ _ hS hxcrmem

end Gin

namespace Gin

/-- Witness for C4: a call of a one-parameter configurable with `x` bound
to `1` in config and `x=9` supplied by the caller observes `9` and leaves
the operative config's entry for `x` untouched. -/
theorem claim_C4_witness :
    dget [("x", GinVal.vint 9)] "x" = some (GinVal.vint 9)
    ∧ dget ((dget [((joinScope [], "f"), ([] : PyDict String GinVal))]
        (joinScope [], "f")).getD []) "x" =
      dget ((dget ([] : Store GinVal) (joinScope [], "f")).getD []) "x" :=
  ⟨((claim_C4_caller_wins ⟨["x"], [], [], [], false⟩ [] [] SelectorMap.empty
      "f" [(("", "f"), [("x", GinVal.vint 1)])] [] [] []
      [("x", GinVal.vint 9)] "x" [] [("x", GinVal.vint 9)]
      [((joinScope [], "f"), [])] (by decide) (by decide) (by decide)
      rfl).1 (GinVal.vint 9) rfl (by decide)).1,
   ((claim_C4_caller_wins ⟨["x"], [], [], [], false⟩ [] [] SelectorMap.empty
      "f" [(("", "f"), [("x", GinVal.vint 1)])] [] [] []
      [("x", GinVal.vint 9)] "x" [] [("x", GinVal.vint 9)]
      [((joinScope [], "f"), [])] (by decide) (by decide) (by decide)
      rfl).1 (GinVal.vint 9) rfl (by decide)).2⟩

end Gin

namespace Gin

/-! ## C5: REQUIRED-binding validation -/

theorem map_snd_filter_comm (ps : List (Nat × String)) (q : String → Bool)
    (q2 : Nat × String → Bool) (hq : ∀ p, q2 p = q p.2) :
    (ps.filter q2).map Prod.snd = (ps.map Prod.snd).filter q := by
  induction ps with
  | nil => rfl
  | cons p ps ih =>
      rw [List.map_cons, List.filter_cons, List.filter_cons, hq p]
      by_cases h : q p.2 = true
      · rw [if_pos h, if_pos h, List.map_cons, ih]
      · rw [if_neg h, if_neg h, ih]

theorem dget_wrapNewKwargs1_of_required (spec : ArgSpec) (cfg : Store GinVal)
    (selector : String) (scope : List String) (args : List GinVal)
    (x : String)
    (hmem : x ∈ (requiredPairsOf (wrapArgNames spec args) args).map
      Prod.snd) :
    dget (wrapNewKwargs1 spec cfg selector scope args) x =
      dget (getBindings cfg selector scope) x := by
  unfold wrapNewKwargs1
  refine dget_popNonRequired_of_skip _ _ _ _ (fun a ha hax => ?_)
  subst hax
  exact List.elem_eq_true_of_mem hmem

theorem dget_wrapSub_of_notArg (spec : ArgSpec) (cfg : Store GinVal)
    (selector : String) (scope : List String) (args : List GinVal)
    (k : String) (hkn : k ∉ wrapArgNames spec args) :
    dget (wrapSub spec cfg selector scope args).2.1 k =
      dget (getBindings cfg selector scope) k := by
  unfold wrapSub
  rw [substituteRequired_kwargs_of_not _ _ _ _ k
    (fun p hp hpk => hkn (hpk ▸ requiredPairsOf_snd_mem hp))]
  exact dget_wrapNewKwargs1_of_notArg spec cfg selector scope args k hkn

/-- Under a wellformed signature and caller keywords, the missing-parameter
list that `gin_wrapper` accumulates and threads through its pops equals the
claim-side list computed directly from the config lookup. -/
theorem wrapFinal_missing_eq (spec : ArgSpec) (sigReq : List String)
    (cfg : Store GinVal) (selector : String) (scope : List String)
    (args : List GinVal) (kwargs : PyDict String GinVal)
    (hargs : spec.args.Nodup)
    (hdisj : ∀ k ∈ kwargs.map Prod.fst,
      (wrapArgNames spec args).contains k = false) :
    (wrapFinal spec sigReq cfg selector scope args kwargs).2 =
      claimMissingRequired spec sigReq cfg selector scope args kwargs := by
  have hANno : (wrapArgNames spec args).Nodup :=
    (List.take_sublist _ _).nodup hargs
  have h1 : (wrapSub spec cfg selector scope args).2.2 =
      ((requiredPairsOf (wrapArgNames spec args) args).map Prod.snd).filter
        (fun x => !(dget (getBindings cfg selector scope) x).isSome) := by
    unfold wrapSub
    rw [substituteRequired_missing _ _ _ _
      (requiredPairsOf_snd_nodup _ _ hANno), List.nil_append]
    rw [map_snd_filter_comm _
      (fun y => (dget (wrapNewKwargs1 spec cfg selector scope args) y).isNone)
      _ (fun p => rfl)]
    refine List.filter_congr (fun x hx => ?_)
    rw [dget_wrapNewKwargs1_of_required spec cfg selector scope args x hx]
    cases dget (getBindings cfg selector scope) x <;> rfl
  have h2 : sigReq.filter (fun k => !(wrapArgNames spec args).contains k
        && !(dmem kwargs k)
        && !(dmem (wrapSub spec cfg selector scope args).2.1 k)) =
      sigReq.filter (fun x => !(wrapArgNames spec args).contains x
        && !(dmem kwargs x)
        && !(dget (getBindings cfg selector scope) x).isSome) := by
    refine List.filter_congr (fun k _ => ?_)
    by_cases hc : (wrapArgNames spec args).contains k = true
    · simp only [hc, Bool.not_true, Bool.false_and]
    · have hkn : k ∉ wrapArgNames spec args :=
        (contains_false_iff _ _).mp (Bool.eq_false_iff.mpr hc)
      have hSk := dget_wrapSub_of_notArg spec cfg selector scope args k hkn
      simp only [dmem, hSk]
  have h3 : (wrapCallerReq kwargs).filter
      (fun k => !(dmem (wrapSub spec cfg selector scope args).2.1 k)) =
      (wrapCallerReq kwargs).filter
        (fun x => !(dget (getBindings cfg selector scope) x).isSome) := by
    refine List.filter_congr (fun k hk => ?_)
    have hmem : k ∈ kwargs.map Prod.fst := by
      obtain ⟨kv, hkvf, hkv1⟩ := List.mem_map.mp hk
      exact hkv1 ▸ List.mem_map_of_mem Prod.fst (List.mem_filter.mp hkvf).1
    have hkn : k ∉ wrapArgNames spec args :=
      (contains_false_iff _ _).mp (hdisj k hmem)
    have hSk := dget_wrapSub_of_notArg spec cfg selector scope args k hkn
    simp only [dmem, hSk]
  unfold wrapFinal
  rw [popCallerRequired_missing]
  simp only [claimMissingRequired]
  rw [h1, h2, h3]

end Gin

namespace Gin

/-- C5: with a wellformed signature and caller keywords and no extra
varargs, if any parameter marked by the REQUIRED sentinel (positional use,
signature default, or caller keyword) is bound neither by config nor
caller, the call fails with a `RuntimeError` naming the target's minimal
selector and exactly the still-missing names in signature order; if every
such parameter is bound the call proceeds, with the config-bound values
substituted into the REQUIRED positional slots. -/
theorem claim_C5_required_validation (spec : ArgSpec) (sigReq : List String)
    (initD : PyDict String GinVal) (reg : SelectorMap Configurable)
    (selector minSel : String) (cfg : Store GinVal) (opCfg : Store GinVal)
    (scope : List String) (args : List GinVal)
    (kwargs : PyDict String GinVal)
    (hargs : spec.args.Nodup)
    (hdisj : ∀ k ∈ kwargs.map Prod.fst,
      (wrapArgNames spec args).contains k = false)
    (hlen : args.length ≤ spec.args.length)
    (hmin : reg.minimalSelector selector = .ok minSel) :
    (claimMissingRequired spec sigReq cfg selector scope args kwargs ≠ [] →
      ginWrapperCall spec sigReq initD reg selector cfg opCfg scope args
          kwargs =
        .error (.missingRequired minSel (orderBySignature spec
          (claimMissingRequired spec sigReq cfg selector scope args
            kwargs))))
    ∧ (claimMissingRequired spec sigReq cfg selector scope args kwargs = []
      → ∃ newArgs newKw newOp,
        ginWrapperCall spec sigReq initD reg selector cfg opCfg scope args
            kwargs = .ok (newArgs, newKw, newOp)
        ∧ ∀ i, i < args.length →
            args.getD i GinVal.vnone = GinVal.required →
            ∃ v, dget (getBindings cfg selector scope)
                ((wrapArgNames spec args).getD i "") = some v
              ∧ newArgs.getD i GinVal.vnone = v) := by
  have hANno : (wrapArgNames spec args).Nodup :=
    (List.take_sublist _ _).nodup hargs
  have hANlen : (wrapArgNames spec args).length = args.length := by
    unfold wrapArgNames
    rw [List.length_take]
    exact min_eq_left hlen
  have hvar : (args.drop (wrapArgNames spec args).length).any
      (fun a => a == GinVal.required) = false := by
    rw [hANlen, List.drop_length]
    rfl
  have hfm := wrapFinal_missing_eq spec sigReq cfg selector scope args kwargs
    hargs hdisj
  constructor
  · intro hne
    unfold ginWrapperCall
    rw [if_neg (by rw [hvar]; exact Bool.false_ne_true)]
    rw [if_neg (fun hh => hne (by rw [← hfm, List.isEmpty_iff.mp hh]))]
    rw [hmin, hfm]
  · intro hq
    refine ⟨(wrapSub spec cfg selector scope args).1,
      dupdate (wrapSub spec cfg selector scope args).2.1
        (wrapFinal spec sigReq cfg selector scope args kwargs).1,
      wrapNewOpCfg spec initD cfg opCfg selector scope args kwargs, ?_, ?_⟩
    · unfold ginWrapperCall
      rw [if_neg (by rw [hvar]; exact Bool.false_ne_true),
        if_pos (by rw [hfm, hq]; rfl)]
    · intro i hi hreqi
      have hiA : i < (wrapArgNames spec args).length := by
        rw [hANlen]
        exact hi
      have hpmem : (i, (wrapArgNames spec args).getD i "") ∈
          requiredPairsOf (wrapArgNames spec args) args :=
        requiredPairsOf_mem hi hiA hreqi
      have hxmem : (wrapArgNames spec args).getD i "" ∈
          (requiredPairsOf (wrapArgNames spec args) args).map Prod.snd :=
        List.mem_map_of_mem Prod.snd hpmem
      have h0 := hq
      simp only [claimMissingRequired] at h0
      obtain ⟨h01, h03⟩ := List.append_eq_nil.mp h0
      obtain ⟨hA, hB⟩ := List.append_eq_nil.mp h01
      have hnb := List.filter_eq_nil_iff.mp hA _ hxmem
      have hb : (dget (getBindings cfg selector scope)
          ((wrapArgNames spec args).getD i "")).isSome = true := by
        by_contra hnb2
        exact hnb (by
          rw [Bool.eq_false_iff.mpr hnb2]
          rfl)
      obtain ⟨v, hv⟩ := Option.isSome_iff_exists.mp hb
      refine ⟨v, hv, ?_⟩
      unfold wrapSub
      refine substituteRequired_args_resolved _ _ _ _
        (requiredPairsOf_snd_nodup _ _ hANno)
        (requiredPairsOf_fst_nodup _ _)
        (fun p hp => (mem_requiredPairsOf hp).2.1) hpmem ?_ _
      rw [dget_wrapNewKwargs1_of_required spec cfg selector scope args _
        hxmem]
      exact hv

end Gin

namespace Gin

/-- A one-entry registry holding the selector `f`, for the C5 witness. -/
def c5reg : SelectorMap Configurable :=
  ⟨SelTree.node none [("f", SelTree.node (some "f") [])],
   [("f", ⟨"f", ["x"], false, [], [], false⟩)]⟩

/-- Witness for C5: a configurable whose parameter `x` defaults to
REQUIRED, called with no config binding and no caller value, fails with
the RuntimeError naming the minimal selector `f` and the missing name. -/
theorem claim_C5_witness :
    claimMissingRequired ⟨["x"], [GinVal.required], [], [], false⟩ ["x"]
        [] "f" [] [] [] ≠ []
    ∧ ginWrapperCall ⟨["x"], [GinVal.required], [], [], false⟩ ["x"] []
        c5reg "f" [] [] [] [] [] =
      .error (.missingRequired "f" (orderBySignature
        ⟨["x"], [GinVal.required], [], [], false⟩
        (claimMissingRequired ⟨["x"], [GinVal.required], [], [], false⟩
          ["x"] [] "f" [] [] []))) :=
  ⟨by decide,
   (claim_C5_required_validation ⟨["x"], [GinVal.required], [], [], false⟩
      ["x"] [] c5reg "f" "f" [] [] [] [] [] (by decide) (by decide)
      (by decide) rfl).1 (by decide)⟩

end Gin

namespace Gin

/-! ## C3: literal values — `repr` and `parse_value`

The value sublanguage of `config_parser.py` (containers, strings, numbers,
booleans, `None`) is embedded at character level.  Python's tokenizer layer
is modelled directly on characters: whitespace is skipped between tokens,
strings carry the escape forms `repr` produces, and adjacent string
literals concatenate (`_maybe_parse_basic_type`'s `was_string`/`is_string`
loop).  The model's value type has no floats or complex numbers, and
configurable references (`@...`) and macros (`%...`) construct delegate
objects with no literal counterpart, so both parse to errors here. -/

/-- `[`/`]`-like characters written via code points. -/
def lbraceC : Char := Char.ofNat 123

def rbraceC : Char := Char.ofNat 125

def squoteC : Char := Char.ofNat 39

def dquoteC : Char := Char.ofNat 34

def bslashC : Char := Char.ofNat 92

def digitChar (n : Nat) : Char := Char.ofNat (48 + n)

/-- Decimal digits of `n`, most significant first (`str(n)` for a
nonnegative int); fuel-based so that it evaluates definitionally. -/
def natToDigitsAux : Nat → Nat → List Char
  | 0, _ => []
  | f + 1, n =>
      if n < 10 then [digitChar n]
      else natToDigitsAux f (n / 10) ++ [digitChar (n % 10)]

def natToDigits (n : Nat) : List Char := natToDigitsAux (n + 1) n

def hexDigitChar (n : Nat) : Char :=
  if n < 10 then Char.ofNat (48 + n) else Char.ofNat (97 + (n - 10))

/-- The escape `repr` applies to one string character: backslash, quote,
newline, carriage return and tab escapes, `\xHH` for other control
characters, everything else literal (`repr`'s single-quote convention is
used even when the string contains a single quote, where Python would
switch to double quotes; both forms re-parse to the same string). -/
def escapeChar (c : Char) : List Char :=
  if c = bslashC then [bslashC, bslashC]
  else if c = squoteC then [bslashC, squoteC]
  else if c = Char.ofNat 10 then [bslashC, 'n']
  else if c = Char.ofNat 13 then [bslashC, 'r']
  else if c = Char.ofNat 9 then [bslashC, 't']
  else if c.toNat < 32 || c.toNat = 127 then
    [bslashC, 'x', hexDigitChar (c.toNat / 16), hexDigitChar (c.toNat % 16)]
  else [c]

def escapeString : List Char → List Char
  | [] => []
  | c :: rest => escapeChar c ++ escapeString rest

mutual

/-- `repr(value)` for the modelled value types.  Sentinel and foreign
(non-literal) objects print in angle-bracket form (`<object ...>`), which
no literal parse accepts. -/
def reprChars : GinVal → List Char
  | .vnone => "None".data
  | .vbool true => "True".data
  | .vbool false => "False".data
  | .vint (Int.ofNat m) => natToDigits m
  | .vint (Int.negSucc m) => '-' :: natToDigits (m + 1)
  | .vstr s => squoteC :: (escapeString s.data ++ [squoteC])
  | .vlist vs => '[' :: (reprItems vs ++ [']'])
  | .vtuple [v] => '(' :: (reprChars v ++ [',', ')'])
  | .vtuple vs => '(' :: (reprItems vs ++ [')'])
  | .vdict kvs => lbraceC :: (reprPairs kvs ++ [rbraceC])
  | .required => "<object>".data
  | .foreign _ => "<object>".data

/-- Comma-separated `repr`s (`", ".join(...)`). -/
def reprItems : List GinVal → List Char
  | [] => []
  | [v] => reprChars v
  | v :: vs => reprChars v ++ ',' :: ' ' :: reprItems vs

/-- Comma-separated `key: value` pairs of a dict `repr`. -/
def reprPairs : List (GinVal × GinVal) → List Char
  | [] => []
  | [kv] => reprChars kv.1 ++ ':' :: ' ' :: reprChars kv.2
  | kv :: kvs =>
      reprChars kv.1 ++ ':' :: ' ' :: reprChars kv.2 ++
        ',' :: ' ' :: reprPairs kvs

end

def reprStr (v : GinVal) : String := String.mk (reprChars v)

def isDigitChar (c : Char) : Bool := 48 ≤ c.toNat && c.toNat ≤ 57

def parseDigitsAux : List Char → Nat → Nat × List Char
  | [], acc => (acc, [])
  | c :: rest, acc =>
      if isDigitChar c then parseDigitsAux rest (acc * 10 + (c.toNat - 48))
      else (acc, c :: rest)

/-- A NUMBER token (a nonempty digit run) and its decimal value. -/
def parseDigits : List Char → Option (Nat × List Char)
  | [] => none
  | c :: rest =>
      if isDigitChar c then some (parseDigitsAux (c :: rest) 0) else none

def hexVal (c : Char) : Option Nat :=
  if 48 ≤ c.toNat && c.toNat ≤ 57 then some (c.toNat - 48)
  else if 97 ≤ c.toNat && c.toNat ≤ 102 then some (c.toNat - 87)
  else if 65 ≤ c.toNat && c.toNat ≤ 70 then some (c.toNat - 55)
  else none

/-- The body of a string literal opened with quote `q`, unescaped
(`ast.literal_eval` semantics for the escapes `repr` can produce; an
unrecognized escape keeps the backslash, as in Python). -/
def parseStringBody (q : Char) : List Char → Except String (List Char × List Char)
  | [] => .error "unterminated string literal"
  | c :: rest =>
      if c = q then .ok ([], rest)
      else if c = bslashC then
        match rest with
        | [] => .error "unterminated string literal"
        | e :: rest2 =>
            if e = 'n' then
              match parseStringBody q rest2 with
              | .ok (s, r) => .ok (Char.ofNat 10 :: s, r)
              | .error er => .error er
            else if e = 'r' then
              match parseStringBody q rest2 with
              | .ok (s, r) => .ok (Char.ofNat 13 :: s, r)
              | .error er => .error er
            else if e = 't' then
              match parseStringBody q rest2 with
              | .ok (s, r) => .ok (Char.ofNat 9 :: s, r)
              | .error er => .error er
            else if e = 'x' then
              match rest2 with
              | h1 :: h2 :: rest3 =>
                  match hexVal h1, hexVal h2 with
                  | some a, some b =>
                      match parseStringBody q rest3 with
                      | .ok (s, r) => .ok (Char.ofNat (16 * a + b) :: s, r)
                      | .error er => .error er
                  | _, _ => .error "invalid hex escape"
              | _ => .error "invalid hex escape"
            else if e = bslashC || e = squoteC || e = dquoteC then
              match parseStringBody q rest2 with
              | .ok (s, r) => .ok (e :: s, r)
              | .error er => .error er
            else
              match parseStringBody q rest2 with
              | .ok (s, r) => .ok (bslashC :: e :: s, r)
              | .error er => .error er
      else
        match parseStringBody q rest with
        | .ok (s, r) => .ok (c :: s, r)
        | .error er => .error er

/-- A maximal run of identifier characters (a NAME token). -/
def parseName : List Char → List Char × List Char
  | [] => ([], [])
  | c :: rest =>
      if isWordChar c then
        match parseName rest with
        | (nm, r) => (c :: nm, r)
      else ([], c :: rest)

def skipSpaces (cs : List Char) : List Char :=
  cs.dropWhile (fun c => c = ' ')

mutual

/-- `ConfigParser.parse_value` on characters: try containers
(`_maybe_parse_container`), then basic types
(`_maybe_parse_basic_type`); references and macros have no literal
value and are reported as parse errors.  Fuel ensures termination;
`parseValue` supplies more fuel than any input can consume. -/
def parseValueF : Nat → List Char → Except String (GinVal × List Char)
  | 0, _ => .error "out of fuel"
  | f + 1, cs0 =>
      match skipSpaces cs0 with
      | [] => .error "Unable to parse value."
      | c :: rest =>
          if c = '[' then
            match parseItemsF f ']' rest with
            | .ok (vs, _, r) => .ok (.vlist vs, r)
            | .error e => .error e
          else if c = '(' then
            match parseItemsF f ')' rest with
            | .ok ([v], false, r) => .ok (v, r)
            | .ok (vs, _, r) => .ok (.vtuple vs, r)
            | .error e => .error e
          else if c = lbraceC then
            match parseDictItemsF f rest with
            | .ok (kvs, r) => .ok (.vdict kvs, r)
            | .error e => .error e
          else if c = '-' then
            match parseDigits (skipSpaces rest) with
            | some (n, r) => .ok (.vint (-(n : Int)), r)
            | none => .error "Unable to parse value."
          else if isDigitChar c then
            match parseDigits (c :: rest) with
            | some (n, r) => .ok (.vint (n : Int), r)
            | none => .error "Unable to parse value."
          else if c = squoteC || c = dquoteC then
            match parseStringBody c rest with
            | .ok (s, r) => parseStrConcatF f s r
            | .error e => .error e
          else if isWordChar c then
            match parseName (c :: rest) with
            | (nm, r) =>
                if String.mk nm = "None" then .ok (.vnone, r)
                else if String.mk nm = "True" then .ok (.vbool true, r)
                else if String.mk nm = "False" then .ok (.vbool false, r)
                else .error "Unable to parse value."
          else .error "Unable to parse value."
termination_by structural f _ => f

/-- String-literal concatenation: while the next token is also a string,
append it (`was_string and is_string`). -/
def parseStrConcatF : Nat → List Char → List Char →
    Except String (GinVal × List Char)
  | 0, _, _ => .error "out of fuel"
  | f + 1, acc, cs =>
      match skipSpaces cs with
      | c :: rest =>
          if c = squoteC || c = dquoteC then
            match parseStringBody c rest with
            | .ok (s, r) => parseStrConcatF f (acc ++ s) r
            | .error e => .error e
          else .ok (.vstr (String.mk acc), c :: rest)
      | [] => .ok (.vstr (String.mk acc), [])
termination_by structural f _ _ => f

/-- The item loop of `_maybe_parse_container` for lists and tuples:
values separated by commas, an optional trailing comma, and the closing
bracket; also reports whether any comma was seen (the
single-value-parentheses rule). -/
def parseItemsF : Nat → Char → List Char →
    Except String (List GinVal × Bool × List Char)
  | 0, _, _ => .error "out of fuel"
  | f + 1, close, cs0 =>
      match skipSpaces cs0 with
      | [] => .error "Unable to parse value."
      | c :: rest =>
          if c = close then .ok ([], false, rest)
          else
            match parseValueF f (c :: rest) with
            | .error e => .error e
            | .ok (v, r) =>
                match skipSpaces r with
                | [] => .error "Expected a comma or closing bracket."
                | c2 :: r2 =>
                    if c2 = ',' then
                      match parseItemsF f close r2 with
                      | .ok (vs, _, r3) => .ok (v :: vs, true, r3)
                      | .error e => .error e
                    else if c2 = close then .ok ([v], false, r2)
                    else .error "Expected a comma or closing bracket."
termination_by structural f _ _ => f

/-- The item loop for dicts: `key : value` pairs. -/
def parseDictItemsF : Nat → List Char →
    Except String (List (GinVal × GinVal) × List Char)
  | 0, _ => .error "out of fuel"
  | f + 1, cs0 =>
      match skipSpaces cs0 with
      | [] => .error "Unable to parse value."
      | c :: rest =>
          if c = rbraceC then .ok ([], rest)
          else
            match parseValueF f (c :: rest) with
            | .error e => .error e
            | .ok (k, r) =>
                match skipSpaces r with
                | c2 :: r2 =>
                    if c2 = ':' then
                      match parseValueF f r2 with
                      | .error e => .error e
                      | .ok (v, r3) =>
                          match skipSpaces r3 with
                          | c3 :: r4 =>
                              if c3 = ',' then
                                match parseDictItemsF f r4 with
                                | .ok (kvs, r5) => .ok ((k, v) :: kvs, r5)
                                | .error e => .error e
                              else if c3 = rbraceC then .ok ([(k, v)], r4)
                              else .error "Expected a comma or closing bracket."
                          | [] => .error "Expected a comma or closing bracket."
                    else .error "Expected a colon."
                | [] => .error "Expected a colon."
termination_by structural f _ => f

end

/-- `parse_value` (`config.py`): parse one literal value from the string
(no end-of-input requirement, as in the source). -/
def parseValue (s : String) : Except String GinVal :=
  match parseValueF (s.length + 1) s.data with
  | .ok (v, _) => .ok v
  | .error e => .error e

/-- `_format_value`: `repr` the value, re-parse it, and return the text
only when the parse result equals the value. -/
def formatValue (v : GinVal) : Option String :=
  match parseValue (reprStr v) with
  | .ok w => if w = v then some (reprStr v) else none
  | .error _ => none

/-- `_is_literally_representable`. -/
def isLiterallyRepresentable (v : GinVal) : Bool :=
  (formatValue v).isSome

/-- `pprint.pformat` as used by `format_binding`, modelled as `repr`: line
wrapping at `max_line_length` and `pprint`'s sorting of dict keys change
only the layout, not the parsed value. -/
def pformatModel (v : GinVal) : String := reprStr v

end Gin

namespace Gin

/-! ## C3: `_config_str` and the `parse_config` statement loop -/

def lowerStr (s : String) : String := String.mk (s.data.map Char.toLower)

/-- `sort_key` of `_config_str`: case-insensitive reversed selector
components followed by reversed scope components; for a method
configurable the class and method names merge into one part.  (A selector
missing from the registry would raise inside Python's `sorted`; the
rendering loop reports that `KeyError` itself, so the sort key of an
unregistered selector is immaterial and defaults to its parts here.) -/
def sortKey (reg : SelectorMap Configurable) (key : String × String) :
    List String :=
  let parts := (strSplit (lowerStr key.2) '.').reverse ++
    (strSplit (lowerStr key.1) '/').reverse
  match dget reg.map key.2 with
  | some c =>
      if c.isMethod then
        match parts with
        | m :: cls :: rest => (cls ++ "." ++ m) :: rest
        | _ => parts
      else parts
  | none => parts

/-- Python list-of-strings comparison (lexicographic). -/
def strListLeB : List String → List String → Bool
  | [], _ => true
  | _ :: _, [] => false
  | x :: xs, y :: ys =>
      if x < y then true else if x = y then strListLeB xs ys else false

/-- `sorted(configuration_object.items(), key=sort_key)`. -/
def sortStore (reg : SelectorMap Configurable) (cfg : Store GinVal) :
    Store GinVal :=
  List.insertionSort
    (fun a b => strListLeB (sortKey reg a.1) (sortKey reg b.1) = true) cfg

/-- `ImportManager.minimal_selector` without dynamic registration:
`_REGISTRY.minimal_selector(configurable_.selector)`, plus the
`Class.method` adjustment for method configurables. -/
def importMinimalSelector (reg : SelectorMap Configurable)
    (c : Configurable) : Except String String :=
  match reg.minimalSelector c.selector with
  | .error e => .error e
  | .ok m =>
      if c.isMethod && !(m.data.contains '.') then
        let comps := strSplit c.selector '.'
        .ok (strJoin '.' (comps.drop (comps.length - 2)))
      else .ok m

/-- One `# Parameters for ...:` block of `_config_str`: the statements
`scoped_selector.arg = pformat(value)` for each literally-representable
parameter (the comment and blank lines of a block carry no bindings). -/
def renderBlock (scope minSel : String) (params : PyDict String GinVal) :
    List (String × String) :=
  let scopedSelector := (if scope = "" then "" else scope ++ "/") ++ minSel
  (params.filter (fun kv => isLiterallyRepresentable kv.2)).map
    (fun kv => (scopedSelector ++ "." ++ kv.1, pformatModel kv.2))

/-- `_config_str` restricted to the binding statements it emits: imports
and macro blocks are absent (no macro or constant configurables are
modelled), and comments and blank lines carry no bindings.  Blocks follow
the `sort_key` order; each block resolves its configurable
(`_REGISTRY[selector]`, a `KeyError` when unregistered), computes the
minimal selector, and emits one statement per literally-representable
parameter.  The inner `sorted(parameters)` reordering is omitted
(parameter keys are unique, so it cannot affect the parsed result).
`configStrStep` is the loop body, `configStrStatements` the loop. -/
def configStrStep (reg : SelectorMap Configurable)
    (acc : List (String × String))
    (item : (String × String) × PyDict String GinVal) :
    Except String (List (String × String)) :=
  match dget reg.map item.1.2 with
  | none => .error ("KeyError: " ++ item.1.2)
  | some c =>
      match importMinimalSelector reg c with
      | .error e => .error e
      | .ok minSel => .ok (acc ++ renderBlock item.1.1 minSel item.2)

def configStrStatements (reg : SelectorMap Configurable)
    (cfg : Store GinVal) : Except String (List (String × String)) :=
  (sortStore reg cfg).foldlM (configStrStep reg) []

/-- The statement loop of `parse_config`: each binding statement parses
its value and is applied through `bind_parameter`. -/
def parseConfigStatements (reg : SelectorMap Configurable) (st : GinState)
    (stmts : List (String × String)) : Except String GinState :=
  stmts.foldlM
    (fun acc stmt =>
      match parseValue stmt.2 with
      | .error e => .error e
      | .ok v => bindParameter reg acc stmt.1 v)
    st

/-- The config key and argument name a binding statement resolves to
(helper for stating the reconstruction lemmas). -/
def stmtTriple (reg : SelectorMap Configurable) (stmt : String × String) :
    (String × String) × String :=
  match parsedBindingKeyParse reg stmt.1 with
  | .ok pbk => ((pbk.scope, pbk.completeSelector), pbk.argName)
  | .error _ => (("", ""), "")

/-- The value a binding statement carries. -/
def stmtValue (stmt : String × String) : GinVal :=
  match parseValue stmt.2 with
  | .ok v => v
  | .error _ => GinVal.vnone

/-- Two-level lookup in a binding store. -/
def dget2 (cfg : Store GinVal) (key : String × String) (arg : String) :
    Option GinVal :=
  dget ((dget cfg key).getD []) arg

end Gin

namespace Gin

/-! ## C3: minimal selectors resolve uniquely -/

theorem mem_splitOnSep_no_sep (sep : Char) (cs : List Char) (p : List Char)
    (hp : p ∈ splitOnSep sep cs) : sep ∉ p := by
  induction cs generalizing p with
  | nil =>
      simp only [splitOnSep, List.mem_singleton] at hp
      subst hp
      exact List.not_mem_nil sep
  | cons c rest ih =>
      simp only [splitOnSep] at hp
      cases hs : splitOnSep sep rest with
      | nil => exact absurd hs (splitOnSep_ne_nil sep rest)
      | cons h t =>
          simp only [hs] at hp
          by_cases hc : c = sep
          · rw [if_pos hc] at hp
            rcases List.mem_cons.mp hp with h1 | h2
            · subst h1; exact List.not_mem_nil sep
            · exact ih p (hs ▸ h2)
          · rw [if_neg hc] at hp
            rcases List.mem_cons.mp hp with h1 | h2
            · subst h1
              intro hmem
              rcases List.mem_cons.mp hmem with h3 | h4
              · exact hc h3.symm
              · exact ih h (hs ▸ List.mem_cons_self h t) h4
            · exact ih p (hs ▸ List.mem_cons_of_mem h h2)

theorem splitOnSep_no_sep (sep : Char) (p : List Char) (h : sep ∉ p) :
    splitOnSep sep p = [p] := by
  induction p with
  | nil => rfl
  | cons c rest ih =>
      simp only [List.mem_cons, not_or] at h
      simp only [splitOnSep, ih h.2]
      rw [if_neg (fun hc => h.1 hc.symm)]

theorem splitOnSep_append_no_sep (sep : Char) (p cs : List Char)
    (h : sep ∉ p) :
    splitOnSep sep (p ++ cs) =
      match splitOnSep sep cs with
      | [] => [p]
      | h0 :: t => (p ++ h0) :: t := by
  induction p with
  | nil =>
      simp only [List.nil_append]
      cases hs : splitOnSep sep cs with
      | nil => exact absurd hs (splitOnSep_ne_nil sep cs)
      | cons h0 t => rfl
  | cons c rest ih =>
      simp only [List.mem_cons, not_or] at h
      cases hs : splitOnSep sep cs with
      | nil => exact absurd hs (splitOnSep_ne_nil sep cs)
      | cons h0 t =>
          have hcs : ¬c = sep := fun hc => h.1 hc.symm
          simp [List.cons_append, splitOnSep, List.append_eq, ih h.2, hs, hcs]

theorem splitOnSep_joinWithSep (sep : Char) (parts : List (List Char))
    (hne : parts ≠ []) (hsep : ∀ p ∈ parts, sep ∉ p) :
    splitOnSep sep (joinWithSep sep parts) = parts := by
  induction parts with
  | nil => exact absurd rfl hne
  | cons p rest ih =>
      cases rest with
      | nil =>
          show splitOnSep sep p = [p]
          exact splitOnSep_no_sep sep p (hsep p (List.mem_cons_self p []))
      | cons p2 t =>
          show splitOnSep sep (p ++ sep :: joinWithSep sep (p2 :: t)) = _
          rw [splitOnSep_append_no_sep sep p _
            (hsep p (List.mem_cons_self p _))]
          have hrest : splitOnSep sep (sep :: joinWithSep sep (p2 :: t)) =
              [] :: splitOnSep sep (joinWithSep sep (p2 :: t)) := by
            cases hs : splitOnSep sep (joinWithSep sep (p2 :: t)) with
            | nil => exact absurd hs (splitOnSep_ne_nil sep _)
            | cons h0 t0 => simp [splitOnSep, hs]
          rw [hrest, ih (List.cons_ne_nil p2 t)
            (fun q hq => hsep q (List.mem_cons_of_mem p hq))]
          simp

theorem strSplit_strJoin (parts : List String) (hne : parts ≠ [])
    (hsep : ∀ p ∈ parts, '.' ∉ p.data) :
    strSplit (strJoin '.' parts) '.' = parts := by
  unfold strSplit strJoin
  show ((splitOnSep '.' (joinWithSep '.' (parts.map String.data))).map
    String.mk) = parts
  rw [splitOnSep_joinWithSep '.' (parts.map String.data)
    (fun hc => hne (List.map_eq_nil_iff.mp hc))
    (fun p hp => by
      obtain ⟨q, hq, hqp⟩ := List.mem_map.mp hp
      exact hqp ▸ hsep q hq)]
  rw [List.map_map]
  have : (String.mk ∘ String.data) = id := by
    funext s; rfl
  rw [this, List.map_id]

/-- The per-step invariant of `minimal_selector`'s scanning loop: walking
a single-key chain. -/
def chainOnes : SelTree → List String → Prop
  | _, [] => True
  | t, c :: rest =>
      t.pyLen = 1 ∧ ∃ child, dget t.children c = some child ∧
        chainOnes child rest

theorem minimalLoop_chain (rcs : List String) (t : SelTree) (i : Nat)
    (start : Option Int) (t' : SelTree) (s' : Option Int)
    (h : minimalLoop t rcs i start = .ok (t', s')) :
    walkTree t rcs = some t' ∧
    (∀ v, s' = some v →
      ∃ j, j ≤ rcs.length ∧
        chainOnes ((walkTree t (rcs.take j)).getD SelTree.empty)
          (rcs.drop j) ∧
        (v = -((i + j : Nat) : Int) ∨ (start = some v ∧ j = 0))) := by
  induction rcs generalizing t i start with
  | nil =>
      simp only [minimalLoop] at h
      injection h with h2
      injection h2 with ha hb
      subst ha
      subst hb
      refine ⟨rfl, fun v hv => ⟨0, Nat.le_refl 0, trivial, Or.inr ⟨hv, rfl⟩⟩⟩
  | cons c rest ih =>
      simp only [minimalLoop] at h
      cases hd : dget t.children c with
      | none => rw [hd] at h; cases h
      | some child =>
          rw [hd] at h
          obtain ⟨hwalk, hstart⟩ := ih child (i + 1) _ h
          constructor
          · show (match dget t.children c with
              | none => none
              | some child => walkTree child rest) = some t'
            rw [hd]
            exact hwalk
          · intro v hv
            obtain ⟨j', hj'le, hch, hdis⟩ := hstart v hv
            rcases hdis with hval | ⟨hprop, hj0⟩
            · refine ⟨j' + 1, Nat.succ_le_succ hj'le, ?_, Or.inl ?_⟩
              · show chainOnes ((match dget t.children c with
                  | none => none
                  | some child => walkTree child (rest.take j')).getD
                    SelTree.empty) (rest.drop j')
                rw [hd]
                exact hch
              · rw [hval]
                congr 1
                omega
            · subst hj0
              by_cases hlen : t.pyLen = 1
              · rw [if_pos hlen] at hprop
                by_cases hsn : start = none
                · rw [if_pos hsn] at hprop
                  injection hprop with hveq
                  refine ⟨0, Nat.zero_le _, ?_, Or.inl ?_⟩
                  · show chainOnes t (c :: rest)
                    refine ⟨hlen, child, hd, ?_⟩
                    simpa [walkTree] using hch
                  · exact hveq.symm
                · rw [if_neg hsn] at hprop
                  refine ⟨0, Nat.zero_le _, ?_, Or.inr ⟨hprop, rfl⟩⟩
                  show chainOnes t (c :: rest)
                  refine ⟨hlen, child, hd, ?_⟩
                  simpa [walkTree] using hch
              · rw [if_neg hlen] at hprop
                cases hprop

end Gin

namespace Gin

theorem collect_of_chain (path : List String) (t t' : SelTree) (sel : String)
    (hch : chainOnes t path) (hw : walkTree t path = some t')
    (hterm : t'.termVal = some sel) (hone : t'.pyLen ≤ 1) :
    collectTree t = [sel] := by
  induction path generalizing t with
  | nil =>
      simp only [walkTree] at hw
      injection hw with hw
      subst hw
      obtain ⟨tv, cs⟩ := t
      simp only [SelTree.termVal] at hterm
      subst hterm
      have hcs : cs = [] := by
        simp only [SelTree.pyLen, SelTree.children, SelTree.termVal,
          Option.isSome_some, if_pos] at hone
        cases cs with
        | nil => rfl
        | cons a l => simp at hone
      subst hcs
      rfl
  | cons c rest ih =>
      obtain ⟨hlen, child, hd, hch'⟩ := hch
      obtain ⟨tv, cs⟩ := t
      simp only [SelTree.children] at hd
      simp only [walkTree, SelTree.children, hd] at hw
      have hne : cs ≠ [] := by
        intro hnil
        rw [hnil] at hd
        cases hd
      have htv : tv = none := by
        cases htv : tv with
        | none => rfl
        | some x =>
            simp only [SelTree.pyLen, SelTree.children, SelTree.termVal,
              htv, Option.isSome_some, if_pos] at hlen
            have : cs.length = 0 := by omega
            exact absurd (List.length_eq_zero.mp this) hne
      subst htv
      have hlen1 : cs.length = 1 := by
        simp only [SelTree.pyLen, SelTree.children, SelTree.termVal,
          Option.isSome_none, Bool.false_eq_true, if_false] at hlen
        omega
      obtain ⟨a, ha⟩ := List.length_eq_one.mp hlen1
      subst ha
      have hca : c = a.1 ∧ a.2 = child := by
        simp only [dget] at hd
        by_cases hc : c = a.1
        · rw [if_pos hc] at hd
          injection hd with hd
          exact ⟨hc, hd⟩
        · rw [if_neg hc] at hd
          cases hd
      show Option.toList none ++ collectChildren [a] = [sel]
      simp only [Option.toList, List.nil_append, collectChildren]
      rw [hca.2, List.append_nil]
      exact ih child hch' hw

theorem pySliceFrom_neg_zero (l : List String) :
    pySliceFrom l (some (-((0 : Nat) : Int))) = l := rfl

theorem pySliceFrom_neg (l : List String) (j : Nat) (hj : 1 ≤ j) :
    pySliceFrom l (some (-(((j : Nat)) : Int))) = l.drop (l.length - j) := by
  cases j with
  | zero => cases hj
  | succ k =>
      have : (-(((k + 1 : Nat)) : Int)) = Int.negSucc k := rfl
      rw [this]
      rfl

end Gin

namespace Gin

/-- In a built registry, the minimal selector that `minimal_selector`
returns for a stored selector matches that selector uniquely. -/
theorem minimalSelector_resolves {α : Type} {m : SelectorMap α}
    (hb : Built m) {sel minSel : String} (hmem : dmem m.map sel = true)
    (hmin : m.minimalSelector sel = .ok minSel) :
    m.matchingSelectors minSel = [sel] := by
  have hexact : m.matchingSelectors sel = [sel] := by
    unfold SelectorMap.matchingSelectors
    rw [if_pos hmem]
  have hterm : terminalAt m.tree (strSplit sel '.').reverse = some sel :=
    (built_terminal hb _ _).mpr ⟨hmem, rfl⟩
  unfold SelectorMap.minimalSelector at hmin
  rw [hmem] at hmin
  simp only [Bool.not_true, Bool.false_eq_true, if_false] at hmin
  cases hloop : minimalLoop m.tree (strSplit sel '.').reverse 0 none with
  | error e => rw [hloop] at hmin; cases hmin
  | ok pr =>
      obtain ⟨t', start⟩ := pr
      rw [hloop] at hmin
      simp only at hmin
      obtain ⟨hwalk, hstart⟩ := minimalLoop_chain _ _ _ _ _ _ hloop
      by_cases hgt : t'.pyLen > 1
      · rw [if_pos hgt] at hmin
        injection hmin with hms
        rw [← hms]
        exact hexact
      rw [if_neg hgt] at hmin
      injection hmin with hms
      have htermT : t'.termVal = some sel := by
        unfold terminalAt at hterm
        rw [hwalk] at hterm
        exact hterm
      have honeT : t'.pyLen ≤ 1 := Nat.le_of_not_lt hgt
      cases hstart0 : start with
      | none =>
          rw [hstart0] at hms
          rw [show pySliceFrom (strSplit sel '.') none = strSplit sel '.'
            from rfl, strJoin_strSplit] at hms
          rw [← hms]
          exact hexact
      | some v =>
          rw [hstart0] at hstart hms
          obtain ⟨j, hjle, hch, hdis⟩ := hstart v rfl
          have hval : v = -((0 + j : Nat) : Int) := by
            rcases hdis with h1 | ⟨hfalse, _⟩
            · exact h1
            · cases hfalse
          rw [Nat.zero_add] at hval
          by_cases hj0 : j = 0
          · subst hj0
            rw [hval, pySliceFrom_neg_zero, strJoin_strSplit] at hms
            rw [← hms]
            exact hexact
          have hj1 : 1 ≤ j := Nat.one_le_iff_ne_zero.mpr hj0
          rw [hval, pySliceFrom_neg _ _ hj1] at hms
          by_cases hjn : j = (strSplit sel '.').reverse.length
          · rw [hjn, List.length_reverse, Nat.sub_self, List.drop_zero,
              strJoin_strSplit] at hms
            rw [← hms]
            exact hexact
          have hjlt : j < (strSplit sel '.').reverse.length :=
            lt_of_le_of_ne hjle hjn
          have hp1 : (strSplit sel '.').reverse.take j =
              ((strSplit sel '.').drop ((strSplit sel '.').length - j)).reverse :=
            List.take_reverse
          have hp3 : (strSplit sel '.').drop
              ((strSplit sel '.').length - j) ≠ [] := by
            intro hnil
            have := congrArg List.length hnil
            rw [List.length_drop] at this
            simp only [List.length_nil] at this
            rw [List.length_reverse] at hjlt
            omega
          have hp4 : ∀ p ∈ (strSplit sel '.').drop
              ((strSplit sel '.').length - j), '.' ∉ p.data := by
            intro p hp
            have hpc : p ∈ strSplit sel '.' :=
              List.mem_of_mem_drop hp
            obtain ⟨q, hq, hqp⟩ := List.mem_map.mp hpc
            rw [← hqp]
            exact mem_splitOnSep_no_sep '.' sel.data q hq
          have hsplitMin : strSplit minSel '.' =
              (strSplit sel '.').drop ((strSplit sel '.').length - j) := by
            rw [← hms]
            exact strSplit_strJoin _ hp3 hp4
          rw [← List.take_append_drop j ((strSplit sel '.').reverse),
            walkTree_append] at hwalk
          cases hN : walkTree m.tree ((strSplit sel '.').reverse.take j) with
          | none =>
              rw [hN] at hwalk
              cases hwalk
          | some N =>
              rw [hN] at hwalk
              simp only [Option.some_bind] at hwalk
              rw [hN, Option.getD_some] at hch
              have hdropne : (strSplit sel '.').reverse.drop j ≠ [] := by
                intro hnil
                have := congrArg List.length hnil
                rw [List.length_drop] at this
                simp only [List.length_nil] at this
                omega
              have hNterm : N.termVal = none := by
                cases hdrop : (strSplit sel '.').reverse.drop j with
                | nil => exact absurd hdrop hdropne
                | cons d ds =>
                    rw [hdrop] at hch
                    obtain ⟨hNlen, child, hdN, _⟩ := hch
                    obtain ⟨tv, cs⟩ := N
                    simp only [SelTree.children] at hdN
                    have hcsne : cs ≠ [] := by
                      intro hnil
                      rw [hnil] at hdN
                      cases hdN
                    cases htv : tv with
                    | none => rfl
                    | some x =>
                        simp only [SelTree.pyLen, SelTree.children,
                          SelTree.termVal, htv, Option.isSome_some,
                          if_pos] at hNlen
                        have : cs.length = 0 := by omega
                        exact absurd (List.length_eq_zero.mp this) hcsne
              cases hdm : dmem m.map minSel with
              | true =>
                  exfalso
                  have hterm2 := (built_terminal hb
                    ((strSplit minSel '.').reverse) minSel).mpr ⟨hdm, rfl⟩
                  rw [hsplitMin, ← hp1] at hterm2
                  unfold terminalAt at hterm2
                  rw [hN] at hterm2
                  simp only [Option.some_bind] at hterm2
                  rw [hNterm] at hterm2
                  cases hterm2
              | false =>
                  unfold SelectorMap.matchingSelectors
                  rw [hdm]
                  simp only [Bool.false_eq_true, if_false]
                  rw [hsplitMin, ← hp1, hN]
                  exact collect_of_chain _ _ _ _ hch hwalk htermT honeT

end Gin

namespace Gin

/-! ## C3: statement-level reconstruction lemmas -/

theorem parse_of_representable {v : GinVal}
    (h : isLiterallyRepresentable v = true) :
    parseValue (reprStr v) = .ok v := by
  unfold isLiterallyRepresentable formatValue at h
  cases hp : parseValue (reprStr v) with
  | error e => rw [hp] at h; simp at h
  | ok w =>
      rw [hp] at h
      simp only at h
      by_cases hw : w = v
      · rw [hw]
      · rw [if_neg hw] at h
        simp at h

theorem dget2_storeSetParam (cfg : Store GinVal) (k : String × String)
    (a : String) (v : GinVal) (key : String × String) (arg : String) :
    dget2 (storeSetParam cfg k a v) key arg =
      if key = k ∧ arg = a then some v else dget2 cfg key arg := by
  unfold dget2 storeSetParam
  rw [dget_dset]
  by_cases hk : key = k
  · rw [if_pos hk, Option.getD_some, dget_dset]
    by_cases ha : arg = a
    · rw [if_pos ha, if_pos ⟨hk, ha⟩]
    · rw [if_neg ha, if_neg (fun hh => ha hh.2), hk]
  · rw [if_neg hk, if_neg (fun hh => hk hh.1)]

theorem dget2_foldl_setParam
    (items : PyDict ((String × String) × String) GinVal)
    (cfg0 : Store GinVal) (key : String × String) (arg : String) :
    dget2 (items.foldl
      (fun c it => storeSetParam c it.1.1 it.1.2 it.2) cfg0) key arg =
      (dgetLast items (key, arg)).or (dget2 cfg0 key arg) := by
  induction items generalizing cfg0 with
  | nil => simp [dgetLast, dget]
  | cons it rest ih =>
      show dget2 (rest.foldl _ (storeSetParam cfg0 it.1.1 it.1.2 it.2))
        key arg = _
      rw [ih, dget2_storeSetParam]
      have hsplit : dgetLast (it :: rest) (key, arg) =
          (dgetLast rest (key, arg)).or (dget [it] (key, arg)) := by
        simp only [dgetLast, List.reverse_cons]
        exact dget_append _ _ _
      rw [hsplit]
      cases hl : dgetLast rest (key, arg) with
      | some w => rfl
      | none =>
          show (if key = it.1.1 ∧ arg = it.1.2 then some it.2
            else dget2 cfg0 key arg) = (dget [it] (key, arg)).or _
          by_cases h : (key, arg) = it.1
          · have h1 : key = it.1.1 := congrArg Prod.fst h
            have h2 : arg = it.1.2 := congrArg Prod.snd h
            rw [if_pos ⟨h1, h2⟩]
            show _ = (if (key, arg) = it.1 then some it.2 else none).or _
            rw [if_pos h]
            rfl
          · have hne : ¬(key = it.1.1 ∧ arg = it.1.2) := by
              intro ⟨h1, h2⟩
              exact h (Prod.ext h1 h2)
            rw [if_neg hne]
            show _ = (if (key, arg) = it.1 then some it.2 else none).or _
            rw [if_neg h]
            rfl

theorem parseConfigStatements_config (reg : SelectorMap Configurable)
    (stmts : List (String × String)) (st : GinState)
    (hlock : st.configIsLocked = false)
    (hAll : ∀ stmt ∈ stmts,
      (∃ pbk, parsedBindingKeyParse reg stmt.1 = .ok pbk) ∧
      (∃ v, parseValue stmt.2 = .ok v)) :
    ∃ st', parseConfigStatements reg st stmts = .ok st' ∧
      st'.configIsLocked = false ∧
      st'.config = (stmts.map
          (fun stmt => (stmtTriple reg stmt, stmtValue stmt))).foldl
        (fun c it => storeSetParam c it.1.1 it.1.2 it.2) st.config := by
  induction stmts generalizing st with
  | nil => exact ⟨st, rfl, hlock, rfl⟩
  | cons stmt rest ih =>
      obtain ⟨⟨pbk, hpbk⟩, ⟨v, hv⟩⟩ := hAll stmt (List.mem_cons_self _ _)
      have hbp : bindParameter reg st stmt.1 v =
          .ok { st with
            config := storeSetParam st.config
              (pbk.scope, pbk.completeSelector) pbk.argName v } := by
        unfold bindParameter
        rw [if_neg (by rw [hlock]; exact Bool.false_ne_true), hpbk]
      obtain ⟨st2, hps, hlk, hcfg⟩ := ih
        { st with
          config := storeSetParam st.config
            (pbk.scope, pbk.completeSelector) pbk.argName v }
        hlock (fun s hs => hAll s (List.mem_cons_of_mem _ hs))
      refine ⟨st2, ?_, hlk, ?_⟩
      · unfold parseConfigStatements at hps ⊢
        rw [List.foldlM_cons, hv]
        simp only
        rw [hbp]
        exact hps
      · rw [hcfg, List.map_cons, List.foldl_cons]
        congr 1
        simp only [stmtTriple, stmtValue, hpbk, hv]

end Gin

namespace Gin

theorem rsplitOnce_none (sep : Char) (s : String) (h : sep ∉ s.data) :
    rsplitOnce sep s = none := by
  simp only [rsplitOnce]
  have hd : s.data.reverse.dropWhile (fun c => c != sep) = [] := by
    refine List.dropWhile_eq_nil_iff.mpr (fun c hc => ?_)
    have hcm : c ∈ s.data := List.mem_reverse.mp hc
    simp only [bne_iff_ne, ne_eq, decide_not]
    intro hcs
    exact h (hcs ▸ hcm)
  rw [hd]

theorem rsplitOnce_concat (sep : Char) (a b : String) (hb : sep ∉ b.data) :
    rsplitOnce sep (String.mk (a.data ++ sep :: b.data)) = some (a, b) := by
  simp only [rsplitOnce]
  have hbrev : ∀ c ∈ b.data.reverse, (c != sep) = true := by
    intro c hc
    simp only [bne_iff_ne, ne_eq]
    intro hcs
    exact hb (hcs ▸ List.mem_reverse.mp hc)
  have hrev : (String.mk (a.data ++ sep :: b.data)).data.reverse =
      b.data.reverse ++ sep :: a.data.reverse := by
    show (a.data ++ sep :: b.data).reverse = _
    rw [List.reverse_append, List.reverse_cons]
    simp
  rw [hrev, List.dropWhile_append_of_pos hbrev,
    List.takeWhile_append_of_pos hbrev]
  have hss : (sep != sep) = false := bne_self_eq_false sep
  rw [List.dropWhile_cons, List.takeWhile_cons, hss]
  simp

end Gin

namespace Gin

theorem parseBindingKey_render (scope ms arg : String)
    (hms : '/' ∉ ms.data) (hargd : '.' ∉ arg.data)
    (hargs : '/' ∉ arg.data) :
    parseBindingKey ((if scope = "" then "" else scope ++ "/") ++ ms ++ "."
      ++ arg) = (scope, ms, arg) := by
  have hmem : '/' ∉ ms.data ++ '.' :: arg.data := by
    simp only [List.mem_append, List.mem_cons, not_or]
    exact ⟨hms, by decide, hargs⟩
  by_cases hsc : scope = ""
  · rw [if_pos hsc]
    have hkEq : ("" ++ ms ++ "." ++ arg) =
        String.mk (ms.data ++ '.' :: arg.data) := by
      apply String.ext
      show (((("" : String) ++ ms) ++ ".") ++ arg).data =
        ms.data ++ '.' :: arg.data
      show ((([] ++ ms.data) ++ ['.']) ++ arg.data) =
        ms.data ++ '.' :: arg.data
      simp
    rw [hkEq]
    simp only [parseBindingKey, parseScopedSelector,
      rsplitOnce_none '/' _ hmem, rsplitOnce_concat '.' ms arg hargd]
    rw [hsc]
  · rw [if_neg hsc]
    have hkEq : ((scope ++ "/") ++ ms ++ "." ++ arg) =
        String.mk (scope.data ++ '/' ::
          (String.mk (ms.data ++ '.' :: arg.data)).data) := by
      apply String.ext
      show ((((scope ++ "/") ++ ms) ++ ".") ++ arg).data = _
      show (((scope.data ++ ['/']) ++ ms.data) ++ ['.']) ++ arg.data =
        scope.data ++ '/' :: (ms.data ++ '.' :: arg.data)
      simp
    rw [hkEq]
    simp only [parseBindingKey, parseScopedSelector,
      rsplitOnce_concat '/' scope (String.mk (ms.data ++ '.' :: arg.data))
        hmem,
      rsplitOnce_concat '.' ms arg hargd]

end Gin

namespace Gin

theorem built_valid {α : Type} {m : SelectorMap α} (hb : Built m) :
    ∀ k ∈ m.map.map Prod.fst, isValidSelector k = true := by
  induction hb with
  | empty => intro k hk; cases hk
  | insert hb hok ih =>
      rename_i m0 m' sel v
      unfold SelectorMap.setItem at hok
      by_cases hv : isValidSelector sel
      · rw [if_pos hv] at hok
        injection hok with hok
        intro k hk
        rw [← hok] at hk
        simp only [keys_dset] at hk
        by_cases hs : (dget m0.map sel).isSome
        · rw [if_pos hs] at hk
          exact ih k hk
        · rw [if_neg hs] at hk
          rcases List.mem_append.mp hk with h1 | h2
          · exact ih k h1
          · rw [List.mem_singleton.mp h2]
            exact hv
      · rw [if_neg hv] at hok
        cases hok

theorem identifier_chars (s : String) (h : isIdentifier s = true) (c : Char)
    (hc : c ∈ s.data) : isWordChar c = true := by
  unfold isIdentifier at h
  cases hs : s.data with
  | nil => rw [hs] at hc; cases hc
  | cons c0 rest =>
      rw [hs] at h hc
      rw [Bool.and_eq_true] at h
      rcases List.mem_cons.mp hc with h1 | h2
      · subst h1
        have hor := h.1
        simp only [Bool.or_eq_true] at hor
        rcases hor with ha | hu
        · simp [isWordChar, Char.isAlphanum, ha]
        · simp only [decide_eq_true_eq] at hu
          simp [isWordChar, hu]
      · exact List.all_eq_true.mp h.2 c h2

theorem mem_joinWithSep (sep : Char) (parts : List (List Char)) (c : Char)
    (h : c ∈ joinWithSep sep parts) : c = sep ∨ ∃ p ∈ parts, c ∈ p := by
  induction parts with
  | nil => cases h
  | cons p rest ih =>
      cases rest with
      | nil =>
          exact Or.inr ⟨p, List.mem_cons_self p [], h⟩
      | cons p2 t =>
          rcases List.mem_append.mp h with h1 | h2
          · exact Or.inr ⟨p, List.mem_cons_self p _, h1⟩
          · rcases List.mem_cons.mp h2 with h3 | h4
            · exact Or.inl h3
            · rcases ih h4 with h5 | ⟨q, hq, hcq⟩
              · exact Or.inl h5
              · exact Or.inr ⟨q, List.mem_cons_of_mem p hq, hcq⟩

theorem mem_of_mem_splitOnSep (sep : Char) (cs p : List Char) (c : Char)
    (hp : p ∈ splitOnSep sep cs) (hc : c ∈ p) : c ∈ cs := by
  induction cs generalizing p with
  | nil =>
      simp only [splitOnSep, List.mem_singleton] at hp
      subst hp
      cases hc
  | cons c0 rest ih =>
      simp only [splitOnSep] at hp
      cases hs : splitOnSep sep rest with
      | nil => exact absurd hs (splitOnSep_ne_nil sep rest)
      | cons h t =>
          simp only [hs] at hp
          by_cases hceq : c0 = sep
          · rw [if_pos hceq] at hp
            rcases List.mem_cons.mp hp with h1 | h2
            · subst h1; cases hc
            · exact List.mem_cons_of_mem c0 (ih p (hs ▸ h2) hc)
          · rw [if_neg hceq] at hp
            rcases List.mem_cons.mp hp with h1 | h2
            · subst h1
              rcases List.mem_cons.mp hc with h3 | h4
              · exact h3 ▸ List.mem_cons_self c0 rest
              · exact List.mem_cons_of_mem c0
                  (ih h (hs ▸ List.mem_cons_self h t) h4)
            · exact List.mem_cons_of_mem c0 (ih p (hs ▸ List.mem_cons_of_mem h h2) hc)

theorem valid_selector_word_chars (s : String)
    (h : isValidSelector s = true) (c : Char) (hc : c ∈ s.data) :
    c = '.' ∨ isWordChar c = true := by
  have hjoin : joinWithSep '.' (splitOnSep '.' s.data) = s.data :=
    joinWithSep_splitOnSep '.' s.data
  rw [← hjoin] at hc
  rcases mem_joinWithSep '.' _ c hc with h1 | ⟨p, hp, hcp⟩
  · exact Or.inl h1
  · refine Or.inr ?_
    unfold isValidSelector at h
    have hpid : isIdentifier (String.mk p) = true := by
      refine List.all_eq_true.mp h (String.mk p) ?_
      exact List.mem_map_of_mem String.mk hp
    exact identifier_chars (String.mk p) hpid c hcp

theorem valid_selector_no_slash (s : String)
    (h : isValidSelector s = true) : '/' ∉ s.data := by
  intro hc
  rcases valid_selector_word_chars s h '/' hc with h1 | h2
  · cases h1
  · cases h2

theorem strJoin_drop_chars (sel : String) (k : Nat) (c : Char)
    (hc : c ∈ (strJoin '.' ((strSplit sel '.').drop k)).data) :
    c = '.' ∨ c ∈ sel.data := by
  unfold strJoin at hc
  rcases mem_joinWithSep '.' _ c hc with h1 | ⟨p, hp, hcp⟩
  · exact Or.inl h1
  · refine Or.inr ?_
    have hp2 : p ∈ ((strSplit sel '.').drop k).map String.data := hp
    obtain ⟨q, hq, hqp⟩ := List.mem_map.mp hp2
    have hq2 : q ∈ strSplit sel '.' := List.mem_of_mem_drop hq
    obtain ⟨r, hr, hrq⟩ := List.mem_map.mp hq2
    have : p = r := by rw [← hqp, ← hrq]
    exact mem_of_mem_splitOnSep '.' sel.data r c (this ▸ hr) (this ▸ hcp)

theorem minimalSelector_shape {α : Type} (m : SelectorMap α)
    (sel ms : String) (hmin : m.minimalSelector sel = .ok ms) :
    ms = sel ∨ ∃ k, ms = strJoin '.' ((strSplit sel '.').drop k) := by
  unfold SelectorMap.minimalSelector at hmin
  by_cases hm : (!(dmem m.map sel)) = true
  · rw [if_pos hm] at hmin; cases hmin
  · rw [if_neg hm] at hmin
    cases hloop : minimalLoop m.tree (strSplit sel '.').reverse 0 none with
    | error e => rw [hloop] at hmin; cases hmin
    | ok pr =>
        obtain ⟨t, start⟩ := pr
        rw [hloop] at hmin
        simp only at hmin
        by_cases hgt : t.pyLen > 1
        · rw [if_pos hgt] at hmin
          injection hmin with h
          exact Or.inl h.symm
        · rw [if_neg hgt] at hmin
          injection hmin with h
          cases start with
          | none => exact Or.inr ⟨0, by rw [← h]; rfl⟩
          | some v =>
              cases v with
              | ofNat n => exact Or.inr ⟨n, by rw [← h]; rfl⟩
              | negSucc k =>
                  exact Or.inr ⟨(strSplit sel '.').length - (k + 1),
                    by rw [← h]; rfl⟩

theorem minimalSelector_no_slash {α : Type} (m : SelectorMap α)
    (sel ms : String) (hsel : '/' ∉ sel.data)
    (hmin : m.minimalSelector sel = .ok ms) : '/' ∉ ms.data := by
  rcases minimalSelector_shape m sel ms hmin with h1 | ⟨k, h2⟩
  · rw [h1]; exact hsel
  · rw [h2]
    intro hc
    rcases strJoin_drop_chars sel k '/' hc with h3 | h4
    · cases h3
    · exact hsel h4

theorem minimalLoop_ok_of_walk (rcs : List String) (t : SelTree) (i : Nat)
    (start : Option Int) (h : (walkTree t rcs).isSome) :
    ∃ t' s', minimalLoop t rcs i start = .ok (t', s') := by
  induction rcs generalizing t i start with
  | nil => exact ⟨t, start, rfl⟩
  | cons c rest ih =>
      simp only [walkTree] at h
      cases hd : dget t.children c with
      | none => rw [hd] at h; cases h
      | some child =>
          rw [hd] at h
          obtain ⟨t', s', hok⟩ := ih child (i + 1)
            (if t.pyLen = 1 then (if start = none then some (-(i : Int))
              else start) else none) h
          refine ⟨t', s', ?_⟩
          simp only [minimalLoop, hd]
          exact hok

end Gin

namespace Gin

/-! ## C3: assembling the rendered statement list -/

/-- The minimal selector a rendered block uses for a stored selector key
(helper for stating the reconstruction lemmas). -/
def blockMinSel (reg : SelectorMap Configurable) (selKey : String) :
    String :=
  match dget reg.map selKey with
  | some c =>
      match importMinimalSelector reg c with
      | .ok ms => ms
      | .error _ => ""
  | none => ""

theorem mem_sortStore (reg : SelectorMap Configurable) (cfg : Store GinVal)
    (kv : (String × String) × PyDict String GinVal) :
    kv ∈ sortStore reg cfg ↔ kv ∈ cfg := by
  unfold sortStore
  exact (List.perm_insertionSort _ cfg).mem_iff

theorem sortStore_perm (reg : SelectorMap Configurable)
    (cfg : Store GinVal) : List.Perm (sortStore reg cfg) cfg := by
  unfold sortStore
  exact List.perm_insertionSort _ cfg

theorem configStr_foldlM (reg : SelectorMap Configurable)
    (l : Store GinVal) (acc : List (String × String))
    (hres : ∀ kv ∈ l, ∃ c, dget reg.map kv.1.2 = some c ∧
      ∃ ms, importMinimalSelector reg c = .ok ms) :
    l.foldlM (configStrStep reg) acc =
      .ok (acc ++ l.flatMap (fun item =>
        renderBlock item.1.1 (blockMinSel reg item.1.2) item.2)) := by
  induction l generalizing acc with
  | nil =>
      show (pure acc : Except String (List (String × String))) = _
      rw [List.flatMap_nil, List.append_nil]
      rfl
  | cons item rest ih =>
      obtain ⟨c, hc, ms, hms⟩ := hres item (List.mem_cons_self _ _)
      have hbms : blockMinSel reg item.1.2 = ms := by
        unfold blockMinSel
        simp only [hc, hms]
      have hstep : configStrStep reg acc item =
          .ok (acc ++ renderBlock item.1.1 ms item.2) := by
        unfold configStrStep
        simp only [hc, hms]
      have hrec := ih (acc ++ renderBlock item.1.1 ms item.2)
        (fun kv hkv => hres kv (List.mem_cons_of_mem _ hkv))
      rw [List.foldlM_cons, hstep]
      exact hrec.trans (by
        simp only [List.flatMap_cons]
        rw [hbms, List.append_assoc])

theorem configStrStatements_eq (reg : SelectorMap Configurable)
    (cfg : Store GinVal)
    (hres : ∀ kv ∈ cfg, ∃ c, dget reg.map kv.1.2 = some c ∧
      ∃ ms, importMinimalSelector reg c = .ok ms) :
    configStrStatements reg cfg =
      .ok ((sortStore reg cfg).flatMap (fun item =>
        renderBlock item.1.1 (blockMinSel reg item.1.2) item.2)) := by
  unfold configStrStatements
  rw [configStr_foldlM reg (sortStore reg cfg) []
    (fun kv hkv => hres kv ((mem_sortStore reg cfg kv).mp hkv))]
  rw [List.nil_append]

end Gin

namespace Gin

/-- For a configurable stored under `sel` (non-method, no allow/deny
lists, selector field matching its key), `minimal_selector` and the
import-level minimal selector both succeed with `blockMinSel`. -/
theorem importMinimalSelector_ok (reg : SelectorMap Configurable)
    (hb : Built reg) (sel : String) (c : Configurable)
    (hc : dget reg.map sel = some c) (hcsel : c.selector = sel)
    (hcmeth : c.isMethod = false) :
    importMinimalSelector reg c = .ok (blockMinSel reg sel) ∧
      reg.minimalSelector sel = .ok (blockMinSel reg sel) := by
  have hdm : dmem reg.map sel = true := by
    rw [dmem, hc]
    rfl
  have hwalkS : (walkTree reg.tree (strSplit sel '.').reverse).isSome := by
    have ht := (built_terminal hb ((strSplit sel '.').reverse) sel).mpr
      ⟨hdm, rfl⟩
    unfold terminalAt at ht
    cases hw : walkTree reg.tree (strSplit sel '.').reverse with
    | none => rw [hw] at ht; cases ht
    | some t => rfl
  obtain ⟨t', s', hloop⟩ :=
    minimalLoop_ok_of_walk ((strSplit sel '.').reverse) reg.tree 0 none
      hwalkS
  obtain ⟨ms0, hms0⟩ : ∃ ms0, reg.minimalSelector sel = .ok ms0 := by
    unfold SelectorMap.minimalSelector
    rw [hdm]
    simp only [Bool.not_true, Bool.false_eq_true, if_false]
    rw [hloop]
    simp only
    by_cases hgt : t'.pyLen > 1
    · rw [if_pos hgt]
      exact ⟨sel, rfl⟩
    · rw [if_neg hgt]
      exact ⟨_, rfl⟩
  have himp : importMinimalSelector reg c = .ok ms0 := by
    unfold importMinimalSelector
    rw [hcsel]
    simp only [hms0, hcmeth, Bool.false_and, Bool.false_eq_true, if_false]
  have hbms : blockMinSel reg sel = ms0 := by
    unfold blockMinSel
    simp only [hc, himp]
  rw [hbms]
  exact ⟨himp, hms0⟩

/-- The statement a block emits for one literally-representable parameter
parses back to the originating `(scope, selector, argument)` triple and
value. -/
theorem block_kv_facts (reg : SelectorMap Configurable) (hb : Built reg)
    (scope sel : String) (c : Configurable)
    (hc : dget reg.map sel = some c) (hcsel : c.selector = sel)
    (hcmeth : c.isMethod = false) (hallow : c.allowlist = [])
    (hdeny : c.denylist = []) (arg : String) (v : GinVal)
    (hmh : mightHaveParameter c arg = true)
    (hargd : '.' ∉ arg.data) (hargs : '/' ∉ arg.data)
    (hrep : isLiterallyRepresentable v = true) :
    parsedBindingKeyParse reg
        ((if scope = "" then "" else scope ++ "/") ++ blockMinSel reg sel
          ++ "." ++ arg) =
      .ok ⟨scope, blockMinSel reg sel, sel, arg⟩ ∧
      parseValue (pformatModel v) = .ok v := by
  obtain ⟨himp, hms0⟩ := importMinimalSelector_ok reg hb sel c hc hcsel
    hcmeth
  have hdm : dmem reg.map sel = true := by
    rw [dmem, hc]
    rfl
  have hmatch : reg.matchingSelectors (blockMinSel reg sel) = [sel] :=
    minimalSelector_resolves hb hdm hms0
  have hselval : isValidSelector sel = true :=
    built_valid hb sel (List.mem_map_of_mem Prod.fst
      (mem_of_dget_eq_some hc))
  have hselns : '/' ∉ sel.data := valid_selector_no_slash sel hselval
  have hmsns : '/' ∉ (blockMinSel reg sel).data :=
    minimalSelector_no_slash reg sel (blockMinSel reg sel) hselns hms0
  have hgm : reg.getMatchD (blockMinSel reg sel) = .ok (some c) := by
    unfold SelectorMap.getMatchD
    rw [hmatch]
    simp [hc]
  refine ⟨?_, parse_of_representable hrep⟩
  simp only [parsedBindingKeyParse]
  rw [parseBindingKey_render scope (blockMinSel reg sel) arg hmsns hargd
    hargs]
  simp only [hgm]
  simp [hcmeth, hmh, hallow, hdeny, hcsel]

end Gin

namespace Gin

/-- Mapping the statements of one rendered block back through parsing
yields exactly the literally-representable parameters of the block, keyed
by the block's scope and complete selector. -/
theorem block_items_eq (reg : SelectorMap Configurable) (hb : Built reg)
    (scope sel : String) (c : Configurable)
    (params : PyDict String GinVal)
    (hc : dget reg.map sel = some c) (hcsel : c.selector = sel)
    (hcmeth : c.isMethod = false) (hallow : c.allowlist = [])
    (hdeny : c.denylist = [])
    (hparams : ∀ pv ∈ params, mightHaveParameter c pv.1 = true ∧
      '.' ∉ pv.1.data ∧ '/' ∉ pv.1.data) :
    (renderBlock scope (blockMinSel reg sel) params).map
        (fun stmt => (stmtTriple reg stmt, stmtValue stmt)) =
      (params.filter (fun kv => isLiterallyRepresentable kv.2)).map
        (fun kv => (((scope, sel), kv.1), kv.2)) := by
  simp only [renderBlock]
  rw [List.map_map]
  apply List.map_eq_map_iff.mpr
  intro kv hkv
  obtain ⟨hmh, hd, hs⟩ := hparams kv (List.mem_of_mem_filter hkv)
  have hrep0 := List.of_mem_filter hkv
  have hrep : isLiterallyRepresentable kv.2 = true := hrep0
  obtain ⟨hparse, hval⟩ := block_kv_facts reg hb scope sel c hc hcsel
    hcmeth hallow hdeny kv.1 kv.2 hmh hd hs hrep
  have h1 : stmtTriple reg ((if scope = "" then "" else scope ++ "/") ++
      blockMinSel reg sel ++ "." ++ kv.1, pformatModel kv.2) =
      ((scope, sel), kv.1) := by
    unfold stmtTriple
    simp only [hparse]
  have h2 : stmtValue ((if scope = "" then "" else scope ++ "/") ++
      blockMinSel reg sel ++ "." ++ kv.1, pformatModel kv.2) = kv.2 := by
    unfold stmtValue
    simp only [hval]
  show (stmtTriple reg ((if scope = "" then "" else scope ++ "/") ++
      blockMinSel reg sel ++ "." ++ kv.1, pformatModel kv.2),
    stmtValue ((if scope = "" then "" else scope ++ "/") ++
      blockMinSel reg sel ++ "." ++ kv.1, pformatModel kv.2)) =
    (((scope, sel), kv.1), kv.2)
  rw [h1, h2]

/-- The reconstructed binding items carry pairwise-distinct
`((scope, selector), argument)` keys. -/
theorem items_keys_nodup (reg : SelectorMap Configurable)
    (cfg : Store GinVal)
    (hnod1 : (cfg.map Prod.fst).Nodup)
    (hnod2 : ∀ kv ∈ cfg, (kv.2.map Prod.fst).Nodup) :
    (((sortStore reg cfg).flatMap (fun item =>
        (item.2.filter (fun kv => isLiterallyRepresentable kv.2)).map
          (fun kv => (((item.1.1, item.1.2), kv.1), kv.2)))).map
      Prod.fst).Nodup := by
  rw [List.map_flatMap]
  simp only [List.map_map]
  apply List.nodup_flatMap.mpr
  constructor
  · intro item hitemm
    have hpk : (item.2.map Prod.fst).Nodup :=
      hnod2 item ((mem_sortStore reg cfg item).mp hitemm)
    have hfk : ((item.2.filter
        (fun kv => isLiterallyRepresentable kv.2)).map Prod.fst).Nodup :=
      (List.Sublist.map Prod.fst (List.filter_sublist item.2)).nodup hpk
    have hfn : (item.2.filter
        (fun kv => isLiterallyRepresentable kv.2)).Nodup :=
      List.Nodup.of_map Prod.fst hfk
    apply (List.nodup_map_iff_inj_on hfn).mpr
    intro x hx y hy hxy
    have hx1 : x.1 = y.1 := by
      have := congrArg Prod.snd hxy
      exact this
    exact (List.nodup_map_iff_inj_on hfn).mp hfk x hx y hy hx1
  · have hsortnod : ((sortStore reg cfg).map Prod.fst).Nodup :=
      ((sortStore_perm reg cfg).map Prod.fst).nodup_iff.mpr hnod1
    have hpw : List.Pairwise (fun a b => a.1 ≠ b.1) (sortStore reg cfg) :=
      List.pairwise_map.mp hsortnod
    apply List.Pairwise.imp ?_ hpw
    intro a b hne x hxa hxb
    obtain ⟨kva, _, hxaeq⟩ := List.mem_map.mp hxa
    obtain ⟨kvb, _, hxbeq⟩ := List.mem_map.mp hxb
    apply hne
    have hx : (((a.1.1, a.1.2), kva.1) : (String × String) × String) =
        ((b.1.1, b.1.2), kvb.1) := hxaeq.trans hxbeq.symm
    have hx1 := congrArg Prod.fst hx
    exact hx1

end Gin

namespace Gin

/-- The binding items reconstructed from the rendered statements, in
block order (helper for stating the round-trip claim). -/
def storeItems (reg : SelectorMap Configurable) (cfg : Store GinVal) :
    PyDict ((String × String) × String) GinVal :=
  (sortStore reg cfg).flatMap (fun item =>
    (item.2.filter (fun kv => isLiterallyRepresentable kv.2)).map
      (fun kv => (((item.1.1, item.1.2), kv.1), kv.2)))

theorem storeItems_keys_nodup (reg : SelectorMap Configurable)
    (cfg : Store GinVal)
    (hnod1 : (cfg.map Prod.fst).Nodup)
    (hnod2 : ∀ kv ∈ cfg, (kv.2.map Prod.fst).Nodup) :
    ((storeItems reg cfg).map Prod.fst).Nodup := by
  unfold storeItems
  exact items_keys_nodup reg cfg hnod1 hnod2

/-- Looking a key up among the reconstructed items returns exactly the
literally-representable value the store holds there. -/
theorem dget_storeItems (reg : SelectorMap Configurable)
    (cfg : Store GinVal)
    (hnod1 : (cfg.map Prod.fst).Nodup)
    (hnod2 : ∀ kv ∈ cfg, (kv.2.map Prod.fst).Nodup)
    (key : String × String) (arg : String) :
    dget (storeItems reg cfg) (key, arg) =
      (dget2 cfg key arg).filter isLiterallyRepresentable := by
  have haux : ∀ w, ((key, arg), w) ∈ storeItems reg cfg →
      dget2 cfg key arg = some w ∧
      isLiterallyRepresentable w = true := by
    intro w hmem
    unfold storeItems at hmem
    obtain ⟨item, hitemm, hinner⟩ := List.exists_of_mem_flatMap hmem
    obtain ⟨kv, hkvf, hkveq⟩ := List.mem_map.mp hinner
    have hicfg := (mem_sortStore reg cfg item).mp hitemm
    have hkey : (item.1.1, item.1.2) = key :=
      congrArg (fun p => p.1.1) hkveq
    have harg : kv.1 = arg := congrArg (fun p => p.1.2) hkveq
    have hweq : kv.2 = w := congrArg Prod.snd hkveq
    have hrep0 := List.of_mem_filter hkvf
    have hrepkv : isLiterallyRepresentable kv.2 = true := hrep0
    have hc1 : dget cfg key = some item.2 := by
      rw [← hkey]
      exact dget_eq_of_mem_nodup hnod1 hicfg
    have hc2 : dget item.2 arg = some kv.2 := by
      rw [← harg]
      exact dget_eq_of_mem_nodup (hnod2 item hicfg)
        (List.mem_of_mem_filter hkvf)
    have hd2 : dget2 cfg key arg = some kv.2 := by
      unfold dget2
      rw [hc1]
      simp only [Option.getD_some]
      exact hc2
    exact ⟨hweq ▸ hd2, hweq ▸ hrepkv⟩
  cases hq : dget2 cfg key arg with
  | none =>
      have hrhs : Option.filter isLiterallyRepresentable
          (none : Option GinVal) = none := rfl
      rw [hrhs]
      apply dget_eq_none_of_not_mem
      intro hmem
      obtain ⟨entry, hent, hfst⟩ := List.mem_map.mp hmem
      have hmem2 : ((key, arg), entry.2) ∈ storeItems reg cfg := by
        rw [← hfst]
        exact hent
      obtain ⟨hd2, _⟩ := haux entry.2 hmem2
      rw [hq] at hd2
      exact Option.noConfusion hd2
  | some v =>
      cases hrepb : isLiterallyRepresentable v with
      | true =>
          have hrhs : Option.filter isLiterallyRepresentable (some v) =
              some v := by
            simp [Option.filter, hrepb]
          rw [hrhs]
          obtain ⟨params, hck, hpa⟩ : ∃ params,
              dget cfg key = some params ∧ dget params arg = some v := by
            unfold dget2 at hq
            cases hck : dget cfg key with
            | none =>
                rw [hck] at hq
                simp only [Option.getD_none] at hq
                simp [dget] at hq
            | some ps =>
                rw [hck] at hq
                simp only [Option.getD_some] at hq
                exact ⟨ps, rfl, hq⟩
          have hicfg : (key, params) ∈ cfg := mem_of_dget_eq_some hck
          have hpv : (arg, v) ∈ params := mem_of_dget_eq_some hpa
          have hpvf : (arg, v) ∈ params.filter
              (fun kv => isLiterallyRepresentable kv.2) :=
            List.mem_filter.mpr ⟨hpv, hrepb⟩
          have hmem : ((key, arg), v) ∈ storeItems reg cfg := by
            unfold storeItems
            apply List.mem_flatMap.mpr
            exact ⟨(key, params), (mem_sortStore reg cfg _).mpr hicfg,
              List.mem_map.mpr ⟨(arg, v), hpvf, rfl⟩⟩
          exact dget_eq_of_mem_nodup
            (storeItems_keys_nodup reg cfg hnod1 hnod2) hmem
      | false =>
          have hrhs : Option.filter isLiterallyRepresentable (some v) =
              none := by
            simp [Option.filter, hrepb]
          rw [hrhs]
          apply dget_eq_none_of_not_mem
          intro hmem
          obtain ⟨entry, hent, hfst⟩ := List.mem_map.mp hmem
          have hmem2 : ((key, arg), entry.2) ∈ storeItems reg cfg := by
            rw [← hfst]
            exact hent
          obtain ⟨hd2, hrepw⟩ := haux entry.2 hmem2
          rw [hq] at hd2
          injection hd2 with hd2
          rw [← hd2] at hrepw
          simp [hrepb] at hrepw

end Gin

namespace Gin

/-- C3: `_format_value` emits a string for a value exactly when re-parsing
the pretty-printed representation reproduces an equal value (and the
emitted string is that representation, so non-round-tripping values are
omitted); and for a well-formed registry and binding store —
selector-keyed non-method configurables without allow/deny lists, unique
keys, every stored selector registered and every stored parameter
admissible and free of `.`/`/` — parsing the binding statements rendered
by `_config_str` rebuilds a config whose lookup at every
`((scope, selector), parameter)` key equals the literally-representable
subset of the original store. -/
theorem claim_C3_render_parse_roundtrip :
    (∀ (v : GinVal) (s : String), formatValue v = some s ↔
      (s = pformatModel v ∧ parseValue s = .ok v)) ∧
    (∀ (reg : SelectorMap Configurable) (cfg : Store GinVal)
      (stmts : List (String × String)),
      Built reg →
      (∀ kv ∈ reg.map, kv.2.selector = kv.1 ∧ kv.2.isMethod = false ∧
        kv.2.allowlist = [] ∧ kv.2.denylist = []) →
      (cfg.map Prod.fst).Nodup →
      (∀ kv ∈ cfg, (kv.2.map Prod.fst).Nodup) →
      (∀ kv ∈ cfg, (dget reg.map kv.1.2).isSome ∧
        ∀ pv ∈ kv.2,
          ((dget reg.map kv.1.2).map
            (fun c => mightHaveParameter c pv.1)).getD false = true ∧
          '.' ∉ pv.1.data ∧ '/' ∉ pv.1.data) →
      configStrStatements reg cfg = .ok stmts →
      ∃ st', parseConfigStatements reg
          ⟨false, [], [], SelectorMap.empty, [], []⟩ stmts = .ok st' ∧
        ∀ key arg, dget2 st'.config key arg =
          (dget2 cfg key arg).filter isLiterallyRepresentable) := by
  constructor
  · intro v s
    constructor
    · intro h
      unfold formatValue at h
      cases hp : parseValue (reprStr v) with
      | error e =>
          rw [hp] at h
          simp at h
      | ok w =>
          rw [hp] at h
          simp only at h
          by_cases hw : w = v
          · rw [if_pos hw] at h
            injection h with h
            constructor
            · rw [← h]
              rfl
            · rw [← h, hp, hw]
          · rw [if_neg hw] at h
            cases h
    · rintro ⟨hs, hpv⟩
      subst hs
      unfold pformatModel at hpv ⊢
      unfold formatValue
      rw [hpv]
      simp
  · intro reg cfg stmts hb hreg hnod1 hnod2 hsel hstmts
    have hitem : ∀ kv ∈ cfg, ∃ c, dget reg.map kv.1.2 = some c ∧
        c.selector = kv.1.2 ∧ c.isMethod = false ∧ c.allowlist = [] ∧
        c.denylist = [] ∧
        ∀ pv ∈ kv.2, mightHaveParameter c pv.1 = true ∧
          '.' ∉ pv.1.data ∧ '/' ∉ pv.1.data := by
      intro kv hkv
      obtain ⟨hsome, hpv⟩ := hsel kv hkv
      cases hcq : dget reg.map kv.1.2 with
      | none =>
          rw [hcq] at hsome
          simp at hsome
      | some c =>
          have hmm := mem_of_dget_eq_some hcq
          have hcfacts := hreg (kv.1.2, c) hmm
          refine ⟨c, rfl, hcfacts.1, hcfacts.2.1, hcfacts.2.2.1,
            hcfacts.2.2.2, ?_⟩
          intro pv hpvm
          obtain ⟨h1, h2, h3⟩ := hpv pv hpvm
          rw [hcq] at h1
          simp only [Option.map_some', Option.getD_some] at h1
          exact ⟨h1, h2, h3⟩
    have hres : ∀ kv ∈ cfg, ∃ c, dget reg.map kv.1.2 = some c ∧
        ∃ ms, importMinimalSelector reg c = .ok ms := by
      intro kv hkv
      obtain ⟨c, hc, h1, h2, _, _, _⟩ := hitem kv hkv
      exact ⟨c, hc, blockMinSel reg kv.1.2,
        (importMinimalSelector_ok reg hb kv.1.2 c hc h1 h2).1⟩
    have hseq := configStrStatements_eq reg cfg hres
    rw [hstmts] at hseq
    injection hseq with hseq
    subst hseq
    have hAll : ∀ stmt ∈ (sortStore reg cfg).flatMap (fun item =>
        renderBlock item.1.1 (blockMinSel reg item.1.2) item.2),
        (∃ pbk, parsedBindingKeyParse reg stmt.1 = .ok pbk) ∧
        (∃ v, parseValue stmt.2 = .ok v) := by
      intro stmt hstmt
      obtain ⟨item, hitemm, hstmtm⟩ := List.exists_of_mem_flatMap hstmt
      obtain ⟨c, hc, h1, h2, h3, h4, h5⟩ :=
        hitem item ((mem_sortStore reg cfg item).mp hitemm)
      simp only [renderBlock] at hstmtm
      obtain ⟨kv, hkvf, hkveq⟩ := List.mem_map.mp hstmtm
      obtain ⟨hmh, hdd, hss⟩ := h5 kv (List.mem_of_mem_filter hkvf)
      have hrep0 := List.of_mem_filter hkvf
      have hrep : isLiterallyRepresentable kv.2 = true := hrep0
      obtain ⟨hparse, hval⟩ := block_kv_facts reg hb item.1.1 item.1.2 c
        hc h1 h2 h3 h4 kv.1 kv.2 hmh hdd hss hrep
      rw [← hkveq]
      exact ⟨⟨_, hparse⟩, ⟨_, hval⟩⟩
    obtain ⟨st', hps, hlk, hcfg'⟩ := parseConfigStatements_config reg
      ((sortStore reg cfg).flatMap (fun item =>
        renderBlock item.1.1 (blockMinSel reg item.1.2) item.2))
      ⟨false, [], [], SelectorMap.empty, [], []⟩ rfl hAll
    refine ⟨st', hps, ?_⟩
    intro key arg
    have hitemsEq : (((sortStore reg cfg).flatMap (fun item =>
        renderBlock item.1.1 (blockMinSel reg item.1.2) item.2)).map
          (fun stmt => (stmtTriple reg stmt, stmtValue stmt))) =
        storeItems reg cfg := by
      unfold storeItems
      rw [List.map_flatMap]
      apply List.flatMap_congr
      intro item hitemm
      obtain ⟨c, hc, h1, h2, h3, h4, h5⟩ :=
        hitem item ((mem_sortStore reg cfg item).mp hitemm)
      exact block_items_eq reg hb item.1.1 item.1.2 c item.2 hc h1 h2 h3
        h4 h5
    rw [hcfg', dget2_foldl_setParam]
    have h0 : dget2 (⟨false, [], [], SelectorMap.empty, [], []⟩ :
        GinState).config key arg = none := rfl
    rw [h0, Option.or_none, hitemsEq,
      dgetLast_eq_dget_of_nodup _ (storeItems_keys_nodup reg cfg hnod1
        hnod2)]
    exact dget_storeItems reg cfg hnod1 hnod2 key arg

end Gin

namespace Gin

/-- The configurable of the C3 witness: selector `f`, parameters `x` and
`y`, no `**kwargs`, no allow/deny lists, not a method. -/
def c3wcf : Configurable := ⟨"f", ["x", "y"], false, [], [], false⟩

/-- The C3 witness registry, holding only `f`. -/
def c3wreg : SelectorMap Configurable :=
  ⟨SelTree.node none [("f", SelTree.node (some "f") [])], [("f", c3wcf)]⟩

/-- The C3 witness store: a representable `f.x = 3` and a
non-representable foreign object bound at `f.y`. -/
def c3wcfg : Store GinVal :=
  [(("", "f"), [("x", GinVal.vint 3), ("y", GinVal.foreign 0)])]

theorem claim_C3_witness :
    (formatValue (GinVal.vint 3) = some "3" ↔
      ("3" = pformatModel (GinVal.vint 3) ∧
        parseValue "3" = .ok (GinVal.vint 3))) ∧
    ∃ st', parseConfigStatements c3wreg
        ⟨false, [], [], SelectorMap.empty, [], []⟩ [("f.x", "3")] =
          .ok st' ∧
      ∀ key arg, dget2 st'.config key arg =
        (dget2 c3wcfg key arg).filter isLiterallyRepresentable := by
  have hb : Built c3wreg :=
    @Built.insert Configurable SelectorMap.empty _ "f" c3wcf Built.empty
      (by rfl)
  exact ⟨claim_C3_render_parse_roundtrip.1 (GinVal.vint 3) "3",
    claim_C3_render_parse_roundtrip.2 c3wreg c3wcfg [("f.x", "3")] hb
      (by decide) (by decide) (by decide) (by decide) (by rfl)⟩

end Gin
